import Mathlib

/-!
Prefix-bitmask sparse-frame encoder (`src/encoder.hpp`)

A shallow embedding of `PrefixBitmaskEncoder` and a verification of the
properties its specification states.

Modelling conventions.

* A `float` is its IEEE-754 binary32 bit pattern, a natural number below `2^32`.
  The only float operations of the source are `std::abs` and `>`, both modelled
  bit-exactly (`F32.abs`, `F32.gt`), NaN included.
* `std::vector<float>` is a `List Nat`; `samples[i]` is `samples.getD i 0`.
* The `Byte[32]` stack arrays are lists of 32 naturals, read with `getD` and
  written with `List.set`.
* `buf` is write-only and is written front to back without gaps, so the model
  returns the list of bytes written, in order, starting at `buf[0]`.
  `memcpy` of an object appends its object representation in host byte order.
* `channels`, positions and counters are naturals (the source's `int`s are
  non-negative on every call with `from_pos ≥ 0`, and stay far below `2^31` for
  buffers of fewer than `2^30` floats); `udp_payload_capacity` is an integer and
  the conversions of `bytes_availible / sizeof(float)` (`int` to a 64-bit `size_t`,
  then `static_cast<int>`) are explicit. The `std::int16_t` counter wraps modulo
  `2^16`.
* `while` loops take fuel; `none` means the loop did not finish. The fuel
  `len(samples) + 1` is enough whenever `channels ≥ 1`.
* The source requires `channels` in `[1,255]`; beyond 256 channels it indexes the
  32-byte arrays out of bounds, where the model reads `0` and drops the write.
-/

namespace PrefixBitmaskEncoder

/-! ## Machine-level helpers -/

/-- Host byte order of the encoder process. -/
inductive Endian where
  | little
  | big
  deriving DecidableEq, Repr

/-- The `n` low-order bytes of `v`, least significant first. -/
def le_bytes : Nat → Nat → List Nat
  | 0, _ => []
  | n + 1, v => (v % 256) :: le_bytes n (v / 256)

/-- Object representation of an `n`-byte unsigned value, as `memcpy` copies it. -/
def obj_bytes (host : Endian) (n v : Nat) : List Nat :=
  match host with
  | Endian.little => le_bytes n v
  | Endian.big => (le_bytes n v).reverse

/-- Conversion of an integer to `std::int16_t` (two's complement wrap). -/
def to_int16 (x : Int) : Int := (x + 32768) % 65536 - 32768

/-- Conversion of an `int` to `size_t` (64 bit). -/
def to_size_t (x : Int) : Int := x % 18446744073709551616

/-- The `static_cast<int>` of an unsigned value (32-bit two's complement). -/
def to_int (x : Int) : Int := (x + 2147483648) % 4294967296 - 2147483648

/-- Object representation of a `std::int16_t`. -/
def int16_bytes (host : Endian) (z : Int) : List Nat :=
  obj_bytes host 2 (z % 65536).toNat

/-- Object representation of a `float` given by its bit pattern. -/
def float_bytes (host : Endian) (x : Nat) : List Nat :=
  obj_bytes host 4 x

/-! ## IEEE-754 binary32 comparisons on bit patterns -/

namespace F32

/-- NaN: exponent field all ones and non-zero mantissa. -/
def isNaN (x : Nat) : Bool := (x / 8388608) % 256 == 255 && x % 8388608 != 0

/-- The function `std::abs`: clears the sign bit. -/
def abs (x : Nat) : Nat := x % 2147483648

/-- Sign bit. -/
def sign (x : Nat) : Bool := (x / 2147483648) % 2 == 1

/-- The comparison `a > b` of two floats. -/
def gt (a b : Nat) : Bool :=
  if isNaN a || isNaN b then false
  else
    match sign a, sign b with
    | false, false => decide (abs b < abs a)
    | false, true => !(abs a == 0 && abs b == 0)
    | true, false => false
    | true, true => decide (abs a < abs b)

/-- The comparison `a <= b` of two floats. -/
def le (a b : Nat) : Bool :=
  if isNaN a || isNaN b then false
  else
    match sign a, sign b with
    | false, false => decide (abs a ≤ abs b)
    | false, true => abs a == 0 && abs b == 0
    | true, false => true
    | true, true => decide (abs b ≤ abs a)

end F32

/-- The test `std::abs(samples[i]) > eps` of the source. -/
def is_active (eps x : Nat) : Bool := F32.gt (F32.abs x) eps

/-- The test `bitmask[byte] & (1 << bit)` of the source. -/
def bit_test (b bit : Nat) : Bool := (b &&& (1 <<< bit)) != 0

/-! ## `skip_prefix_zeros` -/

/-- The inner `for` loop of `skip_prefix_zeros`, `n` iterations left from index `i`:
`true` when it hits the early `return`. -/
def column_nonzero (samples : List Nat) (eps : Nat) : Nat → Nat → Bool
  | 0, _ => false
  | n + 1, i =>
    if is_active eps (samples.getD i 0) then true
    else column_nonzero samples eps n (i + 1)

/-- The `while` loop of `skip_prefix_zeros`. -/
def skip_prefix_zeros_loop (samples : List Nat) (channels eps : Nat) :
    Nat → Nat → Int → Option (Nat × Int)
  | 0, _, _ => none
  | fuel + 1, cur_pos, zero_colons =>
    if cur_pos < samples.length then
      if column_nonzero samples eps channels cur_pos then
        some (cur_pos, zero_colons)
      else
        skip_prefix_zeros_loop samples channels eps fuel (cur_pos + channels)
          (to_int16 (zero_colons + 1))
    else some (cur_pos, zero_colons)

/-- Source `skip_prefix_zeros`: returns `(cur_pos, zero_colons)`. -/
def skip_prefix_zeros (samples : List Nat) (channels eps from_pos : Nat) :
    Option (Nat × Int) :=
  skip_prefix_zeros_loop samples channels eps (samples.length + 1) from_pos 0

/-! ## `get_payload_dims` -/

/-- Locals of the inner `for` loop of `get_payload_dims` that outlive it. -/
structure Scan where
  added_bits : List Nat
  active_channels : Nat
  to_add : Nat
  deriving DecidableEq, Repr

/-- The inner `for` loop of `get_payload_dims`, `n` iterations left, at sample
index `i` with the loop counters `byte` and `bit`. -/
def scan_column (samples : List Nat) (eps : Nat) (bitmask : List Nat) (cols_passed : Nat) :
    Nat → Nat → Nat → Nat → Scan → Scan
  | 0, _, _, _, s => s
  | n + 1, i, byte, bit, s =>
    let s1 : Scan :=
      if is_active eps (samples.getD i 0) && !bit_test (bitmask.getD byte 0) bit then
        { added_bits := s.added_bits.set byte (s.added_bits.getD byte 0 ||| (1 <<< bit)),
          active_channels := s.active_channels + 1,
          to_add := s.to_add + cols_passed }
      else s
    if bit + 1 ≥ 8 then scan_column samples eps bitmask cols_passed n (i + 1) (byte + 1) 0 s1
    else scan_column samples eps bitmask cols_passed n (i + 1) byte (bit + 1) s1

/-- The loop `for (i < bitmask_bytes) bitmask[i] |= added_bits[i]`, `n` iterations
left from index `i`. -/
def merge_bits (added_bits : List Nat) : Nat → Nat → List Nat → List Nat
  | 0, _, bitmask => bitmask
  | n + 1, i, bitmask =>
    merge_bits added_bits n (i + 1)
      (bitmask.set i (bitmask.getD i 0 ||| added_bits.getD i 0))

/-- Locals of `get_payload_dims` carried around its `while` loop, with the
caller's `bitmask` array. -/
structure Dims where
  active_channels : Nat
  cur_float_cnt : Nat
  cur_pos : Nat
  cols_passed : Nat
  bitmask : List Nat
  deriving DecidableEq, Repr

/-- The `while` loop of `get_payload_dims`; the result carries the final
`cur_pos`, `cols_passed` and `bitmask`. -/
def get_payload_dims_loop (samples : List Nat) (channels eps bitmask_bytes : Nat)
    (float_capacity : Int) : Nat → Dims → Option Dims
  | 0, _ => none
  | fuel + 1, d =>
    if d.cur_pos < samples.length then
      let s := scan_column samples eps d.bitmask d.cols_passed channels d.cur_pos 0 0
        { added_bits := List.replicate 32 0, active_channels := d.active_channels, to_add := 0 }
      if ((d.cur_float_cnt + s.to_add + s.active_channels : Nat) : Int) > float_capacity then
        some { d with active_channels := s.active_channels }
      else
        get_payload_dims_loop samples channels eps bitmask_bytes float_capacity fuel
          { active_channels := s.active_channels,
            cur_float_cnt := d.cur_float_cnt + (s.to_add + s.active_channels),
            cur_pos := d.cur_pos + channels,
            cols_passed := d.cols_passed + 1,
            bitmask := merge_bits s.added_bits bitmask_bytes 0 d.bitmask }
    else some d

/-- Source `get_payload_dims`: returns `(cur_pos, cols_passed)` and the updated
`bitmask` array. -/
def get_payload_dims (samples : List Nat) (channels eps from_pos : Nat) (bitmask : List Nat)
    (bitmask_bytes : Nat) (bytes_availible : Int) : Option (Nat × Nat × List Nat) :=
  let float_capacity : Int := to_int (to_size_t bytes_availible / 4)
  (get_payload_dims_loop samples channels eps bitmask_bytes float_capacity (samples.length + 1)
    { active_channels := 0, cur_float_cnt := 0, cur_pos := from_pos, cols_passed := 0,
      bitmask := bitmask }).map
    fun d => (d.cur_pos, d.cols_passed, d.bitmask)

/-! ## `encode_bitmask_payload` and `encode` -/

/-- The inner `for` loop of the writer, `n` iterations left, at sample index `j`
with the loop counters `byte` and `bit`; `buf` is what has been written so far. -/
def write_column (host : Endian) (samples bitmask : List Nat) :
    Nat → Nat → Nat → Nat → List Nat → List Nat
  | 0, _, _, _, buf => buf
  | n + 1, j, byte, bit, buf =>
    let buf1 :=
      if bit_test (bitmask.getD byte 0) bit then buf ++ float_bytes host (samples.getD j 0)
      else buf
    if bit + 1 ≥ 8 then write_column host samples bitmask n (j + 1) (byte + 1) 0 buf1
    else write_column host samples bitmask n (j + 1) byte (bit + 1) buf1

/-- The outer `for` loop of the writer, `n` columns left, at position `cur_pos`. -/
def write_columns (host : Endian) (samples bitmask : List Nat) (channels : Nat) :
    Nat → Nat → List Nat → List Nat
  | 0, _, buf => buf
  | n + 1, cur_pos, buf =>
    write_columns host samples bitmask channels n (cur_pos + channels)
      (write_column host samples bitmask channels cur_pos 0 0 buf)

/-- Source `encode_bitmask_payload`: returns `end_pos` and the bytes written. -/
def encode_bitmask_payload (host : Endian) (samples : List Nat) (channels eps from_pos : Nat)
    (bytes_availible : Int) : Option (Nat × List Nat) :=
  let bitmask_bytes := (channels + 7) / 8
  let payload_bytes : Int := bytes_availible - bitmask_bytes
  match get_payload_dims samples channels eps from_pos (List.replicate 32 0) bitmask_bytes
      payload_bytes with
  | none => none
  | some (end_pos, cols, bitmask) =>
    some (end_pos,
      write_columns host samples bitmask channels cols from_pos (bitmask.take bitmask_bytes))

/-- Source `encode`: returns the new cursor and the bytes written to `buf`. -/
def encode (host : Endian) (samples : List Nat) (channels eps from_pos : Nat)
    (udp_payload_capacity : Int) : Option (Nat × List Nat) :=
  match skip_prefix_zeros samples channels eps from_pos with
  | none => none
  | some (cur_pos, zero_colons) =>
    let used_bytes : Int := 2
    let remaining_bytes : Int := udp_payload_capacity - used_bytes
    match encode_bitmask_payload host samples channels eps cur_pos remaining_bytes with
    | none => none
    | some (end_pos, payload) => some (end_pos, int16_bytes host zero_colons ++ payload)

/-! ## Specification-level views -/

/-- Bit `c mod 8` of byte `c div 8` of a bitmask array. -/
def mask_bit (bitmask : List Nat) (c : Nat) : Bool :=
  bit_test (bitmask.getD (c / 8) 0) (c % 8)

/-- Channel `c` of the column at `pos` is active. -/
def chan_active (samples : List Nat) (eps pos c : Nat) : Bool :=
  is_active eps (samples.getD (pos + c) 0)

/-- Channel `c` is active in the column at `pos` and not yet in the bitmask. -/
def new_chan (samples : List Nat) (eps : Nat) (bitmask : List Nat) (pos c : Nat) : Bool :=
  chan_active samples eps pos c && !mask_bit bitmask c

/-- One iteration of the inner loop of `get_payload_dims` on channel `ch`. -/
def scan_step (samples : List Nat) (eps : Nat) (bitmask : List Nat) (cols_passed pos ch : Nat)
    (s : Scan) : Scan :=
  if new_chan samples eps bitmask pos ch then
    { added_bits := s.added_bits.set (ch / 8) (s.added_bits.getD (ch / 8) 0 ||| (1 <<< (ch % 8))),
      active_channels := s.active_channels + 1,
      to_add := s.to_add + cols_passed }
  else s

/-- Channel `c` is active in one of the `cols` columns that start at `start`. -/
def span_active (samples : List Nat) (eps channels start cols c : Nat) : Bool :=
  (List.range cols).any fun k => chan_active samples eps (start + k * channels) c

/-- Number of channels of the bitmask (popcount over the `channels` low bits). -/
def mask_count (bitmask : List Nat) (channels : Nat) : Nat :=
  (List.range channels).countP (mask_bit bitmask)

/-- Number of channels that are in the bitmask or active in the column at `pos`. -/
def union_count (samples : List Nat) (eps : Nat) (bitmask : List Nat) (channels pos : Nat) : Nat :=
  (List.range channels).countP fun c => mask_bit bitmask c || chan_active samples eps pos c

/-- Loop invariant of the `while` loop of `get_payload_dims`, for a planner
started at `start` on an all-zero bitmask. -/
structure PlanInv (samples : List Nat) (eps channels start : Nat) (fc : Int) (d : Dims) :
    Prop where
  len : d.bitmask.length = 32
  pos : d.cur_pos = start + d.cols_passed * channels
  mask : ∀ c, mask_bit d.bitmask c
    = (decide (c < channels) && span_active samples eps channels start d.cols_passed c)
  active : d.active_channels = mask_count d.bitmask channels
  cnt : d.cur_float_cnt = d.cols_passed * d.active_channels
  cap : d.cols_passed = 0 ∨ (d.cur_float_cnt : Int) ≤ fc
  bytes : ∀ j, d.bitmask.getD j 0 < 256
  inb : ∀ j, j < d.cols_passed → start + j * channels < samples.length

/-- What the `while` loop of `get_payload_dims` establishes on exit. -/
structure PlanPost (samples : List Nat) (eps channels start : Nat) (fc : Int) (d : Dims) :
    Prop where
  len : d.bitmask.length = 32
  pos : d.cur_pos = start + d.cols_passed * channels
  mask : ∀ c, mask_bit d.bitmask c
    = (decide (c < channels) && span_active samples eps channels start d.cols_passed c)
  cap : d.cols_passed = 0 ∨ ((d.cols_passed * mask_count d.bitmask channels : Nat) : Int) ≤ fc
  stop : samples.length ≤ d.cur_pos ∨
    fc < (((d.cols_passed + 1) * union_count samples eps d.bitmask channels d.cur_pos : Nat) : Int)
  bytes : ∀ j, d.bitmask.getD j 0 < 256
  inb : ∀ j, j < d.cols_passed → start + j * channels < samples.length

/-- The scan of the candidate column at `d.cur_pos`. -/
def scan_of (samples : List Nat) (eps channels : Nat) (d : Dims) : Scan :=
  scan_column samples eps d.bitmask d.cols_passed channels d.cur_pos 0 0
    { added_bits := List.replicate 32 0, active_channels := d.active_channels, to_add := 0 }

/-- The state after the column at `d.cur_pos` is admitted. -/
def accept_column (samples : List Nat) (eps channels bitmask_bytes : Nat) (d : Dims) : Dims :=
  { active_channels := (scan_of samples eps channels d).active_channels,
    cur_float_cnt := d.cur_float_cnt
      + ((scan_of samples eps channels d).to_add + (scan_of samples eps channels d).active_channels),
    cur_pos := d.cur_pos + channels,
    cols_passed := d.cols_passed + 1,
    bitmask := merge_bits (scan_of samples eps channels d).added_bits bitmask_bytes 0 d.bitmask }

/-- The floats of the column at `pos` whose channel is in the bitmask, in channel order. -/
def column_values (samples bitmask : List Nat) (channels pos : Nat) : List Nat :=
  ((List.range channels).filter (mask_bit bitmask)).map fun c => samples.getD (pos + c) 0

/-- The floats of `cols` columns from `start`, column by column. -/
def span_values (samples bitmask : List Nat) (channels start cols : Nat) : List Nat :=
  (List.range cols).flatMap fun k => column_values samples bitmask channels (start + k * channels)

/-- The bytes of a sequence of floats. -/
def floats_bytes (host : Endian) (vals : List Nat) : List Nat :=
  vals.flatMap (float_bytes host)

/-- No channel of the column at `pos` is active. -/
def zero_column (samples : List Nat) (eps channels pos : Nat) : Prop :=
  ∀ c, c < channels → chan_active samples eps pos c = false

/-- The value of `float_capacity` in `get_payload_dims` when called from `encode`. -/
def float_capacity (channels : Nat) (cap : Int) : Int :=
  to_int (to_size_t (cap - 2 - ((channels + 7) / 8 : Nat)) / 4)

/-- A full account of one call of `encode`: `m` zero columns are skipped and the
planner stops in state `d`. -/
structure EncodeView (host : Endian) (samples : List Nat) (channels eps from_pos : Nat)
    (cap : Int) (m : Nat) (d : Dims) : Prop where
  skip : skip_prefix_zeros samples channels eps from_pos
    = some (from_pos + m * channels, to_int16 m)
  zeros : ∀ j, j < m → from_pos + j * channels < samples.length
    ∧ zero_column samples eps channels (from_pos + j * channels)
  first : samples.length ≤ from_pos + m * channels
    ∨ column_nonzero samples eps channels (from_pos + m * channels) = true
  plan : PlanPost samples eps channels (from_pos + m * channels) (float_capacity channels cap) d
  out : encode host samples channels eps from_pos cap
    = some (d.cur_pos, int16_bytes host (to_int16 m)
        ++ ((d.bitmask.take ((channels + 7) / 8))
        ++ floats_bytes host (span_values samples (d.bitmask.take ((channels + 7) / 8)) channels
            (from_pos + m * channels) d.cols_passed)))

/-- A valid call of `encode`: `channels` in `[1,255]`, a buffer of whole columns, a
column-aligned cursor inside it, and an `int` capacity that holds the header and the
bitmask. -/
structure ValidCall (samples : List Nat) (channels from_pos : Nat) (cap : Int) : Prop where
  chan_pos : 1 ≤ channels
  chan_max : channels ≤ 255
  len_aligned : channels ∣ samples.length
  pos_aligned : channels ∣ from_pos
  pos_le : from_pos ≤ samples.length
  cap_min : 2 + (((channels + 7) / 8 : Nat) : Int) ≤ cap
  cap_int : cap < 2147483648

/-- Scenario S6 of the specification: the floats `1, 2, 3, 4, 5, 6`. -/
def s6_samples : List Nat :=
  [0x3F800000, 0x40000000, 0x40400000, 0x40800000, 0x40A00000, 0x40C00000]

/-- Scenario S2 of the specification: the floats `0, 0, 0.5, 0, 0, 0`. -/
def s2_samples : List Nat := [0, 0, 0x3F000000, 0, 0, 0]

/-- The observable outcome of one call of `encode`: the scanner stops at position `p`
with counter `z`, `cols` columns are included, the cursor returned is `p + cols * channels`
and the packet is the 2 bytes of `z`, the bitmask bytes `mask` and the floats of the
included columns on the channels of `mask`. -/
structure Emits (host : Endian) (samples : List Nat) (channels eps from_pos : Nat) (cap : Int)
    (p : Nat) (z : Int) (cols : Nat) (mask : List Nat) : Prop where
  scan : skip_prefix_zeros samples channels eps from_pos = some (p, z)
  mask_len : mask.length = (channels + 7) / 8
  inside : p + cols * channels ≤ samples.length
  out : encode host samples channels eps from_pos cap
    = some (p + cols * channels,
        int16_bytes host z ++ (mask ++ floats_bytes host (span_values samples mask channels p cols)))

/-! ## Reference decoder -/

/-- The value of a byte list read least significant byte first. -/
def read_le : List Nat → Nat
  | [] => 0
  | b :: t => b + 256 * read_le t

/-- Modelled from the spec: the decoder is not part of the repository; it reads an
object back from its host-order representation, the dual of `memcpy` in the writer. -/
def read_obj (host : Endian) (bytes : List Nat) : Nat :=
  match host with
  | Endian.little => read_le bytes
  | Endian.big => read_le bytes.reverse

/-- Modelled from the spec: the reference decoder on one column, which is not part of the
repository. For each channel `c` in order, channel `c` takes the next float of the
values section if bit `c` of the bitmask is set, and `0` otherwise. Returns the decoded
column and the unread input. -/
def decode_column (host : Endian) (mask : List Nat) : Nat → Nat → List Nat → List Nat × List Nat
  | 0, _, inp => ([], inp)
  | n + 1, c, inp =>
    if mask_bit mask c then
      ((read_obj host (inp.take 4)) :: (decode_column host mask n (c + 1) (inp.drop 4)).1,
        (decode_column host mask n (c + 1) (inp.drop 4)).2)
    else
      (0 :: (decode_column host mask n (c + 1) inp).1, (decode_column host mask n (c + 1) inp).2)

/-- Modelled from the spec: the reference decoder, which is not part of the repository,
reading `cols` columns in order from the values section. -/
def decode_columns (host : Endian) (mask : List Nat) (channels : Nat) : Nat → List Nat → List Nat
  | 0, _ => []
  | n + 1, inp =>
    (decode_column host mask channels 0 inp).1
      ++ decode_columns host mask channels n (decode_column host mask channels 0 inp).2

/-- The `cols` columns of `samples` from position `p` with every cell whose channel is not
in the bitmask replaced by `0`. -/
def masked_span (samples mask : List Nat) (channels p cols : Nat) : List Nat :=
  (List.range cols).flatMap fun k =>
    (List.range channels).map fun c =>
      if mask_bit mask c then samples.getD (p + k * channels + c) 0 else 0

/-- The per-packet round-trip property as the specification words it: the decoder returns
the included columns with the cells outside the bitmask replaced by `0`, and every cell
replaced by `0` satisfies `|x| ≤ eps`. -/
def RoundTripAsStated (host : Endian) (samples : List Nat) (channels eps from_pos : Nat)
    (cap : Int) : Prop :=
  ∃ (p : Nat) (z : Int) (cols : Nat) (mask : List Nat),
    Emits host samples channels eps from_pos cap p z cols mask ∧
    decode_columns host mask channels cols
        (floats_bytes host (span_values samples mask channels p cols))
      = masked_span samples mask channels p cols ∧
    ∀ k c, k < cols → c < channels → mask_bit mask c = false →
      F32.le (F32.abs (samples.getD (p + k * channels + c) 0)) eps = true

/-- The skip-correctness property as the specification words it: the scanner stops at the
first column with an active cell or at the end of the buffer, and every cell it passed
over satisfies `|x| ≤ eps`. -/
def SkipAsStated (samples : List Nat) (channels eps from_pos : Nat) : Prop :=
  ∃ m : Nat,
    skip_prefix_zeros samples channels eps from_pos
      = some (from_pos + m * channels, to_int16 m) ∧
    from_pos + m * channels ≤ samples.length ∧
    (from_pos + m * channels = samples.length ∨
      ∃ c, c < channels
        ∧ F32.gt (F32.abs (samples.getD (from_pos + m * channels + c) 0)) eps = true) ∧
    (∀ i, from_pos ≤ i → i < from_pos + m * channels →
      F32.le (F32.abs (samples.getD i 0)) eps = true) ∧
    ∀ j : Nat, (j : Int) < to_int16 m → j < m

/-- Modelled from the spec: the caller's loop, which is not part of the repository. The
cursor after `n` calls of `encode` chained by the returned cursor, starting at `pos`. -/
def encode_chain (host : Endian) (samples : List Nat) (channels eps : Nat) (cap : Int) :
    Nat → Nat → Option Nat
  | 0, pos => some pos
  | n + 1, pos =>
    match encode host samples channels eps pos cap with
    | none => none
    | some (r, _) => encode_chain host samples channels eps cap n r

/-- Number of active channels (`|x| > eps`) of the column at `pos`. -/
def active_count (samples : List Nat) (eps channels pos : Nat) : Nat :=
  (List.range channels).countP (chan_active samples eps pos)

/-- The strict-progress property as the specification words it: a capacity that holds
the header, the bitmask and one float makes the cursor advance. -/
def StrictProgressAsStated (host : Endian) (samples : List Nat) (channels eps from_pos : Nat)
    (cap : Int) : Prop :=
  2 + (((channels + 7) / 8 : Nat) : Int) + 4 ≤ cap →
    ∃ (r : Nat) (pkt : List Nat),
      encode host samples channels eps from_pos cap = some (r, pkt) ∧ from_pos < r

/-- Number of set bits among the 8 bits of a byte. -/
def byte_popcount (b : Nat) : Nat := (List.range 8).countP (bit_test b)

/-- Popcount of a sequence of bitmask bytes. -/
def bitmask_popcount (mask : List Nat) : Nat := (mask.map byte_popcount).sum

/-- Modelled from the spec: the decoder, which is not part of the repository, infers the
column count from the packet length as
`(packet_len − 2 − ⌈C/8⌉) / (4 · popcount(bitmask))` when the popcount is positive, and
`0` otherwise. -/
def infer_cols (channels : Nat) (pkt : List Nat) : Nat :=
  if 0 < bitmask_popcount ((pkt.drop 2).take ((channels + 7) / 8)) then
    (pkt.length - 2 - (channels + 7) / 8)
      / (4 * bitmask_popcount ((pkt.drop 2).take ((channels + 7) / 8)))
  else 0

/-- Modelled from the spec: the decoder, which is not part of the repository, reads the
signed 16-bit `skip_count` from the first two bytes of a packet. -/
def read_int16 (host : Endian) (bytes : List Nat) : Int :=
  to_int16 (read_obj host bytes)

/-- The invalid-configuration property as the specification words it: `encode` writes no
byte of `buf`. -/
def RejectsAsStated (host : Endian) (samples : List Nat) (channels eps from_pos : Nat)
    (cap : Int) : Prop :=
  ∀ (r : Nat) (pkt : List Nat),
    encode host samples channels eps from_pos cap = some (r, pkt) → pkt = []

/-- Scenario S5 of the specification, with one column of eight samples `1.0`. -/
def s5_samples : List Nat := List.replicate 8 0x3F800000

/-- Number of distinct channels active in at least one of the first `n` columns from
`start`. -/
def span_count (samples : List Nat) (eps channels start n : Nat) : Nat :=
  (List.range channels).countP (span_active samples eps channels start n)

/-- Scenario S3 of the specification: ten columns of four channels, channel 0 at `1.0` in
columns 0 to 4 and channel 3 at `1.0` from column 5 on. -/
def s3_samples : List Nat :=
  [0x3F800000, 0, 0, 0, 0x3F800000, 0, 0, 0, 0x3F800000, 0, 0, 0, 0x3F800000, 0, 0, 0,
   0x3F800000, 0, 0, 0, 0, 0, 0, 0x3F800000, 0, 0, 0, 0x3F800000, 0, 0, 0, 0x3F800000,
   0, 0, 0, 0x3F800000, 0, 0, 0, 0x3F800000]

/-! ## States of the planner loop -/

/-- The state of `get_payload_dims` on entry, for a planner started at `start`. -/
def dims_init (start : Nat) : Dims :=
  { active_channels := 0, cur_float_cnt := 0, cur_pos := start, cols_passed := 0,
    bitmask := List.replicate 32 0 }

/-- One iteration of the `while` loop of `get_payload_dims` that admits its column:
`none` when the loop returns instead (end of buffer or rejection). -/
def plan_step (samples : List Nat) (channels eps bitmask_bytes : Nat) (fc : Int) (d : Dims) :
    Option Dims :=
  if d.cur_pos < samples.length then
    if ((d.cur_float_cnt + (scan_of samples eps channels d).to_add
        + (scan_of samples eps channels d).active_channels : Nat) : Int) > fc then none
    else some (accept_column samples eps channels bitmask_bytes d)
  else none

/-- The state of `get_payload_dims` at the head of its `while` loop after `k` admissions,
`none` when the loop has returned earlier. -/
def dims_after (samples : List Nat) (channels eps bitmask_bytes : Nat) (fc : Int)
    (start : Nat) : Nat → Option Dims
  | 0 => some (dims_init start)
  | k + 1 =>
    match dims_after samples channels eps bitmask_bytes fc start k with
    | none => none
    | some d => plan_step samples channels eps bitmask_bytes fc d

/-- The value of `active_channels` right after the `j`-th admission (`0` when there is
none). -/
def active_at (samples : List Nat) (channels eps bitmask_bytes : Nat) (fc : Int)
    (start j : Nat) : Nat :=
  match dims_after samples channels eps bitmask_bytes fc start j with
  | none => 0
  | some d => d.active_channels

/-- The sum `f 1 + ... + f k`: with `f = active_at`, the sum over the `k` committed columns
of the active-channel count at the moment each was committed. -/
def commit_sum (f : Nat → Nat) : Nat → Nat
  | 0 => 0
  | k + 1 => commit_sum f k + f (k + 1)

/-- The planner state of scenario S3 after the five admissions of the first packet. -/
def s3_after_five : Dims :=
  { active_channels := 1, cur_float_cnt := 5, cur_pos := 20, cols_passed := 5,
    bitmask := 1 :: List.replicate 31 0 }

/-- Two columns of two channels: `1.0, 0` then `1.0, 1.0` (a channel enters the bitmask in
the second column). -/
def late_channel_samples : List Nat := [0x3F800000, 0, 0x3F800000, 0x3F800000]

/-- The accounting of `cur_float_cnt` as the specification words it: after `k` admissions
it is the sum over the committed columns of the active-channel count at commit time, and
it equals `cols_passed * active_channels` only if no channel was added after the first
committed column. -/
def CommitSumAsStated (samples : List Nat) (channels eps : Nat) (fc : Int) (start k : Nat) :
    Prop :=
  ∀ d, dims_after samples channels eps ((channels + 7) / 8) fc start k = some d →
    d.cur_float_cnt
      = commit_sum (active_at samples channels eps ((channels + 7) / 8) fc start) k ∧
    (d.cur_float_cnt = d.cols_passed * d.active_channels →
      ∀ j, 1 ≤ j → j ≤ k →
        active_at samples channels eps ((channels + 7) / 8) fc start j
          = active_at samples channels eps ((channels + 7) / 8) fc start 1)

/-! ## Bounds-checked embedding

The same code with every array access checked: a read of `samples[i]` needs
`i < len(samples)`, and an access to byte `i` of the 32-byte arrays `bitmask` and
`added_bits` needs `i < lim`, where `lim` is `bitmask_bytes = ⌈C/8⌉`, and `i` inside the
array. A failed check gives `none`. -/

/-- Checked read of byte `i` of a stack array of which `lim` bytes are in use. -/
def byte_read (a : List Nat) (lim i : Nat) : Option Nat :=
  if i < lim then a[i]? else none

/-- The inner `for` loop of `skip_prefix_zeros` with checked reads. -/
def column_nonzero_chk (samples : List Nat) (eps : Nat) : Nat → Nat → Option Bool
  | 0, _ => some false
  | n + 1, i =>
    match samples[i]? with
    | none => none
    | some x =>
      if is_active eps x then some true
      else column_nonzero_chk samples eps n (i + 1)

/-- The `while` loop of `skip_prefix_zeros` with checked reads. -/
def skip_prefix_zeros_loop_chk (samples : List Nat) (channels eps : Nat) :
    Nat → Nat → Int → Option (Nat × Int)
  | 0, _, _ => none
  | fuel + 1, cur_pos, zero_colons =>
    if cur_pos < samples.length then
      match column_nonzero_chk samples eps channels cur_pos with
      | none => none
      | some true => some (cur_pos, zero_colons)
      | some false =>
        skip_prefix_zeros_loop_chk samples channels eps fuel (cur_pos + channels)
          (to_int16 (zero_colons + 1))
    else some (cur_pos, zero_colons)

/-- The function `skip_prefix_zeros` with checked reads. -/
def skip_prefix_zeros_chk (samples : List Nat) (channels eps from_pos : Nat) :
    Option (Nat × Int) :=
  skip_prefix_zeros_loop_chk samples channels eps (samples.length + 1) from_pos 0

/-- The body of the `if` in the inner loop of `get_payload_dims` with checked accesses:
the test reads `samples[i]` and, when that cell is active, `bitmask[byte]`; the update
reads and writes `added_bits[byte]`. -/
def scan_cell_chk (samples : List Nat) (eps : Nat) (bitmask : List Nat) (cols_passed lim : Nat)
    (i byte bit : Nat) (s : Scan) : Option Scan :=
  match samples[i]? with
  | none => none
  | some x =>
    if is_active eps x then
      match byte_read bitmask lim byte with
      | none => none
      | some b =>
        if !bit_test b bit then
          match byte_read s.added_bits lim byte with
          | none => none
          | some a =>
            some { added_bits := s.added_bits.set byte (a ||| (1 <<< bit)),
                   active_channels := s.active_channels + 1,
                   to_add := s.to_add + cols_passed }
        else some s
    else some s

/-- The inner `for` loop of `get_payload_dims` with checked accesses. -/
def scan_column_chk (samples : List Nat) (eps : Nat) (bitmask : List Nat)
    (cols_passed lim : Nat) : Nat → Nat → Nat → Nat → Scan → Option Scan
  | 0, _, _, _, s => some s
  | n + 1, i, byte, bit, s =>
    match scan_cell_chk samples eps bitmask cols_passed lim i byte bit s with
    | none => none
    | some s1 =>
      if bit + 1 ≥ 8 then
        scan_column_chk samples eps bitmask cols_passed lim n (i + 1) (byte + 1) 0 s1
      else scan_column_chk samples eps bitmask cols_passed lim n (i + 1) byte (bit + 1) s1

/-- The loop `for (i < bitmask_bytes) bitmask[i] |= added_bits[i]` with checked accesses. -/
def merge_bits_chk (added_bits : List Nat) (lim : Nat) : Nat → Nat → List Nat → Option (List Nat)
  | 0, _, bitmask => some bitmask
  | n + 1, i, bitmask =>
    match byte_read bitmask lim i, byte_read added_bits lim i with
    | some b, some a => merge_bits_chk added_bits lim n (i + 1) (bitmask.set i (b ||| a))
    | _, _ => none

/-- The `while` loop of `get_payload_dims` with checked accesses. -/
def get_payload_dims_loop_chk (samples : List Nat) (channels eps bitmask_bytes : Nat)
    (float_capacity : Int) : Nat → Dims → Option Dims
  | 0, _ => none
  | fuel + 1, d =>
    if d.cur_pos < samples.length then
      match scan_column_chk samples eps d.bitmask d.cols_passed bitmask_bytes channels
          d.cur_pos 0 0
          { added_bits := List.replicate 32 0, active_channels := d.active_channels,
            to_add := 0 } with
      | none => none
      | some s =>
        if ((d.cur_float_cnt + s.to_add + s.active_channels : Nat) : Int) > float_capacity then
          some { d with active_channels := s.active_channels }
        else
          match merge_bits_chk s.added_bits bitmask_bytes bitmask_bytes 0 d.bitmask with
          | none => none
          | some bm =>
            get_payload_dims_loop_chk samples channels eps bitmask_bytes float_capacity fuel
              { active_channels := s.active_channels,
                cur_float_cnt := d.cur_float_cnt + (s.to_add + s.active_channels),
                cur_pos := d.cur_pos + channels,
                cols_passed := d.cols_passed + 1,
                bitmask := bm }
    else some d

/-- The function `get_payload_dims` with checked accesses. -/
def get_payload_dims_chk (samples : List Nat) (channels eps from_pos : Nat) (bitmask : List Nat)
    (bitmask_bytes : Nat) (bytes_availible : Int) : Option (Nat × Nat × List Nat) :=
  let float_capacity : Int := to_int (to_size_t bytes_availible / 4)
  (get_payload_dims_loop_chk samples channels eps bitmask_bytes float_capacity
    (samples.length + 1)
    { active_channels := 0, cur_float_cnt := 0, cur_pos := from_pos, cols_passed := 0,
      bitmask := bitmask }).map
    fun d => (d.cur_pos, d.cols_passed, d.bitmask)

/-- The inner `for` loop of the writer with checked accesses: it reads `bitmask[byte]`
and, when the bit is set, `samples[j]`. -/
def write_column_chk (host : Endian) (samples bitmask : List Nat) (lim : Nat) :
    Nat → Nat → Nat → Nat → List Nat → Option (List Nat)
  | 0, _, _, _, buf => some buf
  | n + 1, j, byte, bit, buf =>
    match byte_read bitmask lim byte with
    | none => none
    | some b =>
      match (if bit_test b bit then (samples[j]?).map (fun x => buf ++ float_bytes host x)
          else some buf) with
      | none => none
      | some buf1 =>
        if bit + 1 ≥ 8 then
          write_column_chk host samples bitmask lim n (j + 1) (byte + 1) 0 buf1
        else write_column_chk host samples bitmask lim n (j + 1) byte (bit + 1) buf1

/-- The outer `for` loop of the writer with checked accesses. -/
def write_columns_chk (host : Endian) (samples bitmask : List Nat) (channels lim : Nat) :
    Nat → Nat → List Nat → Option (List Nat)
  | 0, _, buf => some buf
  | n + 1, cur_pos, buf =>
    match write_column_chk host samples bitmask lim channels cur_pos 0 0 buf with
    | none => none
    | some buf1 =>
      write_columns_chk host samples bitmask channels lim n (cur_pos + channels) buf1

/-- The function `encode_bitmask_payload` with checked accesses; the `memcpy` of the
bitmask reads its first `bitmask_bytes` bytes. -/
def encode_bitmask_payload_chk (host : Endian) (samples : List Nat)
    (channels eps from_pos : Nat) (bytes_availible : Int) : Option (Nat × List Nat) :=
  let bitmask_bytes := (channels + 7) / 8
  let payload_bytes : Int := bytes_availible - bitmask_bytes
  match get_payload_dims_chk samples channels eps from_pos (List.replicate 32 0) bitmask_bytes
      payload_bytes with
  | none => none
  | some (end_pos, cols, bitmask) =>
    if bitmask_bytes ≤ bitmask.length then
      match write_columns_chk host samples bitmask channels bitmask_bytes cols from_pos
          (bitmask.take bitmask_bytes) with
      | none => none
      | some buf => some (end_pos, buf)
    else none

/-- The function `encode` with checked accesses. -/
def encode_chk (host : Endian) (samples : List Nat) (channels eps from_pos : Nat)
    (udp_payload_capacity : Int) : Option (Nat × List Nat) :=
  match skip_prefix_zeros_chk samples channels eps from_pos with
  | none => none
  | some (cur_pos, zero_colons) =>
    let used_bytes : Int := 2
    let remaining_bytes : Int := udp_payload_capacity - used_bytes
    match encode_bitmask_payload_chk host samples channels eps cur_pos remaining_bytes with
    | none => none
    | some (end_pos, payload) => some (end_pos, int16_bytes host zero_colons ++ payload)

/-! ## Lemmas -/

theorem bit_test_eq_testBit (b k : Nat) : bit_test b k = b.testBit k := by
  unfold bit_test
  rw [Nat.one_shiftLeft]
  by_cases h : b.testBit k = true
  · rw [h]
    have h2 : (b &&& 2 ^ k).testBit k = true := by
      rw [Nat.testBit_and, h, Nat.testBit_two_pow_self]; rfl
    have : b &&& 2 ^ k ≠ 0 := by
      intro h0; rw [h0] at h2; simp at h2
    simpa using this
  · have h1 : b.testBit k = false := by simpa using h
    rw [h1]
    have : b &&& 2 ^ k = 0 := by
      apply Nat.eq_of_testBit_eq
      intro i
      rw [Nat.testBit_and, Nat.testBit_two_pow]
      by_cases hki : k = i
      · subst hki; simp [h1]
      · simp [hki]
    simp [this]

theorem bit_test_or (a b k : Nat) : bit_test (a ||| b) k = (bit_test a k || bit_test b k) := by
  simp [bit_test_eq_testBit]

theorem bit_test_zero (k : Nat) : bit_test 0 k = false := by
  simp [bit_test_eq_testBit]

theorem bit_test_shift (k j : Nat) : bit_test (1 <<< k) j = decide (k = j) := by
  rw [bit_test_eq_testBit, Nat.one_shiftLeft, Nat.testBit_two_pow]

theorem mask_bit_replicate (n c : Nat) : mask_bit (List.replicate n 0) c = false := by
  unfold mask_bit
  have : (List.replicate n 0).getD (c / 8) 0 = 0 := by
    rw [List.getD_eq_getElem?_getD]
    by_cases h : c / 8 < n
    · simp [List.getElem?_replicate, h]
    · simp [List.getElem?_replicate, h]
  rw [this, bit_test_zero]

theorem getD_set_eq (l : List Nat) (i j v : Nat) (hi : i < l.length) :
    (l.set i v).getD j 0 = if i = j then v else l.getD j 0 := by
  simp only [List.getD_eq_getElem?_getD, List.getElem?_set]
  by_cases h : i = j
  · subst h; simp [hi]
  · simp [h]

theorem mask_bit_set (l : List Nat) (ch c : Nat) (h : ch / 8 < l.length) :
    mask_bit (l.set (ch / 8) (l.getD (ch / 8) 0 ||| (1 <<< (ch % 8)))) c
      = (mask_bit l c || decide (c = ch)) := by
  unfold mask_bit
  rw [getD_set_eq _ _ _ _ h]
  by_cases h8 : ch / 8 = c / 8
  · rw [if_pos h8, bit_test_or, bit_test_shift, h8]
    congr 1
    have : (ch % 8 = c % 8) ↔ (c = ch) := by omega
    simp [this]
  · rw [if_neg h8]
    have : ¬ (c = ch) := by intro h; subst h; exact h8 rfl
    simp [this]

theorem scan_column_succ (samples : List Nat) (eps : Nat) (bm : List Nat) (cols pos n ch : Nat)
    (s : Scan) :
    scan_column samples eps bm cols (n + 1) (pos + ch) (ch / 8) (ch % 8) s
      = scan_column samples eps bm cols n (pos + (ch + 1)) ((ch + 1) / 8) ((ch + 1) % 8)
          (scan_step samples eps bm cols pos ch s) := by
  rw [scan_column]
  have hs : (if (is_active eps (samples.getD (pos + ch) 0)
        && !bit_test (bm.getD (ch / 8) 0) (ch % 8)) = true then
      ({ added_bits := s.added_bits.set (ch / 8) (s.added_bits.getD (ch / 8) 0 ||| (1 <<< (ch % 8))),
         active_channels := s.active_channels + 1,
         to_add := s.to_add + cols } : Scan)
      else s) = scan_step samples eps bm cols pos ch s := rfl
  simp only [hs]
  by_cases h : ch % 8 + 1 ≥ 8
  · rw [if_pos h]
    have h1 : (ch + 1) / 8 = ch / 8 + 1 := by omega
    have h2 : (ch + 1) % 8 = 0 := by omega
    rw [h1, h2]; rfl
  · rw [if_neg h]
    have h1 : (ch + 1) / 8 = ch / 8 := by omega
    have h2 : (ch + 1) % 8 = ch % 8 + 1 := by omega
    rw [h1, h2]; rfl

theorem scan_column_spec (samples : List Nat) (eps : Nat) (bm : List Nat) (cols pos : Nat) :
    ∀ (n ch : Nat) (s : Scan), s.added_bits.length = 32 → ch + n ≤ 256 →
      (scan_column samples eps bm cols n (pos + ch) (ch / 8) (ch % 8) s).added_bits.length = 32 ∧
      (∀ c, mask_bit (scan_column samples eps bm cols n (pos + ch) (ch / 8) (ch % 8) s).added_bits c
          = (mask_bit s.added_bits c
              || (decide (ch ≤ c ∧ c < ch + n) && new_chan samples eps bm pos c))) ∧
      (scan_column samples eps bm cols n (pos + ch) (ch / 8) (ch % 8) s).active_channels
          = s.active_channels + (List.range' ch n).countP (new_chan samples eps bm pos) ∧
      (scan_column samples eps bm cols n (pos + ch) (ch / 8) (ch % 8) s).to_add
          = s.to_add + cols * (List.range' ch n).countP (new_chan samples eps bm pos) := by
  intro n
  induction n with
  | zero =>
    intro ch s hlen _
    refine ⟨by simpa [scan_column] using hlen, ?_, by simp [scan_column], by simp [scan_column]⟩
    intro c
    have : ¬ (ch ≤ c ∧ c < ch + 0) := by omega
    simp [scan_column, this]
  | succ n ih =>
    intro ch s hlen hb
    rw [scan_column_succ]
    have hstep_len : (scan_step samples eps bm cols pos ch s).added_bits.length = 32 := by
      unfold scan_step; split <;> simp [hlen]
    obtain ⟨h1, h2, h3, h4⟩ := ih (ch + 1) (scan_step samples eps bm cols pos ch s) hstep_len
      (by omega)
    refine ⟨h1, ?_, ?_, ?_⟩
    · intro c
      rw [h2 c]
      by_cases hn : new_chan samples eps bm pos ch = true
      · have hm : mask_bit (scan_step samples eps bm cols pos ch s).added_bits c
            = (mask_bit s.added_bits c || decide (c = ch)) := by
          unfold scan_step; rw [if_pos hn]
          exact mask_bit_set _ _ _ (by rw [hlen]; omega)
        rw [hm]
        by_cases hc : c = ch
        · subst hc
          have a1 : (c ≤ c ∧ c < c + (n + 1)) := by omega
          simp [hn, a1]
        · have a1 : (ch + 1 ≤ c ∧ c < ch + 1 + n) ↔ (ch ≤ c ∧ c < ch + (n + 1)) := by omega
          simp [hc, a1]
      · have hm : scan_step samples eps bm cols pos ch s = s := by
          unfold scan_step; rw [if_neg hn]
        rw [hm]
        by_cases hc : c = ch
        · subst hc
          have a1 : ¬ (c + 1 ≤ c ∧ c < c + 1 + n) := by omega
          have hn2 : new_chan samples eps bm pos c = false := by simpa using hn
          simp [a1, hn2]
        · have a1 : (ch + 1 ≤ c ∧ c < ch + 1 + n) ↔ (ch ≤ c ∧ c < ch + (n + 1)) := by omega
          simp [a1]
    · rw [h3, List.range'_succ, List.countP_cons]
      unfold scan_step
      split <;> rename_i hn
      · simp [hn]; omega
      · simp [hn]
    · rw [h4, List.range'_succ, List.countP_cons]
      unfold scan_step
      split <;> rename_i hn
      · simp [hn]; ring
      · simp [hn]

theorem scan_step_length (samples : List Nat) (eps : Nat) (bm : List Nat) (cols pos ch : Nat)
    (s : Scan) : (scan_step samples eps bm cols pos ch s).added_bits.length
      = s.added_bits.length := by
  unfold scan_step; split <;> simp

theorem scan_column_bytes (samples : List Nat) (eps : Nat) (bm : List Nat) (cols pos : Nat) :
    ∀ (n ch : Nat) (s : Scan), s.added_bits.length = 32 → ch + n ≤ 256 →
      (∀ j, s.added_bits.getD j 0 < 256) →
      ∀ j, (scan_column samples eps bm cols n (pos + ch) (ch / 8) (ch % 8) s).added_bits.getD j 0
        < 256 := by
  intro n
  induction n with
  | zero => intro ch s _ _ hs j; simpa [scan_column] using hs j
  | succ n ih =>
    intro ch s hlen hb hs
    rw [scan_column_succ]
    apply ih (ch + 1) _ (by rw [scan_step_length, hlen]) (by omega)
    intro j
    unfold scan_step
    split
    · show (s.added_bits.set (ch / 8) (s.added_bits.getD (ch / 8) 0 ||| (1 <<< (ch % 8)))).getD j 0
        < 256
      rw [getD_set_eq _ _ _ _ (by rw [hlen]; omega)]
      split
      · have h1 : (1 : Nat) <<< (ch % 8) < 2 ^ 8 := by
          rw [Nat.one_shiftLeft]
          exact (Nat.pow_lt_pow_iff_right (by omega)).2 (by omega)
        exact Nat.or_lt_two_pow (hs _) h1
      · exact hs j
    · exact hs j

theorem merge_bits_spec (ab : List Nat) :
    ∀ (n i : Nat) (bm : List Nat), i + n ≤ bm.length →
      (merge_bits ab n i bm).length = bm.length ∧
      ∀ j, (merge_bits ab n i bm).getD j 0
        = if i ≤ j ∧ j < i + n then bm.getD j 0 ||| ab.getD j 0 else bm.getD j 0 := by
  intro n
  induction n with
  | zero =>
    intro i bm _
    refine ⟨rfl, ?_⟩
    intro j
    have : ¬ (i ≤ j ∧ j < i + 0) := by omega
    rw [if_neg this, merge_bits]
  | succ n ih =>
    intro i bm h
    rw [merge_bits]
    obtain ⟨h1, h2⟩ := ih (i + 1) (bm.set i (bm.getD i 0 ||| ab.getD i 0))
      (by rw [List.length_set]; omega)
    refine ⟨by rw [h1, List.length_set], ?_⟩
    intro j
    rw [h2 j, getD_set_eq _ _ _ _ (by omega)]
    by_cases hij : i = j
    · subst hij
      have a1 : ¬ (i + 1 ≤ i ∧ i < i + 1 + n) := by omega
      have a2 : (i ≤ i ∧ i < i + (n + 1)) := by omega
      simp [a1, a2]
    · by_cases hr : i + 1 ≤ j ∧ j < i + 1 + n
      · have a2 : (i ≤ j ∧ j < i + (n + 1)) := by omega
        rw [if_pos hr, if_pos a2, if_neg hij]
      · have a2 : ¬ (i ≤ j ∧ j < i + (n + 1)) := by omega
        rw [if_neg hr, if_neg a2, if_neg hij]

theorem mask_bit_merge (ab bm : List Nat) (n c : Nat) (h : n ≤ bm.length) :
    mask_bit (merge_bits ab n 0 bm) c
      = if c / 8 < n then (mask_bit bm c || mask_bit ab c) else mask_bit bm c := by
  unfold mask_bit
  rw [(merge_bits_spec ab n 0 bm (by omega)).2]
  by_cases hc : c / 8 < n
  · have : (0 ≤ c / 8 ∧ c / 8 < 0 + n) := by omega
    rw [if_pos this, if_pos hc, bit_test_or]
  · have : ¬ (0 ≤ c / 8 ∧ c / 8 < 0 + n) := by omega
    rw [if_neg this, if_neg hc]

theorem countP_or_of_disjoint (p q : Nat → Bool) (l : List Nat)
    (h : ∀ x ∈ l, p x = true → q x = false) :
    l.countP (fun x => p x || q x) = l.countP p + l.countP q := by
  induction l with
  | nil => simp
  | cons a t ih =>
    have ht : ∀ x ∈ t, p x = true → q x = false := fun x hx => h x (List.mem_cons_of_mem _ hx)
    rw [List.countP_cons, List.countP_cons, List.countP_cons, ih ht]
    have ha := h a (List.mem_cons_self _ _)
    cases hp : p a <;> cases hq : q a <;> simp_all <;> omega

theorem countP_congr_mem (p q : Nat → Bool) (l : List Nat) (h : ∀ x ∈ l, p x = q x) :
    l.countP p = l.countP q := by
  induction l with
  | nil => simp
  | cons a t ih =>
    rw [List.countP_cons, List.countP_cons,
      ih (fun x hx => h x (List.mem_cons_of_mem _ hx)), h a (List.mem_cons_self _ _)]

theorem span_active_succ (samples : List Nat) (eps channels start cols c : Nat) :
    span_active samples eps channels start (cols + 1) c
      = (span_active samples eps channels start cols c
          || chan_active samples eps (start + cols * channels) c) := by
  unfold span_active
  rw [List.range_succ, List.any_append]
  simp

theorem scan_of_spec (samples : List Nat) (eps channels start : Nat) (fc : Int) (d : Dims)
    (hC : channels ≤ 255) (inv : PlanInv samples eps channels start fc d) :
    (scan_of samples eps channels d).added_bits.length = 32 ∧
    (∀ j, (scan_of samples eps channels d).added_bits.getD j 0 < 256) ∧
    (∀ c, mask_bit (scan_of samples eps channels d).added_bits c
      = (decide (c < channels) && new_chan samples eps d.bitmask d.cur_pos c)) ∧
    (scan_of samples eps channels d).active_channels
      = union_count samples eps d.bitmask channels d.cur_pos ∧
    d.cur_float_cnt + (scan_of samples eps channels d).to_add
        + (scan_of samples eps channels d).active_channels
      = (d.cols_passed + 1) * union_count samples eps d.bitmask channels d.cur_pos := by
  unfold scan_of
  have key := scan_column_spec samples eps d.bitmask d.cols_passed d.cur_pos channels 0
    { added_bits := List.replicate 32 0, active_channels := d.active_channels, to_add := 0 }
    (by simp) (by omega)
  simp only [Nat.add_zero, Nat.zero_div, Nat.zero_mod, Nat.zero_add] at key
  obtain ⟨k1, k2, k3, k4⟩ := key
  have hu : union_count samples eps d.bitmask channels d.cur_pos
      = d.active_channels
        + (List.range channels).countP (new_chan samples eps d.bitmask d.cur_pos) := by
    unfold union_count
    rw [inv.active, mask_count, ← countP_or_of_disjoint]
    · apply countP_congr_mem
      intro x _
      unfold new_chan
      cases mask_bit d.bitmask x <;> cases chan_active samples eps d.cur_pos x <;> rfl
    · intro x _ hx
      unfold new_chan
      simp [hx]
  rw [← List.range_eq_range'] at k3 k4
  have kb := scan_column_bytes samples eps d.bitmask d.cols_passed d.cur_pos channels 0
    { added_bits := List.replicate 32 0, active_channels := d.active_channels, to_add := 0 }
    (by simp) (by omega)
    (by
      intro j
      show (List.replicate 32 0).getD j 0 < 256
      rw [List.getD_eq_getElem?_getD, List.getElem?_replicate]
      split <;> simp)
  simp only [Nat.add_zero, Nat.zero_div, Nat.zero_mod] at kb
  refine ⟨k1, kb, ?_, ?_, ?_⟩
  · intro c
    rw [k2 c, mask_bit_replicate]
    simp
  · rw [hu]; exact k3
  · rw [hu, k3, k4, inv.cnt]
    ring

theorem get_payload_dims_loop_succ (samples : List Nat) (channels eps bitmask_bytes : Nat)
    (fc : Int) (fuel : Nat) (d : Dims) :
    get_payload_dims_loop samples channels eps bitmask_bytes fc (fuel + 1) d
      = if d.cur_pos < samples.length then
          if ((d.cur_float_cnt + (scan_of samples eps channels d).to_add
              + (scan_of samples eps channels d).active_channels : Nat) : Int) > fc then
            some { d with active_channels := (scan_of samples eps channels d).active_channels }
          else
            get_payload_dims_loop samples channels eps bitmask_bytes fc fuel
              (accept_column samples eps channels bitmask_bytes d)
        else some d := rfl

theorem accept_column_inv (samples : List Nat) (eps channels start : Nat) (fc : Int) (d : Dims)
    (hC : channels ≤ 255) (inv : PlanInv samples eps channels start fc d)
    (hpos : d.cur_pos < samples.length)
    (hfit : ¬ ((d.cur_float_cnt + (scan_of samples eps channels d).to_add
              + (scan_of samples eps channels d).active_channels : Nat) : Int) > fc) :
    PlanInv samples eps channels start fc (accept_column samples eps channels ((channels + 7) / 8) d) := by
  obtain ⟨s1, sb, s2, s3, s4⟩ := scan_of_spec samples eps channels start fc d hC inv
  have hmask : ∀ c, mask_bit (accept_column samples eps channels ((channels + 7) / 8) d).bitmask c
      = (decide (c < channels)
          && span_active samples eps channels start (d.cols_passed + 1) c) := by
    intro c
    show mask_bit (merge_bits _ _ 0 d.bitmask) c = _
    rw [mask_bit_merge _ _ _ _ (by rw [inv.len]; omega), span_active_succ, ← inv.pos, s2 c,
      inv.mask c]
    unfold new_chan
    rw [inv.mask c]
    by_cases hc : c < channels
    · have : c / 8 < (channels + 7) / 8 := by omega
      rw [if_pos this]
      simp only [hc, decide_True, Bool.true_and]
      cases span_active samples eps channels start d.cols_passed c <;>
        cases chan_active samples eps d.cur_pos c <;> rfl
    · simp [hc]
  have hcount : mask_count (accept_column samples eps channels ((channels + 7) / 8) d).bitmask channels
      = union_count samples eps d.bitmask channels d.cur_pos := by
    unfold mask_count union_count
    apply countP_congr_mem
    intro c hcm
    have hc : c < channels := by simpa using hcm
    rw [hmask c, span_active_succ, ← inv.pos, inv.mask c]
    simp [hc]
  refine ⟨?_, ?_, hmask, ?_, ?_, ?_, ?_, ?_⟩
  · show (merge_bits _ _ 0 d.bitmask).length = 32
    rw [(merge_bits_spec _ _ 0 d.bitmask (by rw [inv.len]; omega)).1, inv.len]
  · show d.cur_pos + channels = start + (d.cols_passed + 1) * channels
    rw [inv.pos]; ring
  · rw [hcount]; exact s3
  · show d.cur_float_cnt + ((scan_of samples eps channels d).to_add
      + (scan_of samples eps channels d).active_channels)
      = (d.cols_passed + 1) * (scan_of samples eps channels d).active_channels
    rw [← Nat.add_assoc, s4, s3]
  · right
    show ((d.cur_float_cnt + ((scan_of samples eps channels d).to_add
      + (scan_of samples eps channels d).active_channels) : Nat) : Int) ≤ fc
    rw [← Nat.add_assoc]
    omega
  · intro j
    show (merge_bits _ _ 0 d.bitmask).getD j 0 < 256
    rw [(merge_bits_spec _ _ 0 d.bitmask (by rw [inv.len]; omega)).2]
    split
    · exact Nat.or_lt_two_pow (n := 8) (inv.bytes j) (sb j)
    · exact inv.bytes j
  · intro j hj
    have hj1 : j < d.cols_passed + 1 := hj
    by_cases hjc : j < d.cols_passed
    · exact inv.inb j hjc
    · have : j = d.cols_passed := by omega
      rw [this, ← inv.pos]; exact hpos

theorem get_payload_dims_loop_spec (samples : List Nat) (eps channels start : Nat) (fc : Int)
    (hC1 : 1 ≤ channels) (hC : channels ≤ 255) :
    ∀ (fuel : Nat) (d : Dims), PlanInv samples eps channels start fc d →
      samples.length < d.cur_pos + fuel → 0 < fuel →
      ∃ d1, get_payload_dims_loop samples channels eps ((channels + 7) / 8) fc fuel d = some d1 ∧
        PlanPost samples eps channels start fc d1 ∧ d.cols_passed ≤ d1.cols_passed := by
  intro fuel
  induction fuel with
  | zero =>
    intro d inv hf hf0
    omega
  | succ fuel ih =>
    intro d inv hf _
    rw [get_payload_dims_loop_succ]
    obtain ⟨s1, _, s2, s3, s4⟩ := scan_of_spec samples eps channels start fc d hC inv
    have hcap : d.cols_passed = 0
        ∨ ((d.cols_passed * mask_count d.bitmask channels : Nat) : Int) ≤ fc := by
      rcases inv.cap with h | h
      · exact Or.inl h
      · right; rw [← inv.active, ← inv.cnt]; exact h
    by_cases hpos : d.cur_pos < samples.length
    · rw [if_pos hpos]
      by_cases hfit : ((d.cur_float_cnt + (scan_of samples eps channels d).to_add
              + (scan_of samples eps channels d).active_channels : Nat) : Int) > fc
      · rw [if_pos hfit]
        refine ⟨_, rfl, ⟨inv.len, inv.pos, inv.mask, hcap, ?_, inv.bytes, inv.inb⟩, le_refl _⟩
        right
        show fc < (((d.cols_passed + 1) * union_count samples eps d.bitmask channels d.cur_pos
          : Nat) : Int)
        rw [← s4]; exact hfit
      · rw [if_neg hfit]
        obtain ⟨d1, h1, h2, h3⟩ := ih (accept_column samples eps channels ((channels + 7) / 8) d)
          (accept_column_inv samples eps channels start fc d hC inv hpos hfit)
          (by show samples.length < d.cur_pos + channels + fuel; omega) (by omega)
        refine ⟨d1, h1, h2, ?_⟩
        have : (accept_column samples eps channels ((channels + 7) / 8) d).cols_passed
            = d.cols_passed + 1 := rfl
        omega
    · rw [if_neg hpos]
      exact ⟨d, rfl, ⟨inv.len, inv.pos, inv.mask, hcap, Or.inl (by omega), inv.bytes, inv.inb⟩,
        le_refl _⟩

theorem write_column_succ (host : Endian) (samples bm : List Nat) (pos n ch : Nat)
    (buf : List Nat) :
    write_column host samples bm (n + 1) (pos + ch) (ch / 8) (ch % 8) buf
      = write_column host samples bm n (pos + (ch + 1)) ((ch + 1) / 8) ((ch + 1) % 8)
          (if mask_bit bm ch then buf ++ float_bytes host (samples.getD (pos + ch) 0)
            else buf) := by
  rw [write_column]
  by_cases h : ch % 8 + 1 ≥ 8
  · rw [if_pos h]
    have h1 : (ch + 1) / 8 = ch / 8 + 1 := by omega
    have h2 : (ch + 1) % 8 = 0 := by omega
    rw [h1, h2]; rfl
  · rw [if_neg h]
    have h1 : (ch + 1) / 8 = ch / 8 := by omega
    have h2 : (ch + 1) % 8 = ch % 8 + 1 := by omega
    rw [h1, h2]; rfl

theorem write_column_spec (host : Endian) (samples bm : List Nat) (pos : Nat) :
    ∀ (n ch : Nat) (buf : List Nat),
      write_column host samples bm n (pos + ch) (ch / 8) (ch % 8) buf
        = buf ++ floats_bytes host
            (((List.range' ch n).filter (mask_bit bm)).map fun c => samples.getD (pos + c) 0) := by
  intro n
  induction n with
  | zero => intro ch buf; simp [write_column, floats_bytes]
  | succ n ih =>
    intro ch buf
    rw [write_column_succ, ih, List.range'_succ, List.filter_cons]
    by_cases hb : mask_bit bm ch = true
    · simp [hb, floats_bytes]
    · simp [hb, floats_bytes]

theorem write_column_eq (host : Endian) (samples bm : List Nat) (channels pos : Nat)
    (buf : List Nat) :
    write_column host samples bm channels pos 0 0 buf
      = buf ++ floats_bytes host (column_values samples bm channels pos) := by
  have h := write_column_spec host samples bm pos channels 0 buf
  simp only [Nat.add_zero, Nat.zero_div, Nat.zero_mod] at h
  rw [h, column_values, List.range_eq_range']

theorem write_columns_spec (host : Endian) (samples bm : List Nat) (channels : Nat) :
    ∀ (n pos : Nat) (buf : List Nat),
      write_columns host samples bm channels n pos buf
        = buf ++ floats_bytes host (span_values samples bm channels pos n) := by
  intro n
  induction n with
  | zero => intro pos buf; simp [write_columns, span_values, floats_bytes]
  | succ n ih =>
    intro pos buf
    rw [write_columns, ih, write_column_eq, List.append_assoc]
    congr 1
    unfold span_values floats_bytes
    rw [List.range_succ_eq_map, List.flatMap_cons, List.flatMap_append]
    congr 1
    · simp
    · congr 1
      rw [List.flatMap_map]
      congr 1
      funext k
      congr 1
      simp only [Function.comp, Nat.succ_eq_add_one]
      ring

theorem float_bytes_length (host : Endian) (x : Nat) : (float_bytes host x).length = 4 := by
  cases host <;> simp [float_bytes, obj_bytes, le_bytes]

theorem int16_bytes_length (host : Endian) (z : Int) : (int16_bytes host z).length = 2 := by
  cases host <;> simp [int16_bytes, obj_bytes, le_bytes]

theorem floats_bytes_length (host : Endian) (vals : List Nat) :
    (floats_bytes host vals).length = 4 * vals.length := by
  induction vals with
  | nil => rfl
  | cons a t ih =>
    unfold floats_bytes at ih ⊢
    rw [List.flatMap_cons, List.length_append, ih, float_bytes_length, List.length_cons]
    ring

theorem column_values_length (samples bm : List Nat) (channels pos : Nat) :
    (column_values samples bm channels pos).length = mask_count bm channels := by
  unfold column_values mask_count
  rw [List.length_map, List.countP_eq_length_filter]

theorem span_values_length (samples bm : List Nat) (channels start cols : Nat) :
    (span_values samples bm channels start cols).length = cols * mask_count bm channels := by
  unfold span_values
  induction cols with
  | zero => simp
  | succ n ih =>
    rw [List.range_succ, List.flatMap_append, List.length_append, ih]
    simp [column_values_length]
    ring

theorem column_nonzero_iff (samples : List Nat) (eps : Nat) :
    ∀ (n i : Nat), column_nonzero samples eps n i = true
      ↔ ∃ c, c < n ∧ chan_active samples eps i c = true := by
  intro n
  induction n with
  | zero => intro i; simp [column_nonzero]
  | succ n ih =>
    intro i
    rw [column_nonzero]
    by_cases h : is_active eps (samples.getD i 0) = true
    · rw [if_pos h]
      simp only [true_iff]
      exact ⟨0, by omega, by simpa [chan_active] using h⟩
    · rw [if_neg h, ih]
      constructor
      · rintro ⟨c, hc, hact⟩
        refine ⟨c + 1, by omega, ?_⟩
        unfold chan_active at hact ⊢
        rw [← hact]; congr 2; omega
      · rintro ⟨c, hc, hact⟩
        cases c with
        | zero => exact absurd (by simpa [chan_active] using hact) h
        | succ c =>
          refine ⟨c, by omega, ?_⟩
          unfold chan_active at hact ⊢
          rw [← hact]; congr 2; omega

theorem column_nonzero_false_iff (samples : List Nat) (eps n i : Nat) :
    column_nonzero samples eps n i = false ↔ zero_column samples eps n i := by
  unfold zero_column
  constructor
  · intro h c hc
    by_contra hne
    have : column_nonzero samples eps n i = true :=
      (column_nonzero_iff samples eps n i).2 ⟨c, hc, by simpa using hne⟩
    rw [h] at this; exact Bool.noConfusion this
  · intro h
    by_contra hne
    obtain ⟨c, hc, hact⟩ := (column_nonzero_iff samples eps n i).1 (by simpa using hne)
    rw [h c hc] at hact; exact Bool.noConfusion hact

theorem to_int16_succ (z : Int) : to_int16 (to_int16 z + 1) = to_int16 (z + 1) := by
  unfold to_int16; omega

theorem skip_prefix_zeros_loop_spec (samples : List Nat) (channels eps : Nat)
    (hC1 : 1 ≤ channels) :
    ∀ (fuel pos : Nat) (z : Int), samples.length < pos + fuel → 0 < fuel →
      ∃ m : Nat, skip_prefix_zeros_loop samples channels eps fuel pos (to_int16 z)
          = some (pos + m * channels, to_int16 (z + m)) ∧
        (∀ j, j < m → pos + j * channels < samples.length
          ∧ zero_column samples eps channels (pos + j * channels)) ∧
        (samples.length ≤ pos + m * channels
          ∨ column_nonzero samples eps channels (pos + m * channels) = true) := by
  intro fuel
  induction fuel with
  | zero => intro pos z _ h0; omega
  | succ fuel ih =>
    intro pos z hf _
    rw [skip_prefix_zeros_loop]
    by_cases hpos : pos < samples.length
    · rw [if_pos hpos]
      by_cases hnz : column_nonzero samples eps channels pos = true
      · rw [if_pos hnz]
        refine ⟨0, by simp, by intro j hj; omega, Or.inr (by simpa using hnz)⟩
      · rw [if_neg hnz, to_int16_succ]
        obtain ⟨m, h1, h2, h3⟩ := ih (pos + channels) (z + 1) (by omega) (by omega)
        refine ⟨m + 1, ?_, ?_, ?_⟩
        · rw [h1]
          have e1 : pos + channels + m * channels = pos + (m + 1) * channels := by ring
          have e2 : z + 1 + (m : Int) = z + ((m + 1 : Nat) : Int) := by push_cast; ring
          rw [e1, e2]
        · intro j hj
          cases j with
          | zero =>
            simp only [Nat.zero_mul, Nat.add_zero]
            exact ⟨hpos, (column_nonzero_false_iff _ _ _ _).1 (by simpa using hnz)⟩
          | succ j =>
            have e1 : pos + (j + 1) * channels = pos + channels + j * channels := by ring
            rw [e1]
            exact h2 j (by omega)
        · have e1 : pos + (m + 1) * channels = pos + channels + m * channels := by ring
          rw [e1]; exact h3
    · rw [if_neg hpos]
      exact ⟨0, by simp, by intro j hj; omega, Or.inl (by omega)⟩

theorem skip_prefix_zeros_spec (samples : List Nat) (channels eps from_pos : Nat)
    (hC1 : 1 ≤ channels) :
    ∃ m : Nat, skip_prefix_zeros samples channels eps from_pos
          = some (from_pos + m * channels, to_int16 m) ∧
        (∀ j, j < m → from_pos + j * channels < samples.length
          ∧ zero_column samples eps channels (from_pos + j * channels)) ∧
        (samples.length ≤ from_pos + m * channels
          ∨ column_nonzero samples eps channels (from_pos + m * channels) = true) := by
  obtain ⟨m, h1, h2, h3⟩ := skip_prefix_zeros_loop_spec samples channels eps hC1
    (samples.length + 1) from_pos 0 (by omega) (by omega)
  refine ⟨m, ?_, h2, h3⟩
  unfold skip_prefix_zeros
  have e0 : to_int16 0 = 0 := by decide
  rw [e0] at h1
  rw [h1]; simp

theorem float_capacity_eq (channels : Nat) (cap : Int)
    (h1 : 2 + (((channels + 7) / 8 : Nat) : Int) ≤ cap) (h2 : cap < 2147483648) :
    float_capacity channels cap = (cap - 2 - ((channels + 7) / 8 : Nat)) / 4 := by
  unfold float_capacity to_int to_size_t
  omega

theorem plan_inv_init (samples : List Nat) (eps channels start : Nat) (fc : Int) :
    PlanInv samples eps channels start fc
      { active_channels := 0, cur_float_cnt := 0, cur_pos := start, cols_passed := 0,
        bitmask := List.replicate 32 0 } := by
  refine ⟨by simp, by simp, ?_, ?_, by simp, Or.inl rfl, ?_, ?_⟩
  · intro c
    rw [mask_bit_replicate]
    simp [span_active]
  · show 0 = mask_count (List.replicate 32 0) channels
    unfold mask_count
    rw [List.countP_eq_zero.2]
    intro a _
    rw [mask_bit_replicate]
    exact Bool.false_ne_true
  · intro j
    show (List.replicate 32 0).getD j 0 < 256
    rw [List.getD_eq_getElem?_getD, List.getElem?_replicate]
    split <;> simp
  · intro j hj
    exact absurd hj (Nat.not_lt_zero _)

theorem get_payload_dims_spec (samples : List Nat) (eps channels from_pos : Nat) (b : Int)
    (hC1 : 1 ≤ channels) (hC : channels ≤ 255) :
    ∃ d : Dims, get_payload_dims samples channels eps from_pos (List.replicate 32 0)
          ((channels + 7) / 8) b = some (d.cur_pos, d.cols_passed, d.bitmask) ∧
      PlanPost samples eps channels from_pos (to_int (to_size_t b / 4)) d := by
  obtain ⟨d, h1, h2, _⟩ := get_payload_dims_loop_spec samples eps channels from_pos
    (to_int (to_size_t b / 4)) hC1 hC (samples.length + 1) _
    (plan_inv_init samples eps channels from_pos _)
    (by show samples.length < from_pos + (samples.length + 1); omega) (by omega)
  refine ⟨d, ?_, h2⟩
  unfold get_payload_dims
  simp only [h1, Option.map_some']

theorem mask_bit_take (bm : List Nat) (n c : Nat) (h : c / 8 < n) :
    mask_bit (bm.take n) c = mask_bit bm c := by
  unfold mask_bit
  rw [List.getD_eq_getElem?_getD, List.getD_eq_getElem?_getD, List.getElem?_take_of_lt h]

theorem filter_congr_mem (p q : Nat → Bool) (l : List Nat) (h : ∀ x ∈ l, p x = q x) :
    l.filter p = l.filter q := by
  induction l with
  | nil => rfl
  | cons a t ih =>
    rw [List.filter_cons, List.filter_cons,
      ih (fun x hx => h x (List.mem_cons_of_mem _ hx)), h a (List.mem_cons_self _ _)]

theorem column_values_take (samples bm : List Nat) (channels pos : Nat) :
    column_values samples (bm.take ((channels + 7) / 8)) channels pos
      = column_values samples bm channels pos := by
  unfold column_values
  rw [filter_congr_mem (mask_bit (bm.take ((channels + 7) / 8))) (mask_bit bm)]
  intro c hc
  have : c < channels := by simpa using hc
  exact mask_bit_take _ _ _ (by omega)

theorem span_values_take (samples bm : List Nat) (channels start cols : Nat) :
    span_values samples (bm.take ((channels + 7) / 8)) channels start cols
      = span_values samples bm channels start cols := by
  unfold span_values
  simp only [column_values_take]

theorem mask_count_take (bm : List Nat) (channels : Nat) :
    mask_count (bm.take ((channels + 7) / 8)) channels = mask_count bm channels := by
  unfold mask_count
  apply countP_congr_mem
  intro c hc
  have : c < channels := by simpa using hc
  exact mask_bit_take _ _ _ (by omega)

theorem encode_view (host : Endian) (samples : List Nat) (channels eps from_pos : Nat)
    (cap : Int) (hC1 : 1 ≤ channels) (hC : channels ≤ 255) :
    ∃ m d, EncodeView host samples channels eps from_pos cap m d := by
  obtain ⟨m, h1, h2, h3⟩ := skip_prefix_zeros_spec samples channels eps from_pos hC1
  obtain ⟨d, h4, h5⟩ := get_payload_dims_spec samples eps channels (from_pos + m * channels)
    (cap - 2 - ((channels + 7) / 8 : Nat)) hC1 hC
  refine ⟨m, d, h1, h2, h3, h5, ?_⟩
  unfold encode
  simp only [h1]
  unfold encode_bitmask_payload
  simp only [h4, write_columns_spec, span_values_take]

/-! ## Capacity bound -/

theorem encode_view_length (host : Endian) (samples : List Nat) (channels eps from_pos : Nat)
    (cap : Int) (m : Nat) (d : Dims) (hC : channels ≤ 255)
    (v : EncodeView host samples channels eps from_pos cap m d) :
    ∃ pkt, encode host samples channels eps from_pos cap = some (d.cur_pos, pkt) ∧
      pkt.length = 2 + (channels + 7) / 8 + 4 * (d.cols_passed * mask_count d.bitmask channels) := by
  refine ⟨_, v.out, ?_⟩
  rw [List.length_append, List.length_append, int16_bytes_length, floats_bytes_length,
    span_values_length, mask_count_take, List.length_take, v.plan.len]
  have : min ((channels + 7) / 8) 32 = (channels + 7) / 8 := by omega
  rw [this]; omega

/-- C1 (capacity bound): for `channels` in `[1,255]`, a column-aligned buffer and
cursor, and an `int` capacity of at least `2 + ⌈channels/8⌉`, `encode` returns and the
bytes it writes to `buf` (2 header bytes, `⌈channels/8⌉` bitmask bytes, 4 bytes per
emitted float) number at most `udp_payload_capacity`. -/
theorem encode_capacity_bound (host : Endian) (samples : List Nat) (channels eps from_pos : Nat)
    (cap : Int) (hC1 : 1 ≤ channels) (hC : channels ≤ 255) (_hlen : channels ∣ samples.length)
    (_hpos : channels ∣ from_pos) (_hle : from_pos ≤ samples.length)
    (hcap : 2 + (((channels + 7) / 8 : Nat) : Int) ≤ cap) (hint : cap < 2147483648) :
    ∃ (r : Nat) (pkt : List Nat) (floats : Nat),
      encode host samples channels eps from_pos cap = some (r, pkt) ∧
      pkt.length = 2 + (channels + 7) / 8 + 4 * floats ∧
      (pkt.length : Int) ≤ cap := by
  obtain ⟨m, d, v⟩ := encode_view host samples channels eps from_pos cap hC1 hC
  obtain ⟨pkt, h1, h2⟩ := encode_view_length host samples channels eps from_pos cap m d hC v
  refine ⟨d.cur_pos, pkt, d.cols_passed * mask_count d.bitmask channels, h1, h2, ?_⟩
  have hfc := float_capacity_eq channels cap hcap hint
  have hc := v.plan.cap
  rw [hfc] at hc
  rw [h2]
  rcases hc with h0 | h0
  · rw [h0]; push_cast; omega
  · push_cast at h0 ⊢; omega

/-- Witness of C1 on scenario S6 (`C = 3`, six samples, capacity 27). -/
theorem encode_capacity_bound_witness :
    ∃ (r : Nat) (pkt : List Nat) (floats : Nat),
      encode Endian.little
        [0x3F800000, 0x40000000, 0x40400000, 0x40800000, 0x40A00000, 0x40C00000] 3 0 0 27
        = some (r, pkt) ∧
      pkt.length = 2 + (3 + 7) / 8 + 4 * floats ∧ (pkt.length : Int) ≤ 27 :=
  encode_capacity_bound Endian.little
    [0x3F800000, 0x40000000, 0x40400000, 0x40800000, 0x40A00000, 0x40C00000] 3 0 0 27
    (by decide) (by decide) (by decide) (by decide) (by decide) (by decide) (by decide)

/-! ## Wire layout -/

theorem aligned_step (c len a : Nat) (h1 : c ∣ len) (h2 : c ∣ a) (h3 : a < len) :
    a + c ≤ len := by
  obtain ⟨x, rfl⟩ := h1
  obtain ⟨y, rfl⟩ := h2
  have hc : 0 < c := by
    rcases Nat.eq_zero_or_pos c with h | h
    · subst h; simp at h3
    · exact h
  have hxy : y < x := lt_of_mul_lt_mul_left h3 (Nat.zero_le c)
  calc c * y + c = c * (y + 1) := by ring
    _ ≤ c * x := Nat.mul_le_mul_left c hxy

theorem aligned_run (c len a n : Nat) (h1 : c ∣ len) (h2 : c ∣ a) (h3 : a ≤ len)
    (h4 : ∀ j, j < n → a + j * c < len) : a + n * c ≤ len := by
  cases n with
  | zero => simpa using h3
  | succ n =>
    have := aligned_step c len (a + n * c) h1
      (Dvd.dvd.add h2 (Dvd.intro_left n rfl)) (h4 n (by omega))
    calc a + (n + 1) * c = a + n * c + c := by ring
      _ ≤ len := this

theorem encode_view_bounds (host : Endian) (samples : List Nat) (channels eps from_pos : Nat)
    (cap : Int) (m : Nat) (d : Dims)
    (v : EncodeView host samples channels eps from_pos cap m d)
    (hlen : channels ∣ samples.length) (hpos : channels ∣ from_pos)
    (hle : from_pos ≤ samples.length) :
    from_pos + m * channels ≤ samples.length ∧ d.cur_pos ≤ samples.length := by
  have h1 : from_pos + m * channels ≤ samples.length :=
    aligned_run channels samples.length from_pos m hlen hpos hle (fun j hj => (v.zeros j hj).1)
  refine ⟨h1, ?_⟩
  rw [v.plan.pos]
  exact aligned_run channels samples.length (from_pos + m * channels) d.cols_passed hlen
    (Dvd.dvd.add hpos (Dvd.intro_left m rfl)) h1 v.plan.inb

/-- C2 (wire layout of the values section): on a valid call, after the 2 bytes of
`skip_count` and the `⌈C/8⌉` bitmask bytes, `encode` writes exactly the raw floats
`samples[p + k*C + c]` for each included column `k < cols` in order and, within a
column, each channel `c < C` in order whose bitmask bit is set; no test against `eps`
takes part, and `cols * popcount(bitmask)` floats are written. -/
theorem encode_values_layout (host : Endian) (samples : List Nat) (channels eps from_pos : Nat)
    (cap : Int) (hv : ValidCall samples channels from_pos cap) :
    ∃ (p : Nat) (z : Int) (cols : Nat) (mask : List Nat),
      skip_prefix_zeros samples channels eps from_pos = some (p, z) ∧
      mask.length = (channels + 7) / 8 ∧
      p + cols * channels ≤ samples.length ∧
      encode host samples channels eps from_pos cap
        = some (p + cols * channels,
            int16_bytes host z ++ (mask ++ floats_bytes host
              ((List.range cols).flatMap fun k =>
                ((List.range channels).filter fun c =>
                    bit_test (mask.getD (c / 8) 0) (c % 8)).map
                  fun c => samples.getD (p + k * channels + c) 0))) ∧
      ((List.range cols).flatMap fun k =>
          ((List.range channels).filter fun c => bit_test (mask.getD (c / 8) 0) (c % 8)).map
            fun c => samples.getD (p + k * channels + c) 0).length
        = cols * ((List.range channels).filter fun c =>
            bit_test (mask.getD (c / 8) 0) (c % 8)).length := by
  obtain ⟨m, d, v⟩ := encode_view host samples channels eps from_pos cap hv.chan_pos hv.chan_max
  have hb := encode_view_bounds host samples channels eps from_pos cap m d v hv.len_aligned
    hv.pos_aligned hv.pos_le
  refine ⟨from_pos + m * channels, to_int16 m, d.cols_passed,
    d.bitmask.take ((channels + 7) / 8), v.skip, ?_, ?_, ?_, ?_⟩
  · rw [List.length_take, v.plan.len]
    have := hv.chan_max
    omega
  · rw [← v.plan.pos]; exact hb.2
  · rw [← v.plan.pos]; exact v.out
  · have := span_values_length samples (d.bitmask.take ((channels + 7) / 8)) channels
      (from_pos + m * channels) d.cols_passed
    rw [mask_count, List.countP_eq_length_filter] at this
    exact this

/-- Witness of C2 on scenario S6: `C = 3`, `eps = 0`, samples `1..6`, capacity 27 give
bitmask `0b111`, two columns and the six floats in column-major order. -/
theorem encode_values_layout_witness :
    ValidCall s6_samples 3 0 27 ∧
    (∃ (p : Nat) (z : Int) (cols : Nat) (mask : List Nat),
      skip_prefix_zeros s6_samples 3 0 0 = some (p, z) ∧
      mask.length = (3 + 7) / 8 ∧
      p + cols * 3 ≤ s6_samples.length ∧
      encode Endian.little s6_samples 3 0 0 27
        = some (p + cols * 3,
            int16_bytes Endian.little z ++ (mask ++ floats_bytes Endian.little
              ((List.range cols).flatMap fun k =>
                ((List.range 3).filter fun c =>
                    bit_test (mask.getD (c / 8) 0) (c % 8)).map
                  fun c => s6_samples.getD (p + k * 3 + c) 0))) ∧
      ((List.range cols).flatMap fun k =>
          ((List.range 3).filter fun c => bit_test (mask.getD (c / 8) 0) (c % 8)).map
            fun c => s6_samples.getD (p + k * 3 + c) 0).length
        = cols * ((List.range 3).filter fun c =>
            bit_test (mask.getD (c / 8) 0) (c % 8)).length) ∧
    encode Endian.little s6_samples 3 0 0 27
      = some (6, int16_bytes Endian.little 0 ++ ([7] ++ floats_bytes Endian.little
          [0x3F800000, 0x40000000, 0x40400000, 0x40800000, 0x40A00000, 0x40C00000])) :=
  ⟨⟨by decide, by decide, by decide, by decide, by decide, by decide, by decide⟩,
    encode_values_layout Endian.little s6_samples 3 0 0 27
      ⟨by decide, by decide, by decide, by decide, by decide, by decide, by decide⟩,
    by decide⟩

/-! ## Bitmask -/

theorem encode_emits (host : Endian) (samples : List Nat) (channels eps from_pos : Nat)
    (cap : Int) (m : Nat) (d : Dims) (hv : ValidCall samples channels from_pos cap)
    (v : EncodeView host samples channels eps from_pos cap m d) :
    Emits host samples channels eps from_pos cap (from_pos + m * channels) (to_int16 m)
      d.cols_passed (d.bitmask.take ((channels + 7) / 8)) := by
  have hb := encode_view_bounds host samples channels eps from_pos cap m d v hv.len_aligned
    hv.pos_aligned hv.pos_le
  refine ⟨v.skip, ?_, ?_, ?_⟩
  · rw [List.length_take, v.plan.len]
    have := hv.chan_max
    omega
  · rw [← v.plan.pos]; exact hb.2
  · rw [← v.plan.pos]; exact v.out

theorem span_active_iff (samples : List Nat) (eps channels start cols c : Nat) :
    span_active samples eps channels start cols c = true
      ↔ ∃ k, k < cols ∧ is_active eps (samples.getD (start + k * channels + c) 0) = true := by
  unfold span_active chan_active
  rw [List.any_eq_true]
  constructor
  · rintro ⟨k, hk, h⟩
    exact ⟨k, by simpa using hk, h⟩
  · rintro ⟨k, hk, h⟩
    exact ⟨k, by simpa using hk, h⟩

/-- C3 (the bitmask is the union of the active channels of the span): on a valid call,
for every channel `c < C`, bit `c mod 8` of byte `c div 8` of the emitted bitmask is set
if and only if some included column `k < cols` has `|samples[p + k*C + c]| > eps`. -/
theorem encode_bitmask_union (host : Endian) (samples : List Nat) (channels eps from_pos : Nat)
    (cap : Int) (hv : ValidCall samples channels from_pos cap) :
    ∃ (p : Nat) (z : Int) (cols : Nat) (mask : List Nat),
      Emits host samples channels eps from_pos cap p z cols mask ∧
      ∀ c, c < channels →
        (bit_test (mask.getD (c / 8) 0) (c % 8) = true
          ↔ ∃ k, k < cols ∧ F32.gt (F32.abs (samples.getD (p + k * channels + c) 0)) eps = true) := by
  obtain ⟨m, d, v⟩ := encode_view host samples channels eps from_pos cap hv.chan_pos hv.chan_max
  refine ⟨_, _, _, _, encode_emits host samples channels eps from_pos cap m d hv v, ?_⟩
  intro c hc
  have h1 : mask_bit (d.bitmask.take ((channels + 7) / 8)) c = mask_bit d.bitmask c :=
    mask_bit_take _ _ _ (by omega)
  have h2 := v.plan.mask c
  rw [← h1] at h2
  unfold mask_bit at h2
  rw [h2]
  simp only [hc, decide_True, Bool.true_and]
  exact span_active_iff samples eps channels _ _ c

/-- Witness of C3 on scenario S2 (`C = 2`, `eps = 0.01`, one active cell). -/
theorem encode_bitmask_union_witness :
    ValidCall s2_samples 2 0 64 ∧
    ∃ (p : Nat) (z : Int) (cols : Nat) (mask : List Nat),
      Emits Endian.little s2_samples 2 0x3C23D70A 0 64 p z cols mask ∧
      ∀ c, c < 2 →
        (bit_test (mask.getD (c / 8) 0) (c % 8) = true
          ↔ ∃ k, k < cols
              ∧ F32.gt (F32.abs (s2_samples.getD (p + k * 2 + c) 0)) 0x3C23D70A = true) :=
  ⟨⟨by decide, by decide, by decide, by decide, by decide, by decide, by decide⟩,
    encode_bitmask_union Endian.little s2_samples 2 0x3C23D70A 0 64
      ⟨by decide, by decide, by decide, by decide, by decide, by decide, by decide⟩⟩

/-! ## Round trip -/

theorem read_obj_float_bytes (host : Endian) (x : Nat) (hx : x < 4294967296) :
    read_obj host (float_bytes host x) = x := by
  cases host
  · simp only [float_bytes, obj_bytes, read_obj, le_bytes, read_le]
    omega
  · simp only [float_bytes, obj_bytes, read_obj, List.reverse_reverse, le_bytes, read_le]
    omega

theorem floats_bytes_cons (host : Endian) (x : Nat) (vals : List Nat) :
    floats_bytes host (x :: vals) = float_bytes host x ++ floats_bytes host vals := by
  simp [floats_bytes]

theorem floats_bytes_append (host : Endian) (a b : List Nat) :
    floats_bytes host (a ++ b) = floats_bytes host a ++ floats_bytes host b := by
  simp [floats_bytes]

theorem decode_column_spec (host : Endian) (mask : List Nat) (f : Nat → Nat)
    (hf : ∀ c, f c < 4294967296) :
    ∀ (n c : Nat) (rest : List Nat),
      decode_column host mask n c
          (floats_bytes host (((List.range' c n).filter (mask_bit mask)).map f) ++ rest)
        = ((List.range' c n).map (fun c => if mask_bit mask c then f c else 0), rest) := by
  intro n
  induction n with
  | zero => intro c rest; simp [decode_column, floats_bytes]
  | succ n ih =>
    intro c rest
    rw [decode_column, List.range'_succ, List.filter_cons]
    by_cases hb : mask_bit mask c = true
    · simp only [hb, if_true, List.map_cons, floats_bytes_cons, List.append_assoc]
      have h4 : (float_bytes host (f c)).length = 4 := float_bytes_length host (f c)
      rw [List.drop_left' h4, List.take_left' h4, ih, read_obj_float_bytes host _ (hf c)]
    · simp only [hb, if_false, List.map_cons, Bool.false_eq_true]
      rw [ih]

theorem span_values_succ (samples mask : List Nat) (channels p n : Nat) :
    span_values samples mask channels p (n + 1)
      = column_values samples mask channels p ++ span_values samples mask channels (p + channels) n := by
  unfold span_values
  rw [List.range_succ_eq_map, List.flatMap_cons, List.flatMap_map]
  congr 1
  · simp
  · congr 1
    funext k
    simp only [Function.comp, Nat.succ_eq_add_one]
    congr 1
    ring

theorem masked_span_succ (samples mask : List Nat) (channels p n : Nat) :
    masked_span samples mask channels p (n + 1)
      = ((List.range channels).map fun c =>
          if mask_bit mask c then samples.getD (p + c) 0 else 0)
        ++ masked_span samples mask channels (p + channels) n := by
  unfold masked_span
  rw [List.range_succ_eq_map, List.flatMap_cons, List.flatMap_map]
  congr 1
  · simp
  · congr 1
    funext k
    simp only [Function.comp, Nat.succ_eq_add_one]
    congr 1
    funext c
    have : p + (k + 1) * channels + c = p + channels + k * channels + c := by ring
    rw [this]

theorem decode_columns_spec (host : Endian) (samples mask : List Nat) (channels : Nat)
    (hwf : ∀ x, x ∈ samples → x < 4294967296) :
    ∀ (cols p : Nat),
      decode_columns host mask channels cols
          (floats_bytes host (span_values samples mask channels p cols))
        = masked_span samples mask channels p cols := by
  have hget : ∀ i, samples.getD i 0 < 4294967296 := by
    intro i
    rw [List.getD_eq_getElem?_getD]
    cases h : samples[i]? with
    | none => simp
    | some x => exact hwf x (List.getElem?_mem h)
  intro cols
  induction cols with
  | zero => intro p; simp [decode_columns, masked_span]
  | succ n ih =>
    intro p
    rw [decode_columns, span_values_succ, floats_bytes_append, masked_span_succ]
    have h := decode_column_spec host mask (fun c => samples.getD (p + c) 0)
      (fun c => hget _) channels 0
      (floats_bytes host (span_values samples mask channels (p + channels) n))
    rw [← List.range_eq_range'] at h
    unfold column_values
    rw [h]
    simp only [ih]

theorem F32.isNaN_abs (x : Nat) : F32.isNaN (F32.abs x) = F32.isNaN x := by
  unfold F32.isNaN F32.abs
  have h1 : x % 2147483648 / 8388608 % 256 = x / 8388608 % 256 := by omega
  have h2 : x % 2147483648 % 8388608 = x % 8388608 := by omega
  rw [h1, h2]

theorem F32.sign_abs (x : Nat) : F32.sign (F32.abs x) = false := by
  unfold F32.sign F32.abs
  have h1 : x % 2147483648 / 2147483648 % 2 = 0 := by omega
  rw [h1]; rfl

theorem F32.le_abs_of_not_gt (x eps : Nat) (hx : F32.isNaN x = false)
    (he : F32.isNaN eps = false) (h : F32.gt (F32.abs x) eps = false) :
    F32.le (F32.abs x) eps = true := by
  unfold F32.gt at h
  unfold F32.le
  rw [F32.isNaN_abs, hx, he, F32.sign_abs] at *
  cases hs : F32.sign eps
  · rw [hs] at h
    simp only [Bool.or_self, Bool.false_eq_true, if_false, decide_eq_false_iff_not,
      decide_eq_true_eq] at h ⊢
    omega
  · rw [hs] at h
    simpa using h

theorem span_active_false (samples : List Nat) (eps channels start cols c : Nat)
    (h : span_active samples eps channels start cols c = false) (k : Nat) (hk : k < cols) :
    is_active eps (samples.getD (start + k * channels + c) 0) = false := by
  by_contra hne
  have : span_active samples eps channels start cols c = true :=
    (span_active_iff samples eps channels start cols c).2 ⟨k, hk, by simpa using hne⟩
  rw [h] at this
  exact Bool.noConfusion this

/-- C4, as the specification words it, fails on a NaN cell: with `C = 2`, `eps = 0` and
samples `[1.0, NaN]` the bitmask is `0b01`, the NaN cell is dropped (decoded as `0`) and
`|NaN| ≤ 0` is false. -/
theorem round_trip_as_stated_fails :
    ValidCall [0x3F800000, 0x7FC00000] 2 0 64 ∧
    (∀ x, x ∈ [0x3F800000, 0x7FC00000] → x < 4294967296) ∧
    ¬ RoundTripAsStated Endian.little [0x3F800000, 0x7FC00000] 2 0 0 64 := by
  refine ⟨⟨by decide, by decide, by decide, by decide, by decide, by decide, by decide⟩,
    by decide, ?_⟩
  rintro ⟨p, z, cols, mask, em, _, hle⟩
  have hs : skip_prefix_zeros [0x3F800000, 0x7FC00000] 2 0 0 = some (0, 0) := by decide
  have he : encode Endian.little [0x3F800000, 0x7FC00000] 2 0 0 64
      = some (2, [0, 0, 1, 0, 0, 128, 63]) := by decide
  have h1 := em.scan
  rw [hs] at h1
  have hp : p = 0 := by injection h1 with h1; injection h1 with h1 _; exact h1.symm
  have hz : z = 0 := by injection h1 with h1; injection h1 with _ h1; exact h1.symm
  subst hp; subst hz
  have h2 := em.out
  rw [he] at h2
  injection h2 with h2
  injection h2 with h2 h3
  have hcols : cols = 1 := by omega
  subst hcols
  have hml : mask.length = 1 := em.mask_len
  have hmask : mask = [1] := by
    have h4 : int16_bytes Endian.little 0 = [0, 0] := by decide
    rw [h4] at h3
    have h5 : [1, 0, 0, 128, 63] = mask ++ floats_bytes Endian.little
        (span_values [0x3F800000, 0x7FC00000] mask 2 0 1) := by
      simpa using h3
    have h6 := congrArg (List.take 1) h5
    rw [List.take_left' hml] at h6
    exact h6.symm
  subst hmask
  have := hle 0 1 (by decide) (by decide) (by decide)
  revert this
  decide

/-- C4 (per-packet round trip, amended): on a valid call whose samples are 32-bit
patterns, the reference decoder applied to the emitted bitmask and values yields the
included columns with every cell whose channel is not in the bitmask replaced by `0` and
every other cell preserved bit-identically; every cell replaced by `0` fails the test
`|x| > eps`, which is `|x| ≤ eps` whenever neither `x` nor `eps` is NaN. -/
theorem encode_round_trip (host : Endian) (samples : List Nat) (channels eps from_pos : Nat)
    (cap : Int) (hv : ValidCall samples channels from_pos cap)
    (hwf : ∀ x, x ∈ samples → x < 4294967296) :
    ∃ (p : Nat) (z : Int) (cols : Nat) (mask : List Nat),
      Emits host samples channels eps from_pos cap p z cols mask ∧
      decode_columns host mask channels cols
          (floats_bytes host (span_values samples mask channels p cols))
        = masked_span samples mask channels p cols ∧
      ∀ k c, k < cols → c < channels → mask_bit mask c = false →
        F32.gt (F32.abs (samples.getD (p + k * channels + c) 0)) eps = false ∧
        (F32.isNaN (samples.getD (p + k * channels + c) 0) = false → F32.isNaN eps = false →
          F32.le (F32.abs (samples.getD (p + k * channels + c) 0)) eps = true) := by
  obtain ⟨m, d, v⟩ := encode_view host samples channels eps from_pos cap hv.chan_pos hv.chan_max
  refine ⟨_, _, _, _, encode_emits host samples channels eps from_pos cap m d hv v,
    decode_columns_spec host samples _ channels hwf _ _, ?_⟩
  intro k c hk hc hm
  rw [mask_bit_take _ _ _ (by omega), v.plan.mask c] at hm
  simp only [hc, decide_True, Bool.true_and] at hm
  have hg := span_active_false samples eps channels _ _ c hm k hk
  exact ⟨hg, fun hx he => F32.le_abs_of_not_gt _ eps hx he hg⟩

/-- Witness of C4 on scenario S2: `C = 2`, `eps = 0.01`, samples `0,0, 0.5,0, 0,0`,
capacity 64 give `skip_count = 1`, bitmask `0b01`, values `[0.5, 0.0]` and cursor 6, and
the decoder returns the two included columns. -/
theorem encode_round_trip_witness :
    ValidCall s2_samples 2 0 64 ∧ (∀ x, x ∈ s2_samples → x < 4294967296) ∧
    (∃ (p : Nat) (z : Int) (cols : Nat) (mask : List Nat),
      Emits Endian.little s2_samples 2 0x3C23D70A 0 64 p z cols mask ∧
      decode_columns Endian.little mask 2 cols
          (floats_bytes Endian.little (span_values s2_samples mask 2 p cols))
        = masked_span s2_samples mask 2 p cols ∧
      ∀ k c, k < cols → c < 2 → mask_bit mask c = false →
        F32.gt (F32.abs (s2_samples.getD (p + k * 2 + c) 0)) 0x3C23D70A = false ∧
        (F32.isNaN (s2_samples.getD (p + k * 2 + c) 0) = false → F32.isNaN 0x3C23D70A = false →
          F32.le (F32.abs (s2_samples.getD (p + k * 2 + c) 0)) 0x3C23D70A = true)) ∧
    encode Endian.little s2_samples 2 0x3C23D70A 0 64
      = some (6, int16_bytes Endian.little 1 ++ ([1] ++ floats_bytes Endian.little [0x3F000000, 0])) ∧
    decode_columns Endian.little [1] 2 2 (floats_bytes Endian.little [0x3F000000, 0])
      = [0x3F000000, 0, 0, 0] :=
  ⟨⟨by decide, by decide, by decide, by decide, by decide, by decide, by decide⟩, by decide,
    encode_round_trip Endian.little s2_samples 2 0x3C23D70A 0 64
      ⟨by decide, by decide, by decide, by decide, by decide, by decide, by decide⟩ (by decide),
    by decide, by decide⟩

/-! ## Prefix-zero scanner -/

theorem skipped_cell (samples : List Nat) (channels eps from_pos m : Nat) (hC1 : 1 ≤ channels)
    (hz : ∀ j, j < m → from_pos + j * channels < samples.length
      ∧ zero_column samples eps channels (from_pos + j * channels))
    (i : Nat) (h1 : from_pos ≤ i) (h2 : i < from_pos + m * channels) :
    is_active eps (samples.getD i 0) = false := by
  have hdm := Nat.div_add_mod (i - from_pos) channels
  have hmod : (i - from_pos) % channels < channels := Nat.mod_lt _ (by omega)
  have hj : (i - from_pos) / channels < m := by
    rw [Nat.div_lt_iff_lt_mul (by omega)]
    omega
  have h := (hz _ hj).2 ((i - from_pos) % channels) hmod
  unfold chan_active at h
  have hi : from_pos + (i - from_pos) / channels * channels + (i - from_pos) % channels = i := by
    rw [Nat.mul_comm]; omega
  rw [hi] at h
  exact h

/-- C5, as the specification words it, fails on a NaN cell: with `C = 1`, `eps = 0` and
the single sample NaN the scanner skips the column, yet `|NaN| ≤ 0` is false. -/
theorem skip_as_stated_fails :
    (1 ≤ 1 ∧ 1 ∣ [0x7FC00000].length ∧ 1 ∣ 0 ∧ 0 ≤ [0x7FC00000].length) ∧
    skip_prefix_zeros [0x7FC00000] 1 0 0 = some (1, 1) ∧
    ¬ SkipAsStated [0x7FC00000] 1 0 0 := by
  refine ⟨by decide, by decide, ?_⟩
  rintro ⟨m, h1, _, _, hcells, _⟩
  have hs : skip_prefix_zeros [0x7FC00000] 1 0 0 = some (1, 1) := by decide
  rw [hs] at h1
  have hm : m = 1 := by
    injection h1 with h1; injection h1 with h1 _; omega
  subst hm
  have := hcells 0 (by decide) (by decide)
  revert this
  decide

/-- C5 (prefix-zero scanner, amended): for `channels ≥ 1` and a column-aligned buffer and
cursor, `skip_prefix_zeros` returns the smallest column-aligned position `p ≥ from_pos`
whose column has a cell with `|x| > eps`, or `len(samples)` if there is none, together
with the 16-bit count of the `m` columns passed over; every cell in `[from_pos, p)` fails
the test `|x| > eps`, which is `|x| ≤ eps` whenever neither `x` nor `eps` is NaN; and a
non-negative count never exceeds `m`, so the `skip_count` columns before `p` are zero
columns. -/
theorem skip_prefix_zeros_correct (samples : List Nat) (channels eps from_pos : Nat)
    (hC1 : 1 ≤ channels) (hlen : channels ∣ samples.length) (hpos : channels ∣ from_pos)
    (hle : from_pos ≤ samples.length) :
    ∃ m : Nat,
      skip_prefix_zeros samples channels eps from_pos
        = some (from_pos + m * channels, to_int16 m) ∧
      from_pos + m * channels ≤ samples.length ∧
      (from_pos + m * channels = samples.length ∨
        ∃ c, c < channels
          ∧ F32.gt (F32.abs (samples.getD (from_pos + m * channels + c) 0)) eps = true) ∧
      (∀ i, from_pos ≤ i → i < from_pos + m * channels →
        F32.gt (F32.abs (samples.getD i 0)) eps = false ∧
        (F32.isNaN (samples.getD i 0) = false → F32.isNaN eps = false →
          F32.le (F32.abs (samples.getD i 0)) eps = true)) ∧
      ∀ j : Nat, (j : Int) < to_int16 m → j < m := by
  obtain ⟨m, h1, h2, h3⟩ := skip_prefix_zeros_spec samples channels eps from_pos hC1
  have hb : from_pos + m * channels ≤ samples.length :=
    aligned_run channels samples.length from_pos m hlen hpos hle (fun j hj => (h2 j hj).1)
  refine ⟨m, h1, hb, ?_, ?_, ?_⟩
  · rcases h3 with h | h
    · exact Or.inl (by omega)
    · exact Or.inr ((column_nonzero_iff samples eps channels _).1 h)
  · intro i hi1 hi2
    have hg := skipped_cell samples channels eps from_pos m hC1 h2 i hi1 hi2
    exact ⟨hg, fun hx he => F32.le_abs_of_not_gt _ eps hx he hg⟩
  · intro j hj
    unfold to_int16 at hj
    omega

/-- Witness of C5 on scenario S1: `C = 2`, `eps = 0.01`, three all-zero columns and
capacity 64 give cursor 6, `skip_count = 3`, bitmask `0x00` and no values. -/
theorem skip_prefix_zeros_correct_witness :
    (∃ m : Nat,
      skip_prefix_zeros [0, 0, 0, 0, 0, 0] 2 0x3C23D70A 0 = some (0 + m * 2, to_int16 m) ∧
      0 + m * 2 ≤ [0, 0, 0, 0, 0, 0].length ∧
      (0 + m * 2 = [0, 0, 0, 0, 0, 0].length ∨
        ∃ c, c < 2
          ∧ F32.gt (F32.abs ([0, 0, 0, 0, 0, 0].getD (0 + m * 2 + c) 0)) 0x3C23D70A = true) ∧
      (∀ i, 0 ≤ i → i < 0 + m * 2 →
        F32.gt (F32.abs ([0, 0, 0, 0, 0, 0].getD i 0)) 0x3C23D70A = false ∧
        (F32.isNaN ([0, 0, 0, 0, 0, 0].getD i 0) = false → F32.isNaN 0x3C23D70A = false →
          F32.le (F32.abs ([0, 0, 0, 0, 0, 0].getD i 0)) 0x3C23D70A = true)) ∧
      ∀ j : Nat, (j : Int) < to_int16 m → j < m) ∧
    skip_prefix_zeros [0, 0, 0, 0, 0, 0] 2 0x3C23D70A 0 = some (6, 3) ∧
    encode Endian.little [0, 0, 0, 0, 0, 0] 2 0x3C23D70A 0 64
      = some (6, int16_bytes Endian.little 3 ++ [0]) :=
  ⟨skip_prefix_zeros_correct [0, 0, 0, 0, 0, 0] 2 0x3C23D70A 0 (by decide) (by decide)
    (by decide) (by decide), by decide, by decide⟩

/-! ## Cursor -/

theorem get_payload_dims_loop_cursor (samples : List Nat) (channels eps bmb : Nat) (fc : Int)
    (hC1 : 1 ≤ channels) :
    ∀ (fuel : Nat) (d : Dims), samples.length < d.cur_pos + fuel → 0 < fuel →
      ∃ (d1 : Dims) (n : Nat),
        get_payload_dims_loop samples channels eps bmb fc fuel d = some d1 ∧
        d1.cur_pos = d.cur_pos + n * channels ∧
        ∀ j, j < n → d.cur_pos + j * channels < samples.length := by
  intro fuel
  induction fuel with
  | zero => intro d _ h0; omega
  | succ fuel ih =>
    intro d hf _
    rw [get_payload_dims_loop_succ]
    by_cases hpos : d.cur_pos < samples.length
    · rw [if_pos hpos]
      split
      · exact ⟨_, 0, rfl, by simp, by intro j hj; omega⟩
      · obtain ⟨d1, n, h1, h2, h3⟩ := ih (accept_column samples eps channels bmb d)
          (by show samples.length < d.cur_pos + channels + fuel; omega) (by omega)
        refine ⟨d1, n + 1, h1, ?_, ?_⟩
        · rw [h2]
          show d.cur_pos + channels + n * channels = d.cur_pos + (n + 1) * channels
          ring
        · intro j hj
          cases j with
          | zero => simpa using hpos
          | succ j =>
            have := h3 j (by omega)
            have e : d.cur_pos + (j + 1) * channels
                = (accept_column samples eps channels bmb d).cur_pos + j * channels := by
              show _ = d.cur_pos + channels + j * channels
              ring
            rw [e]; exact this
    · rw [if_neg hpos]
      exact ⟨d, 0, rfl, by simp, by intro j hj; omega⟩

theorem encode_of_parts (host : Endian) (samples : List Nat) (channels eps from_pos : Nat)
    (cap : Int) (p : Nat) (z : Int) (d1 : Dims)
    (h1 : skip_prefix_zeros samples channels eps from_pos = some (p, z))
    (h4 : get_payload_dims_loop samples channels eps ((channels + 7) / 8)
      (to_int (to_size_t (cap - 2 - ((channels + 7) / 8 : Nat)) / 4)) (samples.length + 1)
      { active_channels := 0, cur_float_cnt := 0, cur_pos := p, cols_passed := 0,
        bitmask := List.replicate 32 0 } = some d1) :
    encode host samples channels eps from_pos cap
      = some (d1.cur_pos, int16_bytes host z
          ++ write_columns host samples d1.bitmask channels d1.cols_passed p
              (d1.bitmask.take ((channels + 7) / 8))) := by
  unfold encode
  simp only [h1]
  unfold encode_bitmask_payload get_payload_dims
  simp only [h4, Option.map_some']

theorem encode_cursor_pos (host : Endian) (samples : List Nat) (channels eps from_pos : Nat)
    (cap : Int) (hC1 : 1 ≤ channels) (hlen : channels ∣ samples.length)
    (hpos : channels ∣ from_pos) (hle : from_pos ≤ samples.length) :
    ∃ (r : Nat) (pkt : List Nat), encode host samples channels eps from_pos cap = some (r, pkt) ∧
      from_pos ≤ r ∧ r ≤ samples.length ∧ channels ∣ r := by
  obtain ⟨m, h1, h2, _⟩ := skip_prefix_zeros_spec samples channels eps from_pos hC1
  have hb : from_pos + m * channels ≤ samples.length :=
    aligned_run channels samples.length from_pos m hlen hpos hle (fun j hj => (h2 j hj).1)
  have hd : channels ∣ from_pos + m * channels := Dvd.dvd.add hpos (Dvd.intro_left m rfl)
  obtain ⟨d1, n, h4, h5, h6⟩ := get_payload_dims_loop_cursor samples channels eps
    ((channels + 7) / 8) (to_int (to_size_t (cap - 2 - ((channels + 7) / 8 : Nat)) / 4)) hC1
    (samples.length + 1)
    { active_channels := 0, cur_float_cnt := 0, cur_pos := from_pos + m * channels,
      cols_passed := 0, bitmask := List.replicate 32 0 }
    (by show samples.length < from_pos + m * channels + (samples.length + 1); omega) (by omega)
  have h5 : d1.cur_pos = from_pos + m * channels + n * channels := h5
  have h6 : ∀ j, j < n → from_pos + m * channels + j * channels < samples.length := h6
  refine ⟨d1.cur_pos, _,
    encode_of_parts host samples channels eps from_pos cap _ _ d1 h1 h4, ?_, ?_, ?_⟩
  · rw [h5]; omega
  · rw [h5]
    exact aligned_run channels samples.length _ n hlen hd hb h6
  · rw [h5]
    exact Dvd.dvd.add hd (Dvd.intro_left n rfl)

theorem encode_cursor_zero (host : Endian) (eps : Nat) (cap : Int) :
    ∃ pkt, encode host [] 0 eps 0 cap = some (0, pkt) := by
  exact ⟨_, encode_of_parts host [] 0 eps 0 cap 0 0
    { active_channels := 0, cur_float_cnt := 0, cur_pos := 0, cols_passed := 0,
      bitmask := List.replicate 32 0 } rfl rfl⟩

theorem encode_cursor (host : Endian) (samples : List Nat) (channels eps from_pos : Nat)
    (cap : Int) (hlen : channels ∣ samples.length) (hpos : channels ∣ from_pos)
    (hle : from_pos ≤ samples.length) :
    ∃ (r : Nat) (pkt : List Nat), encode host samples channels eps from_pos cap = some (r, pkt) ∧
      from_pos ≤ r ∧ r ≤ samples.length ∧ channels ∣ r := by
  rcases Nat.eq_zero_or_pos channels with h0 | h0
  · subst h0
    have hl : samples = [] := List.length_eq_zero.1 (Nat.eq_zero_of_zero_dvd hlen)
    have hp : from_pos = 0 := Nat.eq_zero_of_zero_dvd hpos
    subst hl; subst hp
    obtain ⟨pkt, h⟩ := encode_cursor_zero host eps cap
    exact ⟨0, pkt, h, le_refl _, le_refl _, dvd_refl _⟩
  · exact encode_cursor_pos host samples channels eps from_pos cap h0 hlen hpos hle

theorem encode_chain_steps (host : Endian) (samples : List Nat) (channels eps : Nat) (cap : Int)
    (hlen : channels ∣ samples.length) :
    ∀ (n pos : Nat), channels ∣ pos → pos ≤ samples.length →
      ∃ r r1, encode_chain host samples channels eps cap n pos = some r ∧
        encode_chain host samples channels eps cap (n + 1) pos = some r1 ∧
        pos ≤ r ∧ r ≤ r1 ∧ r1 ≤ samples.length ∧ channels ∣ r ∧ channels ∣ r1 := by
  intro n
  induction n with
  | zero =>
    intro pos hpos hle
    obtain ⟨r, pkt, h1, h2, h3, h4⟩ := encode_cursor host samples channels eps pos cap hlen hpos hle
    refine ⟨pos, r, rfl, ?_, le_refl _, h2, h3, hpos, h4⟩
    simp [encode_chain, h1]
  | succ n ih =>
    intro pos hpos hle
    obtain ⟨r0, pkt, h1, h2, h3, h4⟩ := encode_cursor host samples channels eps pos cap hlen hpos hle
    obtain ⟨r, r1, k1, k2, k3, k4, k5, k6, k7⟩ := ih r0 h4 h3
    refine ⟨r, r1, ?_, ?_, by omega, k4, k5, k6, k7⟩
    · rw [encode_chain]; simp only [h1]; exact k1
    · rw [encode_chain]; simp only [h1]; exact k2

/-- C6 (cursor monotonicity and alignment): when `len(samples)` and `from_pos` are
multiples of `channels` and `from_pos ≤ len(samples)`, `encode` returns a cursor `r` with
`from_pos ≤ r ≤ len(samples)` that is a multiple of `channels`; hence along a chain of
calls linked by the returned cursor every cursor is column-aligned, inside the buffer and
not smaller than the one before. -/
theorem encode_cursor_monotone (host : Endian) (samples : List Nat) (channels eps from_pos : Nat)
    (cap : Int) (hlen : channels ∣ samples.length) (hpos : channels ∣ from_pos)
    (hle : from_pos ≤ samples.length) :
    (∃ (r : Nat) (pkt : List Nat),
      encode host samples channels eps from_pos cap = some (r, pkt) ∧
      from_pos ≤ r ∧ r ≤ samples.length ∧ channels ∣ r) ∧
    ∀ n : Nat, ∃ r r1,
      encode_chain host samples channels eps cap n from_pos = some r ∧
      encode_chain host samples channels eps cap (n + 1) from_pos = some r1 ∧
      from_pos ≤ r ∧ r ≤ r1 ∧ r1 ≤ samples.length ∧ channels ∣ r ∧ channels ∣ r1 :=
  ⟨encode_cursor host samples channels eps from_pos cap hlen hpos hle,
    fun n => encode_chain_steps host samples channels eps cap hlen n from_pos hpos hle⟩

/-- Witness of C6 on scenario S2 from the start of the buffer. -/
theorem encode_cursor_monotone_witness :
    (2 ∣ s2_samples.length ∧ 2 ∣ 0 ∧ 0 ≤ s2_samples.length) ∧
    ((∃ (r : Nat) (pkt : List Nat),
      encode Endian.little s2_samples 2 0x3C23D70A 0 64 = some (r, pkt) ∧
      0 ≤ r ∧ r ≤ s2_samples.length ∧ 2 ∣ r) ∧
    ∀ n : Nat, ∃ r r1,
      encode_chain Endian.little s2_samples 2 0x3C23D70A 64 n 0 = some r ∧
      encode_chain Endian.little s2_samples 2 0x3C23D70A 64 (n + 1) 0 = some r1 ∧
      0 ≤ r ∧ r ≤ r1 ∧ r1 ≤ s2_samples.length ∧ 2 ∣ r ∧ 2 ∣ r1) :=
  ⟨by decide, encode_cursor_monotone Endian.little s2_samples 2 0x3C23D70A 0 64
    (by decide) (by decide) (by decide)⟩

/-! ## Exhausted input -/

theorem encode_at_end (host : Endian) (samples : List Nat) (channels eps : Nat) (cap : Int)
    (hC : channels ≤ 255) :
    encode host samples channels eps samples.length cap
      = some (samples.length, [0, 0] ++ List.replicate ((channels + 7) / 8) 0) := by
  have h1 : skip_prefix_zeros samples channels eps samples.length = some (samples.length, 0) := by
    unfold skip_prefix_zeros
    rw [skip_prefix_zeros_loop, if_neg (Nat.lt_irrefl _)]
  have h4 : get_payload_dims_loop samples channels eps ((channels + 7) / 8)
      (to_int (to_size_t (cap - 2 - ((channels + 7) / 8 : Nat)) / 4)) (samples.length + 1)
      { active_channels := 0, cur_float_cnt := 0, cur_pos := samples.length, cols_passed := 0,
        bitmask := List.replicate 32 0 }
      = some { active_channels := 0, cur_float_cnt := 0, cur_pos := samples.length,
               cols_passed := 0, bitmask := List.replicate 32 0 } := by
    rw [get_payload_dims_loop_succ, if_neg (Nat.lt_irrefl _)]
  rw [encode_of_parts host samples channels eps samples.length cap _ _ _ h1 h4]
  have hz : int16_bytes host 0 = [0, 0] := by cases host <;> rfl
  have hm : min ((channels + 7) / 8) 32 = (channels + 7) / 8 := by omega
  simp only [write_columns, List.take_replicate, hz, hm]

/-- C8 (exhausted input): a call with `from_pos = len(samples)` (and `channels ≤ 255`, so
that the bitmask fits its 32-byte array) writes only `skip_count = 0` followed by
`⌈C/8⌉` zero bitmask bytes, no float, and returns `from_pos` unchanged. -/
theorem encode_exhausted (host : Endian) (samples : List Nat) (channels eps from_pos : Nat)
    (cap : Int) (hC : channels ≤ 255) (hpos : from_pos = samples.length) :
    encode host samples channels eps from_pos cap
      = some (from_pos, [0, 0] ++ List.replicate ((channels + 7) / 8) 0) := by
  subst hpos
  exact encode_at_end host samples channels eps cap hC

/-- Witness of C8: `C = 2`, the six samples of S2 and `from_pos = 6`. -/
theorem encode_exhausted_witness :
    encode Endian.little s2_samples 2 0x3C23D70A 6 64
      = some (6, [0, 0] ++ List.replicate ((2 + 7) / 8) 0) :=
  encode_exhausted Endian.little s2_samples 2 0x3C23D70A 6 64 (by decide) (by decide)

/-! ## Progress and termination -/

theorem encode_progress (host : Endian) (samples : List Nat) (channels eps from_pos : Nat)
    (cap : Int) (hv : ValidCall samples channels from_pos cap)
    (hlt : from_pos < samples.length)
    (hfit : ((active_count samples eps channels from_pos : Nat) : Int)
      ≤ float_capacity channels cap) :
    ∃ (r : Nat) (pkt : List Nat),
      encode host samples channels eps from_pos cap = some (r, pkt) ∧ from_pos < r := by
  obtain ⟨m, d, v⟩ := encode_view host samples channels eps from_pos cap hv.chan_pos hv.chan_max
  refine ⟨d.cur_pos, _, v.out, ?_⟩
  have hC1 := hv.chan_pos
  rw [v.plan.pos]
  rcases Nat.eq_zero_or_pos m with hm | hm
  · subst hm
    rcases Nat.eq_zero_or_pos d.cols_passed with hc | hc
    · exfalso
      have hpos : d.cur_pos = from_pos := by rw [v.plan.pos, hc]; simp
      have hmask : ∀ c, mask_bit d.bitmask c = false := by
        intro c
        rw [v.plan.mask c, hc]
        simp [span_active]
      have hu : union_count samples eps d.bitmask channels d.cur_pos
          = active_count samples eps channels from_pos := by
        unfold union_count active_count
        apply countP_congr_mem
        intro c _
        rw [hmask c, hpos]; rfl
      rcases v.plan.stop with h | h
      · omega
      · rw [hu, hc] at h
        simp only [Nat.zero_add, Nat.one_mul] at h
        omega
    · have : channels ≤ d.cols_passed * channels := Nat.le_mul_of_pos_left channels hc
      omega
  · have : channels ≤ m * channels := Nat.le_mul_of_pos_left channels hm
    omega

/-- C9, as the specification words it, fails: with `C = 2`, `eps = 0`, samples
`[1.0, 1.0]` and capacity `2 + 1 + 4 = 7` the only column has two active channels and one
float slot, the planner includes nothing and the cursor stays at 0. -/
theorem strict_progress_as_stated_fails :
    ValidCall [0x3F800000, 0x3F800000] 2 0 7 ∧ 0 < [0x3F800000, 0x3F800000].length ∧
    encode Endian.little [0x3F800000, 0x3F800000] 2 0 0 7 = some (0, [0, 0, 0]) ∧
    ¬ StrictProgressAsStated Endian.little [0x3F800000, 0x3F800000] 2 0 0 7 := by
  refine ⟨⟨by decide, by decide, by decide, by decide, by decide, by decide, by decide⟩,
    by decide, by decide, ?_⟩
  intro h
  obtain ⟨r, pkt, h1, h2⟩ := h (by decide)
  have he : encode Endian.little [0x3F800000, 0x3F800000] 2 0 0 7 = some (0, [0, 0, 0]) := by
    decide
  rw [he] at h1
  injection h1 with h1
  injection h1 with h1 _
  omega

/-- C9 (strict progress, amended): on a valid call with `from_pos < len(samples)` the
returned cursor is strictly greater than `from_pos` whenever
`udp_payload_capacity ≥ 2 + ⌈C/8⌉ + 4·a`, where `a` is the number of channels of the
column at `from_pos` with `|x| > eps`. -/
theorem encode_strict_progress (host : Endian) (samples : List Nat) (channels eps from_pos : Nat)
    (cap : Int) (hv : ValidCall samples channels from_pos cap)
    (hlt : from_pos < samples.length)
    (hcap : 2 + (((channels + 7) / 8 : Nat) : Int)
      + 4 * ((active_count samples eps channels from_pos : Nat) : Int) ≤ cap) :
    ∃ (r : Nat) (pkt : List Nat),
      encode host samples channels eps from_pos cap = some (r, pkt) ∧ from_pos < r := by
  apply encode_progress host samples channels eps from_pos cap hv hlt
  rw [float_capacity_eq channels cap hv.cap_min hv.cap_int]
  omega

/-- Witness of C9 on scenario S6: three active channels and capacity 27. -/
theorem encode_strict_progress_witness :
    ValidCall s6_samples 3 0 27 ∧ 0 < s6_samples.length ∧
    2 + (((3 + 7) / 8 : Nat) : Int) + 4 * ((active_count s6_samples 0 3 0 : Nat) : Int) ≤ 27 ∧
    ∃ (r : Nat) (pkt : List Nat),
      encode Endian.little s6_samples 3 0 0 27 = some (r, pkt) ∧ 0 < r :=
  ⟨⟨by decide, by decide, by decide, by decide, by decide, by decide, by decide⟩,
    by decide, by decide,
    encode_strict_progress Endian.little s6_samples 3 0 0 27
      ⟨by decide, by decide, by decide, by decide, by decide, by decide, by decide⟩
      (by decide) (by decide)⟩

theorem encode_chain_reaches (host : Endian) (samples : List Nat) (channels eps : Nat) (cap : Int)
    (hC1 : 1 ≤ channels) (hC : channels ≤ 255) (hlen : channels ∣ samples.length)
    (hcapmin : 2 + (((channels + 7) / 8 : Nat) : Int) ≤ cap) (hint : cap < 2147483648)
    (hcols : ∀ pos, channels ∣ pos → pos < samples.length →
      ((active_count samples eps channels pos : Nat) : Int) ≤ float_capacity channels cap) :
    ∀ (n pos : Nat), channels ∣ pos → pos ≤ samples.length →
      samples.length ≤ pos + n * channels →
      encode_chain host samples channels eps cap n pos = some samples.length := by
  intro n
  induction n with
  | zero =>
    intro pos _ hle hn
    have : pos = samples.length := by omega
    rw [encode_chain, this]
  | succ n ih =>
    intro pos hpos hle hn
    rw [encode_chain]
    rcases Nat.eq_or_lt_of_le hle with heq | hlt
    · subst heq
      rw [encode_at_end host samples channels eps cap hC]
      simp only
      exact ih samples.length hpos hle (by omega)
    · obtain ⟨r, pkt, h1, h2⟩ := encode_progress host samples channels eps pos cap
        ⟨hC1, hC, hlen, hpos, hle, hcapmin, hint⟩ hlt (hcols pos hpos hlt)
      obtain ⟨r1, pkt1, k1, _, k3, k4⟩ := encode_cursor host samples channels eps pos cap hlen
        hpos hle
      rw [h1] at k1
      injection k1 with k1
      injection k1 with k1 _
      subst k1
      simp only [h1]
      apply ih r k4 k3
      obtain ⟨x, hx⟩ := hpos
      obtain ⟨y, hy⟩ := k4
      have hxy : x < y := by
        apply lt_of_mul_lt_mul_left _ (Nat.zero_le channels)
        rw [← hx, ← hy]; exact h2
      have : channels * (x + 1) ≤ channels * y := Nat.mul_le_mul_left channels hxy
      have e1 : channels * (x + 1) = pos + channels := by rw [hx]; ring
      have e2 : pos + (n + 1) * channels = pos + channels + n * channels := by ring
      omega

/-- C7 (termination of the encode loop): for `channels` in `[1,255]`, a buffer of whole
columns and an `int` capacity of at least `2 + ⌈C/8⌉ + 4`, if every column has at most
`⌊(capacity − 2 − ⌈C/8⌉)/4⌋` active channels then every call at a column-aligned
`from_pos < len(samples)` returns a strictly greater cursor, and the chain of calls from
`from_pos = 0` reaches `len(samples)` after at most `len(samples)/C` calls. -/
theorem encode_terminates (host : Endian) (samples : List Nat) (channels eps : Nat) (cap : Int)
    (hv : ValidCall samples channels 0 cap)
    (_hcap : 2 + (((channels + 7) / 8 : Nat) : Int) + 4 ≤ cap)
    (hcols : ∀ k, k * channels < samples.length →
      ((active_count samples eps channels (k * channels) : Nat) : Int)
        ≤ (cap - 2 - ((channels + 7) / 8 : Nat)) / 4) :
    (∀ from_pos, channels ∣ from_pos → from_pos < samples.length →
      ∃ (r : Nat) (pkt : List Nat),
        encode host samples channels eps from_pos cap = some (r, pkt) ∧ from_pos < r) ∧
    ∃ n, n ≤ samples.length / channels ∧
      encode_chain host samples channels eps cap n 0 = some samples.length := by
  have hfc := float_capacity_eq channels cap hv.cap_min hv.cap_int
  have hcols1 : ∀ pos, channels ∣ pos → pos < samples.length →
      ((active_count samples eps channels pos : Nat) : Int) ≤ float_capacity channels cap := by
    intro pos hpos hlt
    obtain ⟨k, hk⟩ := hpos
    have e : pos = k * channels := by rw [hk, Nat.mul_comm]
    rw [hfc, e]
    exact hcols k (by rw [← e]; exact hlt)
  constructor
  · intro from_pos hpos hlt
    exact encode_progress host samples channels eps from_pos cap
      ⟨hv.chan_pos, hv.chan_max, hv.len_aligned, hpos, Nat.le_of_lt hlt, hv.cap_min, hv.cap_int⟩
      hlt (hcols1 from_pos hpos hlt)
  · refine ⟨samples.length / channels, le_refl _, ?_⟩
    apply encode_chain_reaches host samples channels eps cap hv.chan_pos hv.chan_max
      hv.len_aligned hv.cap_min hv.cap_int hcols1 _ 0 (dvd_zero _) (Nat.zero_le _)
    rw [Nat.zero_add, Nat.div_mul_cancel hv.len_aligned]

/-- Witness of C7 on scenario S2: one active channel per column at most, capacity 64;
the chain from 0 reaches the end of the six samples in one call. -/
theorem encode_terminates_witness :
    ValidCall s2_samples 2 0 64 ∧
    ((∀ from_pos, 2 ∣ from_pos → from_pos < s2_samples.length →
      ∃ (r : Nat) (pkt : List Nat),
        encode Endian.little s2_samples 2 0x3C23D70A from_pos 64 = some (r, pkt)
          ∧ from_pos < r) ∧
    ∃ n, n ≤ s2_samples.length / 2 ∧
      encode_chain Endian.little s2_samples 2 0x3C23D70A 64 n 0 = some s2_samples.length) ∧
    encode_chain Endian.little s2_samples 2 0x3C23D70A 64 1 0 = some 6 :=
  ⟨⟨by decide, by decide, by decide, by decide, by decide, by decide, by decide⟩,
    encode_terminates Endian.little s2_samples 2 0x3C23D70A 64
      ⟨by decide, by decide, by decide, by decide, by decide, by decide, by decide⟩
      (by decide)
      (by
        intro k hk
        have hk3 : k < 3 := by
          have : s2_samples.length = 6 := rfl
          omega
        interval_cases k <;> decide),
    by decide⟩

/-! ## Long zero runs -/

theorem zero_run_getD_lt (n x i : Nat) (h : i < n) :
    (List.replicate n 0 ++ [x]).getD i 0 = 0 := by
  rw [List.getD_eq_getElem?_getD, List.getElem?_append_left (by rw [List.length_replicate]; exact h),
    List.getElem?_replicate, if_pos h]
  rfl

theorem zero_run_getD_last (n x : Nat) :
    (List.replicate n 0 ++ [x]).getD n 0 = x := by
  rw [List.getD_eq_getElem?_getD,
    List.getElem?_append_right (by rw [List.length_replicate]), List.length_replicate,
    Nat.sub_self]
  rfl

theorem zero_run_skip (n x eps : Nat) (hx : is_active eps x = true)
    (h0 : is_active eps 0 = false) :
    skip_prefix_zeros (List.replicate n 0 ++ [x]) 1 eps 0 = some (n, to_int16 n) := by
  obtain ⟨m, h1, h2, h3⟩ := skip_prefix_zeros_spec (List.replicate n 0 ++ [x]) 1 eps 0
    (le_refl 1)
  have hlen : (List.replicate n 0 ++ [x]).length = n + 1 := by simp
  have hm : m = n := by
    rcases Nat.lt_trichotomy m n with hlt | heq | hgt
    · exfalso
      rcases h3 with h | h
      · rw [hlen] at h; omega
      · obtain ⟨c, hc, hact⟩ := (column_nonzero_iff _ _ _ _).1 h
        unfold chan_active at hact
        rw [zero_run_getD_lt n x _ (by omega), h0] at hact
        exact Bool.noConfusion hact
    · exact heq
    · exfalso
      have hz := (h2 n hgt).2 0 (by omega)
      unfold chan_active at hz
      have e : 0 + n * 1 + 0 = n := by omega
      rw [e, zero_run_getD_last, hx] at hz
      exact Bool.noConfusion hz
  rw [h1, hm]
  simp

theorem zero_run_encode (host : Endian) (n x eps : Nat) (cap : Int)
    (hx : is_active eps x = true) (h0 : is_active eps 0 = false)
    (hcap : 1 ≤ to_int (to_size_t (cap - 2 - ((1 + 7) / 8 : Nat)) / 4)) :
    encode host (List.replicate n 0 ++ [x]) 1 eps 0 cap
      = some (n + 1, int16_bytes host (to_int16 n) ++ ([1] ++ float_bytes host x)) := by
  have hlen : (List.replicate n 0 ++ [x]).length = n + 1 := by simp
  have hscan : scan_of (List.replicate n 0 ++ [x]) eps 1
      { active_channels := 0, cur_float_cnt := 0, cur_pos := n, cols_passed := 0,
        bitmask := List.replicate 32 0 }
      = { added_bits := 1 :: List.replicate 31 0, active_channels := 1, to_add := 0 } := by
    unfold scan_of
    simp only [scan_column, zero_run_getD_last, hx]
    rfl
  have h4 : get_payload_dims_loop (List.replicate n 0 ++ [x]) 1 eps ((1 + 7) / 8)
      (to_int (to_size_t (cap - 2 - ((1 + 7) / 8 : Nat)) / 4))
      ((List.replicate n 0 ++ [x]).length + 1)
      { active_channels := 0, cur_float_cnt := 0, cur_pos := n, cols_passed := 0,
        bitmask := List.replicate 32 0 }
      = some { active_channels := 1, cur_float_cnt := 1, cur_pos := n + 1, cols_passed := 1,
               bitmask := 1 :: List.replicate 31 0 } := by
    rw [hlen, get_payload_dims_loop_succ, hlen, if_pos (Nat.lt_succ_self n), hscan]
    have hfit : ¬ (((0 + 0 + 1 : Nat) : Int)
        > to_int (to_size_t (cap - 2 - ((1 + 7) / 8 : Nat)) / 4)) := by
      have e : ((0 + 0 + 1 : Nat) : Int) = 1 := rfl
      rw [e]
      exact not_lt.2 hcap
    rw [if_neg hfit]
    have hacc : accept_column (List.replicate n 0 ++ [x]) eps 1 ((1 + 7) / 8)
        { active_channels := 0, cur_float_cnt := 0, cur_pos := n, cols_passed := 0,
          bitmask := List.replicate 32 0 }
        = { active_channels := 1, cur_float_cnt := 1, cur_pos := n + 1, cols_passed := 1,
            bitmask := 1 :: List.replicate 31 0 } := by
      have hm : merge_bits (1 :: List.replicate 31 0) ((1 + 7) / 8) 0 (List.replicate 32 0)
          = 1 :: List.replicate 31 0 := by decide
      unfold accept_column
      rw [hscan]
      simp only [hm]
    rw [hacc, get_payload_dims_loop_succ, hlen, if_neg (Nat.lt_irrefl _)]
  rw [encode_of_parts host _ 1 eps 0 cap n (to_int16 n) _ (zero_run_skip n x eps hx h0) h4]
  simp only [write_columns, write_column]
  have hb : bit_test ((1 :: List.replicate 31 0).getD 0 0) 0 = true := by decide
  rw [if_pos hb, zero_run_getD_last]
  rfl

/-- C10 (zero-run saturation) on the code: with `C = 1`, `eps = 0.01` and 40000 zero
columns followed by the sample `1.0`, the first call of `encode` does not stop after
32767 columns. It skips all 40000, writes the wrapped counter `40000 − 65536 = −25536`
(bytes `0x40 0x9C`), includes the active column and returns cursor 40001. -/
theorem zero_run_wraps :
    encode Endian.little (List.replicate 40000 0 ++ [0x3F800000]) 1 0x3C23D70A 0 64
        = some (40001, [0x40, 0x9C, 1, 0, 0, 0x80, 0x3F]) ∧
    skip_prefix_zeros (List.replicate 40000 0 ++ [0x3F800000]) 1 0x3C23D70A 0
        = some (40000, -25536) := by
  constructor
  · rw [zero_run_encode Endian.little 40000 0x3F800000 0x3C23D70A 64 (by decide) (by decide)
      (by decide)]
    decide
  · rw [zero_run_skip 40000 0x3F800000 0x3C23D70A (by decide) (by decide)]
    decide

/-! ## Bytes of the bitmask -/

theorem byte_zero_of_bits (b : Nat) (hb : b < 256) (h : ∀ k, k < 8 → bit_test b k = false) :
    b = 0 := by
  apply Nat.eq_of_testBit_eq
  intro i
  rw [Nat.zero_testBit]
  by_cases hi : i < 8
  · rw [← bit_test_eq_testBit]; exact h i hi
  · apply Nat.testBit_lt_two_pow
    calc b < 2 ^ 8 := hb
      _ ≤ 2 ^ i := Nat.pow_le_pow_right (by omega) (by omega)

theorem mask_bytes_zero (bm : List Nat) (hb : ∀ j, bm.getD j 0 < 256)
    (h : ∀ c, mask_bit bm c = false) (j : Nat) : bm.getD j 0 = 0 := by
  apply byte_zero_of_bits _ (hb j)
  intro k hk
  have := h (8 * j + k)
  unfold mask_bit at this
  have e1 : (8 * j + k) / 8 = j := by omega
  have e2 : (8 * j + k) % 8 = k := by omega
  rw [e1, e2] at this
  exact this

theorem eq_replicate_of_getD (l : List Nat) (h : ∀ j, l.getD j 0 = 0) :
    l = List.replicate l.length 0 := by
  induction l with
  | nil => rfl
  | cons a t ih =>
    have h0 : a = 0 := h 0
    have ht : ∀ j, t.getD j 0 = 0 := fun j => h (j + 1)
    rw [List.length_cons, List.replicate_succ, ← ih ht, h0]

theorem getD_take (l : List Nat) (n j : Nat) :
    (l.take n).getD j 0 = if j < n then l.getD j 0 else 0 := by
  rw [List.getD_eq_getElem?_getD, List.getD_eq_getElem?_getD]
  by_cases h : j < n
  · rw [if_pos h, List.getElem?_take_of_lt h]
  · rw [if_neg h, List.getElem?_take_eq_none (by omega)]
    rfl

theorem bitmask_popcount_eq (mask : List Nat) :
    bitmask_popcount mask = (List.range (8 * mask.length)).countP (mask_bit mask) := by
  induction mask with
  | nil => rfl
  | cons b t ih =>
    have e : 8 * (b :: t).length = 8 + 8 * t.length := by rw [List.length_cons]; ring
    rw [e, List.range_add, List.countP_append, List.countP_map]
    unfold bitmask_popcount at ih ⊢
    rw [List.map_cons, List.sum_cons, ih]
    have h1 : byte_popcount b = (List.range 8).countP (mask_bit (b :: t)) := by
      unfold byte_popcount
      apply countP_congr_mem
      intro c hc
      have hc8 : c < 8 := by simpa using hc
      unfold mask_bit
      have e1 : c / 8 = 0 := by omega
      have e2 : c % 8 = c := by omega
      rw [e1, e2]; rfl
    have h2 : (List.range (8 * t.length)).countP (mask_bit t)
        = (List.range (8 * t.length)).countP (mask_bit (b :: t) ∘ fun x => 8 + x) := by
      apply countP_congr_mem
      intro c _
      show mask_bit t c = mask_bit (b :: t) (8 + c)
      unfold mask_bit
      have e1 : (8 + c) / 8 = c / 8 + 1 := by omega
      have e2 : (8 + c) % 8 = c % 8 := by omega
      rw [e1, e2]; rfl
    rw [h1, h2]

theorem countP_range_padding (p : Nat → Bool) (n k : Nat) (hnk : n ≤ k)
    (h : ∀ c, n ≤ c → p c = false) :
    (List.range k).countP p = (List.range n).countP p := by
  have e : k = n + (k - n) := by omega
  rw [e, List.range_add, List.countP_append, List.countP_map]
  have : (List.range (k - n)).countP (p ∘ fun x => n + x) = 0 := by
    rw [List.countP_eq_zero]
    intro a _
    simp only [Function.comp]
    rw [h (n + a) (by omega)]
    exact Bool.false_ne_true
  rw [this, Nat.add_zero]

theorem emitted_mask_bit (host : Endian) (samples : List Nat) (channels eps from_pos : Nat)
    (cap : Int) (m : Nat) (d : Dims)
    (v : EncodeView host samples channels eps from_pos cap m d) (c : Nat) :
    mask_bit (d.bitmask.take ((channels + 7) / 8)) c
      = (decide (c < channels)
          && span_active samples eps channels (from_pos + m * channels) d.cols_passed c) := by
  by_cases h : c / 8 < (channels + 7) / 8
  · rw [mask_bit_take _ _ _ h, v.plan.mask c]
  · have hc : ¬ c < channels := by omega
    unfold mask_bit
    rw [getD_take, if_neg h, bit_test_zero]
    simp [hc]

theorem emitted_mask_bytes (host : Endian) (samples : List Nat) (channels eps from_pos : Nat)
    (cap : Int) (m : Nat) (d : Dims)
    (v : EncodeView host samples channels eps from_pos cap m d) (j : Nat) :
    (d.bitmask.take ((channels + 7) / 8)).getD j 0 < 256 := by
  rw [getD_take]
  split
  · exact v.plan.bytes j
  · omega

theorem emitted_mask_popcount (host : Endian) (samples : List Nat) (channels eps from_pos : Nat)
    (cap : Int) (m : Nat) (d : Dims) (hC : channels ≤ 255)
    (v : EncodeView host samples channels eps from_pos cap m d) :
    bitmask_popcount (d.bitmask.take ((channels + 7) / 8)) = mask_count d.bitmask channels := by
  rw [bitmask_popcount_eq, ← mask_count_take]
  unfold mask_count
  apply countP_range_padding
  · rw [List.length_take, v.plan.len]; omega
  · intro c hc
    rw [emitted_mask_bit host samples channels eps from_pos cap m d v c]
    simp [Nat.not_lt.2 hc]

/-! ## Packets without columns, padding and column-count inference -/

theorem encode_view_no_column (host : Endian) (samples : List Nat) (channels eps from_pos : Nat)
    (cap : Int) (m : Nat) (d : Dims) (hC : channels ≤ 255)
    (v : EncodeView host samples channels eps from_pos cap m d) (h0 : d.cols_passed = 0) :
    d.bitmask.take ((channels + 7) / 8) = List.replicate ((channels + 7) / 8) 0 ∧
    encode host samples channels eps from_pos cap
      = some (from_pos + m * channels,
          int16_bytes host (to_int16 m) ++ List.replicate ((channels + 7) / 8) 0) := by
  have hbits : ∀ c, mask_bit (d.bitmask.take ((channels + 7) / 8)) c = false := by
    intro c
    rw [emitted_mask_bit host samples channels eps from_pos cap m d v c, h0]
    simp [span_active]
  have hz := eq_replicate_of_getD _
    (mask_bytes_zero _ (emitted_mask_bytes host samples channels eps from_pos cap m d v) hbits)
  have hl : (d.bitmask.take ((channels + 7) / 8)).length = (channels + 7) / 8 := by
    rw [List.length_take, v.plan.len]; omega
  rw [hl] at hz
  refine ⟨hz, ?_⟩
  have hp : d.cur_pos = from_pos + m * channels := by rw [v.plan.pos, h0]; simp
  rw [v.out, hp, h0, ← hz]
  simp [span_values, floats_bytes]

theorem active_count_le_mask_count (host : Endian) (samples : List Nat)
    (channels eps from_pos : Nat) (cap : Int) (m : Nat) (d : Dims)
    (v : EncodeView host samples channels eps from_pos cap m d) (hc : 0 < d.cols_passed) :
    active_count samples eps channels (from_pos + m * channels)
      ≤ mask_count d.bitmask channels := by
  unfold active_count mask_count
  apply List.countP_mono_left
  intro c hcm hact
  have hlt : c < channels := by simpa using hcm
  rw [v.plan.mask c]
  simp only [hlt, decide_True, Bool.true_and]
  unfold span_active
  rw [List.any_eq_true]
  exact ⟨0, by simpa using hc, by simpa using hact⟩

theorem active_count_pos (samples : List Nat) (eps channels pos : Nat)
    (h : column_nonzero samples eps channels pos = true) :
    0 < active_count samples eps channels pos := by
  obtain ⟨c, hc, hact⟩ := (column_nonzero_iff samples eps channels pos).1 h
  unfold active_count
  rw [List.countP_pos_iff]
  exact ⟨c, by simpa using hc, hact⟩

/-- C18 (padding bits are clear): on a valid call every emitted bitmask byte is below
256, every bit at a position `c ≥ C` of the emitted bitmask is `0`, and the popcount of
the emitted bitmask bytes is the number of channels `c < C` that are active in one of the
included columns. -/
theorem encode_padding_clear (host : Endian) (samples : List Nat) (channels eps from_pos : Nat)
    (cap : Int) (hv : ValidCall samples channels from_pos cap) :
    ∃ (p : Nat) (z : Int) (cols : Nat) (mask : List Nat),
      Emits host samples channels eps from_pos cap p z cols mask ∧
      (∀ j, mask.getD j 0 < 256) ∧
      (∀ c, channels ≤ c → bit_test (mask.getD (c / 8) 0) (c % 8) = false) ∧
      bitmask_popcount mask
        = (List.range channels).countP (span_active samples eps channels p cols) := by
  obtain ⟨m, d, v⟩ := encode_view host samples channels eps from_pos cap hv.chan_pos hv.chan_max
  refine ⟨_, _, _, _, encode_emits host samples channels eps from_pos cap m d hv v,
    emitted_mask_bytes host samples channels eps from_pos cap m d v, ?_, ?_⟩
  · intro c hc
    have := emitted_mask_bit host samples channels eps from_pos cap m d v c
    unfold mask_bit at this
    rw [this]
    simp [Nat.not_lt.2 hc]
  · rw [emitted_mask_popcount host samples channels eps from_pos cap m d hv.chan_max v]
    unfold mask_count
    apply countP_congr_mem
    intro c hcm
    have hlt : c < channels := by simpa using hcm
    rw [v.plan.mask c]
    simp [hlt]

/-- Witness of C18 on scenario S6 (`C = 3`: bits 3 to 7 of the single bitmask byte). -/
theorem encode_padding_clear_witness :
    ValidCall s6_samples 3 0 27 ∧
    ∃ (p : Nat) (z : Int) (cols : Nat) (mask : List Nat),
      Emits Endian.little s6_samples 3 0 0 27 p z cols mask ∧
      (∀ j, mask.getD j 0 < 256) ∧
      (∀ c, 3 ≤ c → bit_test (mask.getD (c / 8) 0) (c % 8) = false) ∧
      bitmask_popcount mask
        = (List.range 3).countP (span_active s6_samples 0 3 p cols) :=
  ⟨⟨by decide, by decide, by decide, by decide, by decide, by decide, by decide⟩,
    encode_padding_clear Endian.little s6_samples 3 0 0 27
      ⟨by decide, by decide, by decide, by decide, by decide, by decide, by decide⟩⟩

/-- C12 (degenerate capacity): on a valid call the scanner stops at `p`, the first column
at or after `from_pos` with an active cell. If `p` is inside the buffer and that column
has more active channels than `float_capacity = ⌊(capacity − 2 − ⌈C/8⌉)/4⌋` (always so
when `float_capacity = 0`), no column is included: the packet is the header followed by
`⌈C/8⌉` zero bitmask bytes, no float is written and the cursor returned is `p`; a call
that starts on a non-zero column has `p = from_pos`. -/
theorem encode_degenerate_capacity (host : Endian) (samples : List Nat)
    (channels eps from_pos : Nat) (cap : Int) (hv : ValidCall samples channels from_pos cap) :
    ∃ m : Nat,
      skip_prefix_zeros samples channels eps from_pos
        = some (from_pos + m * channels, to_int16 m) ∧
      (∀ j, j < m → zero_column samples eps channels (from_pos + j * channels)) ∧
      (from_pos + m * channels < samples.length →
        0 < active_count samples eps channels (from_pos + m * channels)) ∧
      (from_pos + m * channels < samples.length →
        (cap - 2 - ((channels + 7) / 8 : Nat)) / 4
          < (active_count samples eps channels (from_pos + m * channels) : Int) →
        encode host samples channels eps from_pos cap
          = some (from_pos + m * channels,
              int16_bytes host (to_int16 m) ++ List.replicate ((channels + 7) / 8) 0)) ∧
      (from_pos + m * channels < samples.length →
        (cap - 2 - ((channels + 7) / 8 : Nat)) / 4 = 0 →
        encode host samples channels eps from_pos cap
          = some (from_pos + m * channels,
              int16_bytes host (to_int16 m) ++ List.replicate ((channels + 7) / 8) 0)) ∧
      (from_pos < samples.length → 0 < active_count samples eps channels from_pos → m = 0) := by
  obtain ⟨m, d, v⟩ := encode_view host samples channels eps from_pos cap hv.chan_pos hv.chan_max
  have hfc := float_capacity_eq channels cap hv.cap_min hv.cap_int
  have hnz : from_pos + m * channels < samples.length →
      0 < active_count samples eps channels (from_pos + m * channels) := by
    intro hlt
    rcases v.first with h | h
    · omega
    · exact active_count_pos samples eps channels _ h
  have hmain : from_pos + m * channels < samples.length →
      (cap - 2 - ((channels + 7) / 8 : Nat)) / 4
        < (active_count samples eps channels (from_pos + m * channels) : Int) →
      encode host samples channels eps from_pos cap
        = some (from_pos + m * channels,
            int16_bytes host (to_int16 m) ++ List.replicate ((channels + 7) / 8) 0) := by
    intro _ hgt
    apply (encode_view_no_column host samples channels eps from_pos cap m d hv.chan_max v _).2
    rcases Nat.eq_zero_or_pos d.cols_passed with h0 | hpos
    · exact h0
    · exfalso
      have h1 := active_count_le_mask_count host samples channels eps from_pos cap m d v hpos
      have h2 : mask_count d.bitmask channels ≤ d.cols_passed * mask_count d.bitmask channels :=
        Nat.le_mul_of_pos_left _ hpos
      rcases v.plan.cap with h | h
      · omega
      · rw [hfc] at h
        have h3 : ((active_count samples eps channels (from_pos + m * channels) : Nat) : Int)
            ≤ ((d.cols_passed * mask_count d.bitmask channels : Nat) : Int) := by
          exact_mod_cast le_trans h1 h2
        omega
  refine ⟨m, v.skip, fun j hj => (v.zeros j hj).2, hnz, hmain, ?_, ?_⟩
  · intro hlt h0
    apply hmain hlt
    rw [h0]
    exact_mod_cast hnz hlt
  · intro hlt hact
    rcases Nat.eq_zero_or_pos m with h0 | hpos
    · exact h0
    · exfalso
      have hz := (v.zeros 0 hpos).2
      simp only [Nat.zero_mul, Nat.add_zero] at hz
      unfold active_count at hact
      rw [List.countP_pos_iff] at hact
      obtain ⟨c, hc, hca⟩ := hact
      rw [hz c (by simpa using hc)] at hca
      exact Bool.noConfusion hca

/-- Witness of C12: `C = 2`, `eps = 0`, samples `[1.0, 1.0]`, capacity 7 (one float slot,
two active channels): nothing is included and the cursor stays at 0. -/
theorem encode_degenerate_capacity_witness :
    ValidCall [0x3F800000, 0x3F800000] 2 0 7 ∧
    (∃ m : Nat,
      skip_prefix_zeros [0x3F800000, 0x3F800000] 2 0 0 = some (0 + m * 2, to_int16 m) ∧
      (∀ j, j < m → zero_column [0x3F800000, 0x3F800000] 0 2 (0 + j * 2)) ∧
      (0 + m * 2 < [0x3F800000, 0x3F800000].length →
        0 < active_count [0x3F800000, 0x3F800000] 0 2 (0 + m * 2)) ∧
      (0 + m * 2 < [0x3F800000, 0x3F800000].length →
        ((7 : Int) - 2 - ((2 + 7) / 8 : Nat)) / 4
          < (active_count [0x3F800000, 0x3F800000] 0 2 (0 + m * 2) : Int) →
        encode Endian.little [0x3F800000, 0x3F800000] 2 0 0 7
          = some (0 + m * 2,
              int16_bytes Endian.little (to_int16 m) ++ List.replicate ((2 + 7) / 8) 0)) ∧
      (0 + m * 2 < [0x3F800000, 0x3F800000].length →
        ((7 : Int) - 2 - ((2 + 7) / 8 : Nat)) / 4 = 0 →
        encode Endian.little [0x3F800000, 0x3F800000] 2 0 0 7
          = some (0 + m * 2,
              int16_bytes Endian.little (to_int16 m) ++ List.replicate ((2 + 7) / 8) 0)) ∧
      (0 < [0x3F800000, 0x3F800000].length →
        0 < active_count [0x3F800000, 0x3F800000] 0 2 0 → m = 0)) ∧
    encode Endian.little [0x3F800000, 0x3F800000] 2 0 0 7 = some (0, [0, 0, 0]) :=
  ⟨⟨by decide, by decide, by decide, by decide, by decide, by decide, by decide⟩,
    encode_degenerate_capacity Endian.little [0x3F800000, 0x3F800000] 2 0 0 7
      ⟨by decide, by decide, by decide, by decide, by decide, by decide, by decide⟩,
    by decide⟩
theorem bitmask_popcount_replicate (n : Nat) : bitmask_popcount (List.replicate n 0) = 0 := by
  rw [bitmask_popcount_eq, List.countP_eq_zero]
  intro c _
  rw [mask_bit_replicate]
  exact Bool.false_ne_true

theorem packet_mask (hdr mask vals : List Nat) (n : Nat) (h2 : hdr.length = 2)
    (hn : mask.length = n) : ((hdr ++ (mask ++ vals)).drop 2).take n = mask := by
  rw [List.drop_left' h2, List.take_left' hn]

theorem infer_cols_packet (hdr mask vals : List Nat) (channels cols : Nat) (h2 : hdr.length = 2)
    (hn : mask.length = (channels + 7) / 8)
    (hv : vals.length = 4 * (cols * bitmask_popcount mask))
    (h0 : cols = 0 → bitmask_popcount mask = 0)
    (h1 : 0 < cols → 0 < bitmask_popcount mask) :
    infer_cols channels (hdr ++ (mask ++ vals)) = cols := by
  unfold infer_cols
  rw [packet_mask hdr mask vals _ h2 hn]
  rcases Nat.eq_zero_or_pos cols with hc | hc
  · rw [h0 hc, hc]; simp
  · have hp := h1 hc
    rw [if_pos hp, List.length_append, List.length_append, h2, hn, hv]
    have e : 2 + ((channels + 7) / 8 + 4 * (cols * bitmask_popcount mask)) - 2 - (channels + 7) / 8
        = cols * (4 * bitmask_popcount mask) := by
      have : 4 * (cols * bitmask_popcount mask) = cols * (4 * bitmask_popcount mask) := by ring
      omega
    rw [e, Nat.mul_div_cancel _ (by omega)]

/-- C13 (decoder column-count inference is sound): on a valid call the emitted bitmask is
all-zero if and only if no column is included; when `cols > 0` the popcount of the
bitmask is positive and the packet length `L = 2 + ⌈C/8⌉ + 4·cols·popcount(bitmask)`
satisfies `(L − 2 − ⌈C/8⌉) / (4·popcount(bitmask)) = cols`; so the decoder's inference
rule returns `cols` on every emitted packet. -/
theorem decoder_cols_sound (host : Endian) (samples : List Nat) (channels eps from_pos : Nat)
    (cap : Int) (hv : ValidCall samples channels from_pos cap) :
    ∃ (p : Nat) (z : Int) (cols : Nat) (mask pkt : List Nat),
      Emits host samples channels eps from_pos cap p z cols mask ∧
      encode host samples channels eps from_pos cap = some (p + cols * channels, pkt) ∧
      (mask = List.replicate ((channels + 7) / 8) 0 ↔ cols = 0) ∧
      (0 < cols →
        0 < bitmask_popcount mask ∧
        pkt.length = 2 + (channels + 7) / 8 + 4 * cols * bitmask_popcount mask ∧
        (pkt.length - 2 - (channels + 7) / 8) / (4 * bitmask_popcount mask) = cols) ∧
      infer_cols channels pkt = cols := by
  obtain ⟨m, d, v⟩ := encode_view host samples channels eps from_pos cap hv.chan_pos hv.chan_max
  have em := encode_emits host samples channels eps from_pos cap m d hv v
  have hpc := emitted_mask_popcount host samples channels eps from_pos cap m d hv.chan_max v
  have hvals : (floats_bytes host (span_values samples (d.bitmask.take ((channels + 7) / 8))
      channels (from_pos + m * channels) d.cols_passed)).length
      = 4 * (d.cols_passed * bitmask_popcount (d.bitmask.take ((channels + 7) / 8))) := by
    rw [floats_bytes_length, span_values_length, mask_count_take, hpc]
  have hpos : 0 < d.cols_passed →
      0 < bitmask_popcount (d.bitmask.take ((channels + 7) / 8)) := by
    intro hc
    rw [hpc]
    have h1 := active_count_le_mask_count host samples channels eps from_pos cap m d v hc
    have hin := v.plan.inb 0 hc
    simp only [Nat.zero_mul, Nat.add_zero] at hin
    rcases v.first with h | h
    · omega
    · have := active_count_pos samples eps channels _ h
      omega
  have hzero : d.cols_passed = 0 →
      bitmask_popcount (d.bitmask.take ((channels + 7) / 8)) = 0 := by
    intro hc
    rw [(encode_view_no_column host samples channels eps from_pos cap m d hv.chan_max v hc).1]
    exact bitmask_popcount_replicate _
  refine ⟨_, _, _, _, _, em, em.out, ?_, ?_, ?_⟩
  · constructor
    · intro hz
      rcases Nat.eq_zero_or_pos d.cols_passed with hc | hc
      · exact hc
      · have := hpos hc
        rw [hz, bitmask_popcount_replicate] at this
        omega
    · intro hc
      exact (encode_view_no_column host samples channels eps from_pos cap m d hv.chan_max v hc).1
  · intro hc
    have hp := hpos hc
    have hl : (int16_bytes host (to_int16 m) ++ (d.bitmask.take ((channels + 7) / 8)
        ++ floats_bytes host (span_values samples (d.bitmask.take ((channels + 7) / 8))
          channels (from_pos + m * channels) d.cols_passed))).length
        = 2 + (channels + 7) / 8
          + 4 * d.cols_passed * bitmask_popcount (d.bitmask.take ((channels + 7) / 8)) := by
      rw [List.length_append, List.length_append, int16_bytes_length, hvals, em.mask_len]
      ring
    refine ⟨hp, hl, ?_⟩
    rw [hl]
    have e : 2 + (channels + 7) / 8
        + 4 * d.cols_passed * bitmask_popcount (d.bitmask.take ((channels + 7) / 8))
        - 2 - (channels + 7) / 8
        = d.cols_passed * (4 * bitmask_popcount (d.bitmask.take ((channels + 7) / 8))) := by
      have : 4 * d.cols_passed * bitmask_popcount (d.bitmask.take ((channels + 7) / 8))
          = d.cols_passed * (4 * bitmask_popcount (d.bitmask.take ((channels + 7) / 8))) := by
        ring
      omega
    rw [e, Nat.mul_div_cancel _ (by omega)]
  · exact infer_cols_packet _ _ _ channels d.cols_passed (int16_bytes_length host _) em.mask_len
      hvals hzero hpos

/-- Witness of C13 on scenario S6: bitmask `0b111`, 27 bytes, `(27 − 3) / (4·3) = 2`. -/
theorem decoder_cols_sound_witness :
    ValidCall s6_samples 3 0 27 ∧
    (∃ (p : Nat) (z : Int) (cols : Nat) (mask pkt : List Nat),
      Emits Endian.little s6_samples 3 0 0 27 p z cols mask ∧
      encode Endian.little s6_samples 3 0 0 27 = some (p + cols * 3, pkt) ∧
      (mask = List.replicate ((3 + 7) / 8) 0 ↔ cols = 0) ∧
      (0 < cols →
        0 < bitmask_popcount mask ∧
        pkt.length = 2 + (3 + 7) / 8 + 4 * cols * bitmask_popcount mask ∧
        (pkt.length - 2 - (3 + 7) / 8) / (4 * bitmask_popcount mask) = cols) ∧
      infer_cols 3 pkt = cols) ∧
    infer_cols 3 (int16_bytes Endian.little 0 ++ ([7] ++ floats_bytes Endian.little s6_samples))
      = 2 :=
  ⟨⟨by decide, by decide, by decide, by decide, by decide, by decide, by decide⟩,
    decoder_cols_sound Endian.little s6_samples 3 0 0 27
      ⟨by decide, by decide, by decide, by decide, by decide, by decide, by decide⟩,
    by decide⟩

/-! ## Cursor accounting and small capacities -/

theorem read_int16_bytes (host : Endian) (m : Nat) (hm : m < 32768) :
    read_int16 host (int16_bytes host (to_int16 m)) = (m : Int) := by
  have hz : to_int16 (m : Int) = (m : Int) := by unfold to_int16; omega
  have hn : ((m : Int) % 65536).toNat = m := by omega
  unfold read_int16
  rw [hz]
  cases host
  · simp only [int16_bytes, obj_bytes, read_obj, le_bytes, read_le, hn]
    unfold to_int16; omega
  · simp only [int16_bytes, obj_bytes, read_obj, List.reverse_reverse, le_bytes, read_le, hn]
    unfold to_int16; omega

/-- C17 (cursor accounting): on a valid call that skips `m` zero columns and includes
`cols` columns the cursor returned is `from_pos + m·C + cols·C`; when `m < 32768` the
16-bit `skip_count` read back from the header is `m`, so the cursor equals
`from_pos + C·(skip_count + cols)`. -/
theorem encode_cursor_accounting (host : Endian) (samples : List Nat)
    (channels eps from_pos : Nat) (cap : Int) (hv : ValidCall samples channels from_pos cap) :
    ∃ (m cols : Nat) (mask pkt : List Nat),
      Emits host samples channels eps from_pos cap (from_pos + m * channels) (to_int16 m)
        cols mask ∧
      (∀ j, j < m → zero_column samples eps channels (from_pos + j * channels)) ∧
      encode host samples channels eps from_pos cap
        = some (from_pos + m * channels + cols * channels, pkt) ∧
      (m < 32768 →
        read_int16 host (pkt.take 2) = (m : Int) ∧
        ((from_pos + m * channels + cols * channels : Nat) : Int)
          = from_pos + channels * (read_int16 host (pkt.take 2) + cols)) := by
  obtain ⟨m, d, v⟩ := encode_view host samples channels eps from_pos cap hv.chan_pos hv.chan_max
  have em := encode_emits host samples channels eps from_pos cap m d hv v
  refine ⟨m, d.cols_passed, _, _, em, fun j hj => (v.zeros j hj).2, em.out, ?_⟩
  intro hm
  have h2 : (int16_bytes host (to_int16 m)).length = 2 := int16_bytes_length host _
  rw [List.take_left' h2, read_int16_bytes host m hm]
  refine ⟨rfl, ?_⟩
  push_cast
  ring

/-- Witness of C17 on scenario S2: one zero column skipped, two included, cursor
`0 + 2·(1 + 2) = 6`. -/
theorem encode_cursor_accounting_witness :
    ValidCall s2_samples 2 0 64 ∧
    (∃ (m cols : Nat) (mask pkt : List Nat),
      Emits Endian.little s2_samples 2 0x3C23D70A 0 64 (0 + m * 2) (to_int16 m) cols mask ∧
      (∀ j, j < m → zero_column s2_samples 0x3C23D70A 2 (0 + j * 2)) ∧
      encode Endian.little s2_samples 2 0x3C23D70A 0 64 = some (0 + m * 2 + cols * 2, pkt) ∧
      (m < 32768 →
        read_int16 Endian.little (pkt.take 2) = (m : Int) ∧
        ((0 + m * 2 + cols * 2 : Nat) : Int)
          = (0 : Nat) + (2 : Nat) * (read_int16 Endian.little (pkt.take 2) + cols))) ∧
    encode Endian.little s2_samples 2 0x3C23D70A 0 64
      = some (6, int16_bytes Endian.little 1 ++ ([1] ++ floats_bytes Endian.little [0x3F000000, 0])) :=
  ⟨⟨by decide, by decide, by decide, by decide, by decide, by decide, by decide⟩,
    encode_cursor_accounting Endian.little s2_samples 2 0x3C23D70A 0 64
      ⟨by decide, by decide, by decide, by decide, by decide, by decide, by decide⟩,
    by decide⟩

theorem float_capacity_small (channels : Nat) (cap : Int) (hC : channels ≤ 255)
    (h0 : 0 ≤ cap) (h1 : cap < 2 + (((channels + 7) / 8 : Nat) : Int) + 4) :
    float_capacity channels cap ≤ 0 := by
  unfold float_capacity to_int to_size_t
  omega

theorem encode_view_small_capacity (host : Endian) (samples : List Nat)
    (channels eps from_pos : Nat) (cap : Int) (m : Nat) (d : Dims)
    (v : EncodeView host samples channels eps from_pos cap m d)
    (hfc : float_capacity channels cap ≤ 0) : d.cols_passed = 0 := by
  rcases Nat.eq_zero_or_pos d.cols_passed with h0 | hpos
  · exact h0
  · exfalso
    have h1 := active_count_le_mask_count host samples channels eps from_pos cap m d v hpos
    have hin := v.plan.inb 0 hpos
    simp only [Nat.zero_mul, Nat.add_zero] at hin
    have hact : 0 < active_count samples eps channels (from_pos + m * channels) := by
      rcases v.first with h | h
      · omega
      · exact active_count_pos samples eps channels _ h
    have h2 : 0 < d.cols_passed * mask_count d.bitmask channels :=
      Nat.mul_pos hpos (by omega)
    rcases v.plan.cap with h | h
    · omega
    · have : (0 : Int) < ((d.cols_passed * mask_count d.bitmask channels : Nat) : Int) := by
        exact_mod_cast h2
      omega

/-- C11, as the specification words it, fails: `encode` has no error result and always
writes the header. With `C = 8` and one column of samples `1.0`, capacity 2 (below
`2 + ⌈C/8⌉ = 3`) and capacity 3 (scenario S5, where header and bitmask do fit) both give
the three bytes `0, 0, 0` and cursor 0. -/
theorem rejects_as_stated_fails :
    (2 : Int) < 2 + (((8 + 7) / 8 : Nat) : Int) ∧
    encode Endian.little s5_samples 8 0 0 2 = some (0, [0, 0, 0]) ∧
    ¬ RejectsAsStated Endian.little s5_samples 8 0 0 2 ∧
    encode Endian.little s5_samples 8 0 0 3 = some (0, [0, 0, 0]) ∧
    ¬ RejectsAsStated Endian.little s5_samples 8 0 0 3 := by
  have h2 : encode Endian.little s5_samples 8 0 0 2 = some (0, [0, 0, 0]) := by decide
  have h3 : encode Endian.little s5_samples 8 0 0 3 = some (0, [0, 0, 0]) := by decide
  refine ⟨by decide, h2, ?_, h3, ?_⟩
  · intro h
    exact absurd (h 0 [0, 0, 0] h2) (by decide)
  · intro h
    exact absurd (h 0 [0, 0, 0] h3) (by decide)

/-- C11 (small capacities, amended): `encode` validates nothing and has no error result.
For `channels` in `[1,255]`, a column-aligned buffer and cursor and every capacity with
`0 ≤ capacity < 2 + ⌈C/8⌉ + 4` (no room for a float; this covers `capacity < 2 + ⌈C/8⌉`
and scenario S5) the call returns the position where the scanner stopped and writes
exactly the 2 bytes of `skip_count` followed by `⌈C/8⌉` zero bitmask bytes. -/
theorem encode_small_capacity (host : Endian) (samples : List Nat) (channels eps from_pos : Nat)
    (cap : Int) (hC1 : 1 ≤ channels) (hC : channels ≤ 255) (_hlen : channels ∣ samples.length)
    (_hpos : channels ∣ from_pos) (_hle : from_pos ≤ samples.length)
    (h0 : 0 ≤ cap) (h1 : cap < 2 + (((channels + 7) / 8 : Nat) : Int) + 4) :
    ∃ (p : Nat) (z : Int) (pkt : List Nat),
      skip_prefix_zeros samples channels eps from_pos = some (p, z) ∧
      encode host samples channels eps from_pos cap = some (p, pkt) ∧
      pkt = int16_bytes host z ++ List.replicate ((channels + 7) / 8) 0 ∧
      pkt.length = 2 + (channels + 7) / 8 := by
  obtain ⟨m, d, v⟩ := encode_view host samples channels eps from_pos cap hC1 hC
  have hc := encode_view_small_capacity host samples channels eps from_pos cap m d v
    (float_capacity_small channels cap hC h0 h1)
  refine ⟨_, _, _, v.skip,
    (encode_view_no_column host samples channels eps from_pos cap m d hC v hc).2, rfl, ?_⟩
  rw [List.length_append, int16_bytes_length, List.length_replicate]

/-- Witness of C11 on scenario S5 (`C = 8`, capacity 3). -/
theorem encode_small_capacity_witness :
    ∃ (p : Nat) (z : Int) (pkt : List Nat),
      skip_prefix_zeros s5_samples 8 0 0 = some (p, z) ∧
      encode Endian.little s5_samples 8 0 0 3 = some (p, pkt) ∧
      pkt = int16_bytes Endian.little z ++ List.replicate ((8 + 7) / 8) 0 ∧
      pkt.length = 2 + (8 + 7) / 8 :=
  encode_small_capacity Endian.little s5_samples 8 0 0 3 (by decide) (by decide) (by decide)
    (by decide) (by decide) (by decide) (by decide)

/-! ## Maximality of the greedy planner -/

theorem span_active_mono (samples : List Nat) (eps channels start n k c : Nat) (h : n ≤ k)
    (ha : span_active samples eps channels start n c = true) :
    span_active samples eps channels start k c = true := by
  rw [span_active_iff] at ha ⊢
  obtain ⟨j, hj, hact⟩ := ha
  exact ⟨j, by omega, hact⟩

theorem span_count_mono (samples : List Nat) (eps channels start n k : Nat) (h : n ≤ k) :
    n * span_count samples eps channels start n ≤ k * span_count samples eps channels start k := by
  apply Nat.mul_le_mul h
  unfold span_count
  apply List.countP_mono_left
  intro c _ ha
  exact span_active_mono samples eps channels start n k c h ha

theorem plan_post_counts (samples : List Nat) (eps channels start : Nat) (fc : Int) (d : Dims)
    (post : PlanPost samples eps channels start fc d) :
    mask_count d.bitmask channels = span_count samples eps channels start d.cols_passed ∧
    union_count samples eps d.bitmask channels d.cur_pos
      = span_count samples eps channels start (d.cols_passed + 1) := by
  constructor
  · unfold mask_count span_count
    apply countP_congr_mem
    intro c hc
    have hlt : c < channels := by simpa using hc
    rw [post.mask c]
    simp [hlt]
  · unfold union_count span_count
    apply countP_congr_mem
    intro c hc
    have hlt : c < channels := by simpa using hc
    rw [post.mask c, span_active_succ, post.pos]
    simp [hlt]

/-- C14 (the greedy planner is maximal): for `channels` in `[1,255]`, a column-aligned
buffer and start position and `0 ≤ bytes_availible < 2^31`, with `u(n)` the number of
channels active in one of the first `n` columns from `start` and `R` the number of columns
left, `get_payload_dims` returns `cols ≤ R` with `cols·u(cols) ≤ float_capacity`, while
every `n` with `cols < n ≤ R` has `n·u(n) > float_capacity`; `n·u(n)` is non-decreasing
and the end position returned is `start + cols·C`. -/
theorem planner_maximal (samples : List Nat) (eps channels start : Nat) (b : Int)
    (hC1 : 1 ≤ channels) (hC : channels ≤ 255) (hlen : channels ∣ samples.length)
    (hstart : channels ∣ start) (hle : start ≤ samples.length)
    (hb0 : 0 ≤ b) (hb : b < 2147483648) :
    ∃ (cols : Nat) (bm : List Nat),
      get_payload_dims samples channels eps start (List.replicate 32 0) ((channels + 7) / 8) b
        = some (start + cols * channels, cols, bm) ∧
      cols ≤ (samples.length - start) / channels ∧
      ((cols * span_count samples eps channels start cols : Nat) : Int) ≤ b / 4 ∧
      (∀ n, cols < n → n ≤ (samples.length - start) / channels →
        b / 4 < ((n * span_count samples eps channels start n : Nat) : Int)) ∧
      ∀ n k, n ≤ k →
        n * span_count samples eps channels start n
          ≤ k * span_count samples eps channels start k := by
  obtain ⟨d, h1, post⟩ := get_payload_dims_spec samples eps channels start b hC1 hC
  have hfc : to_int (to_size_t b / 4) = b / 4 := by
    unfold to_int to_size_t; omega
  rw [hfc] at post
  obtain ⟨hm, hu⟩ := plan_post_counts samples eps channels start (b / 4) d post
  have hin : start + d.cols_passed * channels ≤ samples.length :=
    aligned_run channels samples.length start d.cols_passed hlen hstart hle post.inb
  have hR : (samples.length - start) / channels * channels ≤ samples.length - start :=
    Nat.div_mul_le_self _ _
  refine ⟨d.cols_passed, d.bitmask, ?_, ?_, ?_, ?_, ?_⟩
  · rw [h1, post.pos]
  · rw [Nat.le_div_iff_mul_le (by omega)]
    omega
  · rw [← hm]
    rcases post.cap with h | h
    · rw [h]; simp only [Nat.zero_mul, Nat.cast_zero]; omega
    · exact h
  · intro n hn hnR
    rcases post.stop with h | h
    · exfalso
      rw [post.pos] at h
      have h2 : n * channels ≤ (samples.length - start) / channels * channels :=
        Nat.mul_le_mul_right _ hnR
      have h3 : (d.cols_passed + 1) * channels ≤ n * channels :=
        Nat.mul_le_mul_right _ hn
      have h4 : (d.cols_passed + 1) * channels = d.cols_passed * channels + channels := by ring
      omega
    · rw [hu] at h
      have hmono := span_count_mono samples eps channels start (d.cols_passed + 1) n hn
      have : (((d.cols_passed + 1) * span_count samples eps channels start (d.cols_passed + 1)
          : Nat) : Int) ≤ ((n * span_count samples eps channels start n : Nat) : Int) := by
        exact_mod_cast hmono
      omega
  · intro n k hnk
    exact span_count_mono samples eps channels start n k hnk

/-- Witness of C14 on scenario S3: `C = 4`, capacity 27 (`float_capacity = 6`); the planner
takes columns 0 to 4, the first packet ends at position 20 and the second call starts its
span at column 5. -/
theorem planner_maximal_witness :
    (∃ (cols : Nat) (bm : List Nat),
      get_payload_dims s3_samples 4 0x3C23D70A 0 (List.replicate 32 0) ((4 + 7) / 8) 24
        = some (0 + cols * 4, cols, bm) ∧
      cols ≤ (s3_samples.length - 0) / 4 ∧
      ((cols * span_count s3_samples 0x3C23D70A 4 0 cols : Nat) : Int) ≤ 24 / 4 ∧
      (∀ n, cols < n → n ≤ (s3_samples.length - 0) / 4 →
        (24 : Int) / 4 < ((n * span_count s3_samples 0x3C23D70A 4 0 n : Nat) : Int)) ∧
      ∀ n k, n ≤ k →
        n * span_count s3_samples 0x3C23D70A 4 0 n
          ≤ k * span_count s3_samples 0x3C23D70A 4 0 k) ∧
    get_payload_dims s3_samples 4 0x3C23D70A 0 (List.replicate 32 0) ((4 + 7) / 8) 24
      = some (20, 5, 1 :: List.replicate 31 0) ∧
    (encode Endian.little s3_samples 4 0x3C23D70A 0 27).map Prod.fst = some 20 ∧
    skip_prefix_zeros s3_samples 4 0x3C23D70A 20 = some (20, 0) ∧
    (encode Endian.little s3_samples 4 0x3C23D70A 20 27).map Prod.fst = some 40 :=
  ⟨planner_maximal s3_samples 0x3C23D70A 4 0 24 (by decide) (by decide) (by decide)
    (by decide) (by decide) (by decide) (by decide), by decide, by decide, by decide,
    by decide⟩

/-! ## Accounting of the planner -/

theorem plan_step_some (samples : List Nat) (channels eps bmb : Nat) (fc : Int) (d d1 : Dims)
    (h : plan_step samples channels eps bmb fc d = some d1) :
    d.cur_pos < samples.length ∧
    ¬ ((d.cur_float_cnt + (scan_of samples eps channels d).to_add
        + (scan_of samples eps channels d).active_channels : Nat) : Int) > fc ∧
    d1 = accept_column samples eps channels bmb d := by
  unfold plan_step at h
  by_cases hpos : d.cur_pos < samples.length
  · rw [if_pos hpos] at h
    by_cases hfit : ((d.cur_float_cnt + (scan_of samples eps channels d).to_add
        + (scan_of samples eps channels d).active_channels : Nat) : Int) > fc
    · rw [if_pos hfit] at h; exact Option.noConfusion h
    · rw [if_neg hfit] at h
      injection h with h
      exact ⟨hpos, hfit, h.symm⟩
  · rw [if_neg hpos] at h; exact Option.noConfusion h

theorem dims_after_succ (samples : List Nat) (channels eps bmb : Nat) (fc : Int)
    (start k : Nat) (d1 : Dims)
    (h : dims_after samples channels eps bmb fc start (k + 1) = some d1) :
    ∃ d, dims_after samples channels eps bmb fc start k = some d ∧
      plan_step samples channels eps bmb fc d = some d1 := by
  rw [dims_after] at h
  cases hk : dims_after samples channels eps bmb fc start k with
  | none => rw [hk] at h; exact Option.noConfusion h
  | some d => rw [hk] at h; exact ⟨d, rfl, h⟩

theorem dims_after_inv (samples : List Nat) (eps channels start : Nat) (fc : Int)
    (hC : channels ≤ 255) :
    ∀ (k : Nat) (d : Dims),
      dims_after samples channels eps ((channels + 7) / 8) fc start k = some d →
      PlanInv samples eps channels start fc d ∧ d.cols_passed = k := by
  intro k
  induction k with
  | zero =>
    intro d h
    rw [dims_after] at h
    injection h with h
    subst h
    exact ⟨plan_inv_init samples eps channels start fc, rfl⟩
  | succ k ih =>
    intro d1 h
    obtain ⟨d, hk, hs⟩ := dims_after_succ samples channels eps _ fc start k d1 h
    obtain ⟨hpos, hfit, he⟩ := plan_step_some samples channels eps _ fc d d1 hs
    obtain ⟨inv, hc⟩ := ih d hk
    subst he
    refine ⟨accept_column_inv samples eps channels start fc d hC inv hpos hfit, ?_⟩
    show d.cols_passed + 1 = k + 1
    rw [hc]

theorem get_payload_dims_loop_after (samples : List Nat) (channels eps bmb : Nat) (fc : Int)
    (start : Nat) :
    ∀ (k : Nat) (d : Dims), dims_after samples channels eps bmb fc start k = some d →
      ∀ fuel, get_payload_dims_loop samples channels eps bmb fc (fuel + k) (dims_init start)
        = get_payload_dims_loop samples channels eps bmb fc fuel d := by
  intro k
  induction k with
  | zero =>
    intro d h fuel
    rw [dims_after] at h
    injection h with h
    rw [h]; rfl
  | succ k ih =>
    intro d1 h fuel
    obtain ⟨d, hk, hs⟩ := dims_after_succ samples channels eps bmb fc start k d1 h
    obtain ⟨hpos, hfit, he⟩ := plan_step_some samples channels eps bmb fc d d1 hs
    have e : fuel + (k + 1) = (fuel + 1) + k := by omega
    rw [e, ih d hk (fuel + 1), get_payload_dims_loop_succ, if_pos hpos, if_neg hfit, he]

theorem plan_inv_popcount (samples : List Nat) (eps channels start : Nat) (fc : Int) (d : Dims)
    (hC : channels ≤ 255) (inv : PlanInv samples eps channels start fc d) :
    bitmask_popcount d.bitmask = mask_count d.bitmask channels := by
  rw [bitmask_popcount_eq]
  unfold mask_count
  apply countP_range_padding
  · rw [inv.len]; omega
  · intro c hc
    rw [inv.mask c]
    simp [Nat.not_lt.2 hc]

/-- C15 (planner accounting invariant): for `channels ≤ 255`, in every state `d` at the
head of the `while` loop of `get_payload_dims` (after `k` admissions, the state returned
at the end of the buffer included) `cur_float_cnt = cols_passed * active_channels` and
`active_channels` is the popcount of the accumulated bitmask; scanning the next column to
`new_active` channels gives `cur_float_cnt + to_add + new_active
= (cols_passed + 1) * new_active`, so the incremental test is the test
`(cols_passed + 1) * new_active ≤ float_capacity`, and admitting the column makes the
committed count `(cols_passed + 1) * new_active`. -/
theorem planner_accounting (samples : List Nat) (eps channels start : Nat) (fc : Int)
    (hC : channels ≤ 255) (k : Nat) (d : Dims)
    (h : dims_after samples channels eps ((channels + 7) / 8) fc start k = some d) :
    (∀ fuel, get_payload_dims_loop samples channels eps ((channels + 7) / 8) fc (fuel + k)
        (dims_init start)
      = get_payload_dims_loop samples channels eps ((channels + 7) / 8) fc fuel d) ∧
    d.cols_passed = k ∧
    d.cur_float_cnt = d.cols_passed * d.active_channels ∧
    d.active_channels = bitmask_popcount d.bitmask ∧
    d.cur_float_cnt + (scan_of samples eps channels d).to_add
        + (scan_of samples eps channels d).active_channels
      = (d.cols_passed + 1) * (scan_of samples eps channels d).active_channels ∧
    (((d.cur_float_cnt + (scan_of samples eps channels d).to_add
        + (scan_of samples eps channels d).active_channels : Nat) : Int) ≤ fc
      ↔ (((d.cols_passed + 1) * (scan_of samples eps channels d).active_channels : Nat) : Int)
          ≤ fc) ∧
    (accept_column samples eps channels ((channels + 7) / 8) d).cur_float_cnt
      = (d.cols_passed + 1) * (scan_of samples eps channels d).active_channels := by
  obtain ⟨inv, hk⟩ := dims_after_inv samples eps channels start fc hC k d h
  obtain ⟨_, _, _, s3, s4⟩ := scan_of_spec samples eps channels start fc d hC inv
  have hsum : d.cur_float_cnt + (scan_of samples eps channels d).to_add
        + (scan_of samples eps channels d).active_channels
      = (d.cols_passed + 1) * (scan_of samples eps channels d).active_channels := by
    rw [s4, s3]
  refine ⟨get_payload_dims_loop_after samples channels eps _ fc start k d h, hk, inv.cnt, ?_,
    hsum, ?_, ?_⟩
  · rw [plan_inv_popcount samples eps channels start fc d hC inv]; exact inv.active
  · rw [hsum]
  · show d.cur_float_cnt + ((scan_of samples eps channels d).to_add
      + (scan_of samples eps channels d).active_channels) = _
    rw [← Nat.add_assoc, hsum]

/-- Witness of C15 on scenario S3 after the five admissions of the first packet:
`cur_float_cnt = 5 = 5 * 1`, and the scan of column 5 gives `5 + 5 + 2 = 6 * 2`. -/
theorem planner_accounting_witness :
    4 ≤ 255 ∧
    dims_after s3_samples 4 0x3C23D70A ((4 + 7) / 8) 6 0 5 = some s3_after_five ∧
    ((∀ fuel, get_payload_dims_loop s3_samples 4 0x3C23D70A ((4 + 7) / 8) 6 (fuel + 5)
        (dims_init 0)
      = get_payload_dims_loop s3_samples 4 0x3C23D70A ((4 + 7) / 8) 6 fuel s3_after_five) ∧
    s3_after_five.cols_passed = 5 ∧
    s3_after_five.cur_float_cnt = s3_after_five.cols_passed * s3_after_five.active_channels ∧
    s3_after_five.active_channels = bitmask_popcount s3_after_five.bitmask ∧
    s3_after_five.cur_float_cnt + (scan_of s3_samples 0x3C23D70A 4 s3_after_five).to_add
        + (scan_of s3_samples 0x3C23D70A 4 s3_after_five).active_channels
      = (s3_after_five.cols_passed + 1)
          * (scan_of s3_samples 0x3C23D70A 4 s3_after_five).active_channels ∧
    (((s3_after_five.cur_float_cnt + (scan_of s3_samples 0x3C23D70A 4 s3_after_five).to_add
        + (scan_of s3_samples 0x3C23D70A 4 s3_after_five).active_channels : Nat) : Int) ≤ 6
      ↔ (((s3_after_five.cols_passed + 1)
          * (scan_of s3_samples 0x3C23D70A 4 s3_after_five).active_channels : Nat) : Int)
          ≤ 6) ∧
    (accept_column s3_samples 0x3C23D70A 4 ((4 + 7) / 8) s3_after_five).cur_float_cnt
      = (s3_after_five.cols_passed + 1)
          * (scan_of s3_samples 0x3C23D70A 4 s3_after_five).active_channels) ∧
    (scan_of s3_samples 0x3C23D70A 4 s3_after_five).to_add = 5 ∧
    (scan_of s3_samples 0x3C23D70A 4 s3_after_five).active_channels = 2 :=
  ⟨by decide, by decide,
    planner_accounting s3_samples 0x3C23D70A 4 0 6 (by decide) 5 s3_after_five (by decide),
    by decide, by decide⟩

theorem commit_sum_le (f : Nat → Nat) (a : Nat) :
    ∀ k, (∀ j, 1 ≤ j → j ≤ k → f j ≤ a) →
      commit_sum f k ≤ k * a ∧
      (k * a = commit_sum f k ↔ ∀ j, 1 ≤ j → j ≤ k → f j = a) := by
  intro k
  induction k with
  | zero =>
    intro _
    refine ⟨by simp [commit_sum], ?_⟩
    constructor
    · intro _ j h1 h2; omega
    · intro _; simp [commit_sum]
  | succ k ih =>
    intro h
    obtain ⟨h1, h2⟩ := ih (fun j hj1 hj2 => h j hj1 (by omega))
    have hk := h (k + 1) (by omega) (le_refl _)
    have e : (k + 1) * a = k * a + a := by ring
    rw [commit_sum, e]
    refine ⟨by omega, ?_⟩
    constructor
    · intro heq j hj1 hj2
      have ha : k * a = commit_sum f k := by omega
      have hb : f (k + 1) = a := by omega
      rcases Nat.eq_or_lt_of_le hj2 with hj | hj
      · rw [hj]; exact hb
      · exact h2.1 ha j hj1 (by omega)
    · intro hall
      have ha := h2.2 (fun j hj1 hj2 => hall j hj1 (by omega))
      have hb := hall (k + 1) (by omega) (le_refl _)
      omega

theorem accept_column_active_le (samples : List Nat) (eps channels start : Nat) (fc : Int)
    (d : Dims) (hC : channels ≤ 255) (inv : PlanInv samples eps channels start fc d) :
    d.active_channels
      ≤ (accept_column samples eps channels ((channels + 7) / 8) d).active_channels := by
  obtain ⟨_, _, _, s3, _⟩ := scan_of_spec samples eps channels start fc d hC inv
  show d.active_channels ≤ (scan_of samples eps channels d).active_channels
  rw [s3, inv.active]
  unfold mask_count union_count
  apply List.countP_mono_left
  intro c _ hc
  simp [hc]

theorem dims_after_prefix (samples : List Nat) (eps channels start : Nat) (fc : Int)
    (hC : channels ≤ 255) :
    ∀ (k : Nat) (d : Dims),
      dims_after samples channels eps ((channels + 7) / 8) fc start k = some d →
      ∀ j, j ≤ k → ∃ dj,
        dims_after samples channels eps ((channels + 7) / 8) fc start j = some dj ∧
        dj.active_channels ≤ d.active_channels := by
  intro k
  induction k with
  | zero =>
    intro d h j hj
    have : j = 0 := by omega
    subst this
    exact ⟨d, h, le_refl _⟩
  | succ k ih =>
    intro d1 h j hj
    rcases Nat.eq_or_lt_of_le hj with heq | hlt
    · subst heq
      exact ⟨d1, h, le_refl _⟩
    · obtain ⟨d, hk, hs⟩ := dims_after_succ samples channels eps _ fc start k d1 h
      obtain ⟨_, _, he⟩ := plan_step_some samples channels eps _ fc d d1 hs
      obtain ⟨inv, _⟩ := dims_after_inv samples eps channels start fc hC k d hk
      obtain ⟨dj, h1, h2⟩ := ih d hk j (by omega)
      refine ⟨dj, h1, le_trans h2 ?_⟩
      rw [he]
      exact accept_column_active_le samples eps channels start fc d hC inv

/-- C19, as the specification words it, fails: with `C = 2`, `eps = 0`, the columns
`1.0, 0` and `1.0, 1.0` and six float slots, after two admissions `cur_float_cnt` is
`4 = 2 * 2` although a channel was added in the second column, while the sum of the
active-channel counts at commit time is `1 + 2 = 3`. -/
theorem commit_sum_as_stated_fails :
    dims_after late_channel_samples 2 0 ((2 + 7) / 8) 6 0 2
      = some { active_channels := 2, cur_float_cnt := 4, cur_pos := 4, cols_passed := 2,
               bitmask := 3 :: List.replicate 31 0 } ∧
    commit_sum (active_at late_channel_samples 2 0 ((2 + 7) / 8) 6 0) 2 = 3 ∧
    ¬ CommitSumAsStated late_channel_samples 2 0 6 0 2 := by
  have hd : dims_after late_channel_samples 2 0 ((2 + 7) / 8) 6 0 2
      = some { active_channels := 2, cur_float_cnt := 4, cur_pos := 4, cols_passed := 2,
               bitmask := 3 :: List.replicate 31 0 } := by decide
  have hs : commit_sum (active_at late_channel_samples 2 0 ((2 + 7) / 8) 6 0) 2 = 3 := by
    decide
  refine ⟨hd, hs, ?_⟩
  intro h
  have h1 := (h _ hd).1
  rw [hs] at h1
  exact absurd h1 (by decide)

/-- C19 (accounting of `cur_float_cnt`, amended): for `channels ≤ 255`, after any `k`
admissions in `get_payload_dims`, `cur_float_cnt = cols_passed * active_channels` always
(each admission adds the column's active count and, for every new channel, one float per
column already committed); the sum over the committed columns of the active-channel count
at commit time is at most `cur_float_cnt`, and equals it if and only if no channel was
added after the first committed column. -/
theorem commit_accounting (samples : List Nat) (eps channels start : Nat) (fc : Int)
    (hC : channels ≤ 255) (k : Nat) (d : Dims)
    (h : dims_after samples channels eps ((channels + 7) / 8) fc start k = some d) :
    d.cols_passed = k ∧
    d.cur_float_cnt = d.cols_passed * d.active_channels ∧
    commit_sum (active_at samples channels eps ((channels + 7) / 8) fc start) k
      ≤ d.cur_float_cnt ∧
    (d.cur_float_cnt
        = commit_sum (active_at samples channels eps ((channels + 7) / 8) fc start) k
      ↔ ∀ j, 1 ≤ j → j ≤ k →
          active_at samples channels eps ((channels + 7) / 8) fc start j
            = d.active_channels) := by
  obtain ⟨inv, hk⟩ := dims_after_inv samples eps channels start fc hC k d h
  have hle : ∀ j, 1 ≤ j → j ≤ k →
      active_at samples channels eps ((channels + 7) / 8) fc start j ≤ d.active_channels := by
    intro j _ hj
    obtain ⟨dj, h1, h2⟩ := dims_after_prefix samples eps channels start fc hC k d h j hj
    unfold active_at
    rw [h1]
    exact h2
  obtain ⟨c1, c2⟩ := commit_sum_le
    (active_at samples channels eps ((channels + 7) / 8) fc start) d.active_channels k hle
  refine ⟨hk, inv.cnt, ?_, ?_⟩
  · rw [inv.cnt, hk]; exact c1
  · rw [inv.cnt, hk]; exact c2

/-- Witness of C19 on the two columns `1.0, 0` and `1.0, 1.0`: after two admissions
`cur_float_cnt = 4 = 2 * 2` while the commit-time counts sum to `3`. -/
theorem commit_accounting_witness :
    2 ≤ 255 ∧
    dims_after late_channel_samples 2 0 ((2 + 7) / 8) 6 0 2
      = some { active_channels := 2, cur_float_cnt := 4, cur_pos := 4, cols_passed := 2,
               bitmask := 3 :: List.replicate 31 0 } ∧
    ((2 : Nat) = 2 ∧
    (4 : Nat) = 2 * 2 ∧
    commit_sum (active_at late_channel_samples 2 0 ((2 + 7) / 8) 6 0) 2 ≤ 4 ∧
    ((4 : Nat) = commit_sum (active_at late_channel_samples 2 0 ((2 + 7) / 8) 6 0) 2
      ↔ ∀ j, 1 ≤ j → j ≤ 2 →
          active_at late_channel_samples 2 0 ((2 + 7) / 8) 6 0 j = 2)) :=
  ⟨by decide, by decide,
    commit_accounting late_channel_samples 0 2 0 6 (by decide) 2
      { active_channels := 2, cur_float_cnt := 4, cur_pos := 4, cols_passed := 2,
        bitmask := 3 :: List.replicate 31 0 } (by decide)⟩

/-! ## Index safety -/

theorem getElem?_eq_getD (l : List Nat) (i : Nat) (h : i < l.length) :
    l[i]? = some (l.getD i 0) := by
  rw [List.getD_eq_getElem?_getD, List.getElem?_eq_getElem h]
  rfl

theorem byte_read_eq (a : List Nat) (lim i : Nat) (h1 : i < lim) (h2 : i < a.length) :
    byte_read a lim i = some (a.getD i 0) := by
  unfold byte_read
  rw [if_pos h1, getElem?_eq_getD a i h2]

theorem column_nonzero_chk_eq (samples : List Nat) (eps : Nat) :
    ∀ (n i : Nat), i + n ≤ samples.length →
      column_nonzero_chk samples eps n i = some (column_nonzero samples eps n i) := by
  intro n
  induction n with
  | zero => intro i _; rfl
  | succ n ih =>
    intro i h
    rw [column_nonzero_chk, column_nonzero, getElem?_eq_getD samples i (by omega)]
    simp only
    split
    · rfl
    · exact ih (i + 1) (by omega)

theorem skip_prefix_zeros_loop_chk_eq (samples : List Nat) (channels eps : Nat)
    (hlen : channels ∣ samples.length) :
    ∀ (fuel pos : Nat) (z : Int), channels ∣ pos →
      skip_prefix_zeros_loop_chk samples channels eps fuel pos z
        = skip_prefix_zeros_loop samples channels eps fuel pos z := by
  intro fuel
  induction fuel with
  | zero => intro pos z _; rfl
  | succ fuel ih =>
    intro pos z hpos
    rw [skip_prefix_zeros_loop_chk, skip_prefix_zeros_loop]
    by_cases hlt : pos < samples.length
    · rw [if_pos hlt, if_pos hlt,
        column_nonzero_chk_eq samples eps channels pos
          (aligned_step channels samples.length pos hlen hpos hlt)]
      cases hnz : column_nonzero samples eps channels pos
      · simp only [Bool.false_eq_true, if_false]
        exact ih (pos + channels) _ (Dvd.dvd.add hpos (dvd_refl _))
      · simp only [if_true]
    · rw [if_neg hlt, if_neg hlt]

theorem scan_cell_chk_eq (samples : List Nat) (eps : Nat) (bm : List Nat)
    (cols lim pos ch : Nat) (s : Scan) (h1 : pos + ch < samples.length) (h2 : ch / 8 < lim)
    (h3 : ch / 8 < bm.length) (h4 : ch / 8 < s.added_bits.length) :
    scan_cell_chk samples eps bm cols lim (pos + ch) (ch / 8) (ch % 8) s
      = some (scan_step samples eps bm cols pos ch s) := by
  unfold scan_cell_chk scan_step new_chan chan_active mask_bit
  rw [getElem?_eq_getD samples _ h1]
  simp only
  cases is_active eps (samples.getD (pos + ch) 0)
  · simp only [Bool.false_and, Bool.false_eq_true, if_false]
  · rw [byte_read_eq bm lim _ h2 h3]
    simp only
    cases bit_test (bm.getD (ch / 8) 0) (ch % 8)
    · rw [byte_read_eq s.added_bits lim _ h2 h4]
      simp only [Bool.not_false, Bool.and_self, if_true]
    · simp only [Bool.not_true, Bool.and_false, Bool.false_eq_true, if_false, if_true,
        ite_self]

theorem scan_column_chk_eq (samples : List Nat) (eps : Nat) (bm : List Nat)
    (cols lim pos channels : Nat) (hbm : bm.length = 32) (hlim : (channels + 7) / 8 ≤ lim)
    (hC : channels ≤ 255) (hin : pos + channels ≤ samples.length) :
    ∀ (n ch : Nat) (s : Scan), ch + n = channels → s.added_bits.length = 32 →
      scan_column_chk samples eps bm cols lim n (pos + ch) (ch / 8) (ch % 8) s
        = some (scan_column samples eps bm cols n (pos + ch) (ch / 8) (ch % 8) s) := by
  intro n
  induction n with
  | zero => intro ch s _ _; rfl
  | succ n ih =>
    intro ch s hch hs
    rw [scan_column_succ, scan_column_chk,
      scan_cell_chk_eq samples eps bm cols lim pos ch s (by omega) (by omega)
        (by rw [hbm]; omega) (by rw [hs]; omega)]
    simp only
    have hrec := ih (ch + 1) (scan_step samples eps bm cols pos ch s) (by omega)
      (by rw [scan_step_length, hs])
    rw [Nat.add_assoc]
    by_cases h : ch % 8 + 1 ≥ 8
    · rw [if_pos h]
      have e1 : (ch + 1) / 8 = ch / 8 + 1 := by omega
      have e2 : (ch + 1) % 8 = 0 := by omega
      rw [e1, e2] at hrec ⊢
      exact hrec
    · rw [if_neg h]
      have e1 : (ch + 1) / 8 = ch / 8 := by omega
      have e2 : (ch + 1) % 8 = ch % 8 + 1 := by omega
      rw [e1, e2] at hrec ⊢
      exact hrec

theorem merge_bits_chk_eq (ab : List Nat) (lim : Nat) (hab : ab.length = 32)
    (hlim : lim ≤ 32) :
    ∀ (n i : Nat) (bm : List Nat), i + n ≤ lim → bm.length = 32 →
      merge_bits_chk ab lim n i bm = some (merge_bits ab n i bm) := by
  intro n
  induction n with
  | zero => intro i bm _ _; rfl
  | succ n ih =>
    intro i bm hi hbm
    rw [merge_bits_chk, merge_bits, byte_read_eq bm lim i (by omega) (by omega),
      byte_read_eq ab lim i (by omega) (by omega)]
    simp only
    exact ih (i + 1) _ (by omega) (by rw [List.length_set, hbm])

theorem get_payload_dims_loop_chk_eq (samples : List Nat) (channels eps : Nat) (fc : Int)
    (hC : channels ≤ 255) (hlen : channels ∣ samples.length) :
    ∀ (fuel : Nat) (d : Dims), d.bitmask.length = 32 → channels ∣ d.cur_pos →
      get_payload_dims_loop_chk samples channels eps ((channels + 7) / 8) fc fuel d
        = get_payload_dims_loop samples channels eps ((channels + 7) / 8) fc fuel d := by
  intro fuel
  induction fuel with
  | zero => intro d _ _; rfl
  | succ fuel ih =>
    intro d hbm hpos
    rw [get_payload_dims_loop_chk, get_payload_dims_loop_succ]
    by_cases hlt : d.cur_pos < samples.length
    · rw [if_pos hlt, if_pos hlt]
      have hin := aligned_step channels samples.length d.cur_pos hlen hpos hlt
      have hs := scan_column_chk_eq samples eps d.bitmask d.cols_passed ((channels + 7) / 8)
        d.cur_pos channels hbm (le_refl _) hC hin channels 0
        { added_bits := List.replicate 32 0, active_channels := d.active_channels, to_add := 0 }
        (by omega) (by simp)
      simp only [Nat.add_zero, Nat.zero_div, Nat.zero_mod] at hs
      rw [hs]
      simp only
      have hsl : (scan_of samples eps channels d).added_bits.length = 32 := by
        have := (scan_column_spec samples eps d.bitmask d.cols_passed d.cur_pos channels 0
          { added_bits := List.replicate 32 0, active_channels := d.active_channels,
            to_add := 0 } (by simp) (by omega)).1
        simpa only [Nat.add_zero, Nat.zero_div, Nat.zero_mod] using this
      by_cases hfit : ((d.cur_float_cnt + (scan_of samples eps channels d).to_add
              + (scan_of samples eps channels d).active_channels : Nat) : Int) > fc
      · rw [if_pos hfit]
        unfold scan_of at hfit
        rw [if_pos hfit]
        rfl
      · rw [if_neg hfit]
        unfold scan_of at hfit hsl
        rw [if_neg hfit,
          merge_bits_chk_eq _ ((channels + 7) / 8) hsl (by omega) ((channels + 7) / 8) 0 d.bitmask
            (by omega) hbm]
        simp only
        exact ih _
          (by
            show (merge_bits _ _ 0 d.bitmask).length = 32
            rw [(merge_bits_spec _ _ 0 d.bitmask (by rw [hbm]; omega)).1, hbm])
          (Dvd.dvd.add hpos (dvd_refl _))
    · rw [if_neg hlt, if_neg hlt]

theorem write_column_chk_eq (host : Endian) (samples bm : List Nat) (lim pos channels : Nat)
    (hbm : bm.length = 32) (hlim : (channels + 7) / 8 ≤ lim) (hC : channels ≤ 255)
    (hin : pos + channels ≤ samples.length) :
    ∀ (n ch : Nat) (buf : List Nat), ch + n = channels →
      write_column_chk host samples bm lim n (pos + ch) (ch / 8) (ch % 8) buf
        = some (write_column host samples bm n (pos + ch) (ch / 8) (ch % 8) buf) := by
  intro n
  induction n with
  | zero => intro ch buf _; rfl
  | succ n ih =>
    intro ch buf hch
    rw [write_column_succ, write_column_chk,
      byte_read_eq bm lim (ch / 8) (by omega) (by rw [hbm]; omega),
      getElem?_eq_getD samples (pos + ch) (by omega)]
    simp only
    have hb : (if bit_test (bm.getD (ch / 8) 0) (ch % 8) = true then
          Option.map (fun x => buf ++ float_bytes host x) (some (samples.getD (pos + ch) 0))
        else some buf)
        = some (if mask_bit bm ch = true then buf ++ float_bytes host (samples.getD (pos + ch) 0)
            else buf) := by
      unfold mask_bit
      split <;> rfl
    rw [hb]
    simp only
    have hrec := ih (ch + 1)
      (if mask_bit bm ch = true then buf ++ float_bytes host (samples.getD (pos + ch) 0)
        else buf) (by omega)
    rw [Nat.add_assoc]
    by_cases h : ch % 8 + 1 ≥ 8
    · rw [if_pos h]
      have e1 : (ch + 1) / 8 = ch / 8 + 1 := by omega
      have e2 : (ch + 1) % 8 = 0 := by omega
      rw [e1, e2] at hrec ⊢
      exact hrec
    · rw [if_neg h]
      have e1 : (ch + 1) / 8 = ch / 8 := by omega
      have e2 : (ch + 1) % 8 = ch % 8 + 1 := by omega
      rw [e1, e2] at hrec ⊢
      exact hrec

theorem write_columns_chk_eq (host : Endian) (samples bm : List Nat) (lim channels : Nat)
    (hbm : bm.length = 32) (hlim : (channels + 7) / 8 ≤ lim) (hC : channels ≤ 255) :
    ∀ (n pos : Nat) (buf : List Nat), pos + n * channels ≤ samples.length →
      write_columns_chk host samples bm channels lim n pos buf
        = some (write_columns host samples bm channels n pos buf) := by
  intro n
  induction n with
  | zero => intro pos buf _; rfl
  | succ n ih =>
    intro pos buf hin
    have e : pos + (n + 1) * channels = pos + channels + n * channels := by ring
    rw [e] at hin
    have hw := write_column_chk_eq host samples bm lim pos channels hbm hlim hC (by omega)
      channels 0 buf (by omega)
    simp only [Nat.add_zero, Nat.zero_div, Nat.zero_mod] at hw
    rw [write_columns_chk, write_columns, hw]
    simp only
    exact ih (pos + channels) _ hin

theorem encode_bitmask_payload_chk_eq (host : Endian) (samples : List Nat)
    (channels eps from_pos : Nat) (b : Int) (hC1 : 1 ≤ channels) (hC : channels ≤ 255)
    (hlen : channels ∣ samples.length) (hpos : channels ∣ from_pos)
    (hle : from_pos ≤ samples.length) :
    encode_bitmask_payload_chk host samples channels eps from_pos b
      = encode_bitmask_payload host samples channels eps from_pos b := by
  have hloop := get_payload_dims_loop_chk_eq samples channels eps
    (to_int (to_size_t (b - ((channels + 7) / 8 : Nat)) / 4)) hC hlen (samples.length + 1)
    { active_channels := 0, cur_float_cnt := 0, cur_pos := from_pos, cols_passed := 0,
      bitmask := List.replicate 32 0 } (by simp) hpos
  obtain ⟨d, h1, post⟩ := get_payload_dims_spec samples eps channels from_pos
    (b - ((channels + 7) / 8 : Nat)) hC1 hC
  have hchk : get_payload_dims_chk samples channels eps from_pos (List.replicate 32 0)
      ((channels + 7) / 8) (b - ((channels + 7) / 8 : Nat))
      = some (d.cur_pos, d.cols_passed, d.bitmask) := by
    rw [← h1]
    unfold get_payload_dims_chk get_payload_dims
    simp only [hloop]
  have hin : from_pos + d.cols_passed * channels ≤ samples.length :=
    aligned_run channels samples.length from_pos d.cols_passed hlen hpos hle post.inb
  unfold encode_bitmask_payload_chk encode_bitmask_payload
  simp only [hchk, h1]
  rw [if_pos (by rw [post.len]; omega),
    write_columns_chk_eq host samples d.bitmask ((channels + 7) / 8) channels post.len
      (le_refl _) hC d.cols_passed from_pos _ hin]

theorem encode_chk_eq (host : Endian) (samples : List Nat) (channels eps from_pos : Nat)
    (cap : Int) (hC1 : 1 ≤ channels) (hC : channels ≤ 255) (hlen : channels ∣ samples.length)
    (hpos : channels ∣ from_pos) (hle : from_pos ≤ samples.length) :
    encode_chk host samples channels eps from_pos cap
      = encode host samples channels eps from_pos cap := by
  obtain ⟨m, h1, h2, _⟩ := skip_prefix_zeros_spec samples channels eps from_pos hC1
  have hb : from_pos + m * channels ≤ samples.length :=
    aligned_run channels samples.length from_pos m hlen hpos hle (fun j hj => (h2 j hj).1)
  have hs : skip_prefix_zeros_chk samples channels eps from_pos
      = some (from_pos + m * channels, to_int16 m) := by
    rw [← h1]
    unfold skip_prefix_zeros_chk skip_prefix_zeros
    exact skip_prefix_zeros_loop_chk_eq samples channels eps hlen _ _ _ hpos
  unfold encode_chk encode
  simp only [hs, h1]
  have e := encode_bitmask_payload_chk_eq host samples channels eps (from_pos + m * channels)
    (cap - 2) hC1 hC hlen (Dvd.dvd.add hpos (Dvd.intro_left m rfl)) hb
  cases hp : encode_bitmask_payload host samples channels eps (from_pos + m * channels)
      (cap - 2) with
  | none => rw [hp] at e; simp only [e]
  | some p => rw [hp] at e; simp only [e]

/-- C16 (index safety): for `channels` in `[1,255]`, `len(samples)` and `from_pos`
multiples of `channels` and `from_pos ≤ len(samples)`, the execution of `encode` in which
every read of `samples[i]` is checked against `len(samples)` and every access to a byte of
the 32-byte `bitmask` and `added_bits` arrays is checked against `⌈C/8⌉ ≤ 32` passes all
its checks: it returns, with the result of `encode`. -/
theorem encode_index_safe (host : Endian) (samples : List Nat) (channels eps from_pos : Nat)
    (cap : Int) (hC1 : 1 ≤ channels) (hC : channels ≤ 255) (hlen : channels ∣ samples.length)
    (hpos : channels ∣ from_pos) (hle : from_pos ≤ samples.length) :
    (channels + 7) / 8 ≤ 32 ∧
    ∃ (r : Nat) (pkt : List Nat),
      encode_chk host samples channels eps from_pos cap = some (r, pkt) ∧
      encode host samples channels eps from_pos cap = some (r, pkt) := by
  refine ⟨by omega, ?_⟩
  obtain ⟨r, pkt, h, _⟩ := encode_cursor host samples channels eps from_pos cap hlen hpos hle
  have hc := encode_chk_eq host samples channels eps from_pos cap hC1 hC hlen hpos hle
  rw [h] at hc
  exact ⟨r, pkt, hc, h⟩

/-- Witness of C16 on scenario S3 (`C = 4`, forty samples, `from_pos = 0`). -/
theorem encode_index_safe_witness :
    (1 ≤ 4 ∧ 4 ≤ 255 ∧ 4 ∣ s3_samples.length ∧ 4 ∣ 0 ∧ 0 ≤ s3_samples.length) ∧
    ((4 + 7) / 8 ≤ 32 ∧
    ∃ (r : Nat) (pkt : List Nat),
      encode_chk Endian.little s3_samples 4 0x3C23D70A 0 27 = some (r, pkt) ∧
      encode Endian.little s3_samples 4 0x3C23D70A 0 27 = some (r, pkt)) ∧
    encode_chk Endian.little [0, 0, 0] 2 0x3C23D70A 0 64 = none :=
  ⟨by decide,
    encode_index_safe Endian.little s3_samples 4 0x3C23D70A 0 27 (by decide) (by decide)
      (by decide) (by decide) (by decide),
    by decide⟩

end PrefixBitmaskEncoder
